import Mathlib

/-!
# fifoq: a shallow embedding of `fifoq.c` and its contract

The queue of `fifoq.c` is a singly linked list of heap nodes reached from a
queue record (`front`, `rear`, `num_nodes`).  The embedding keeps that shape:

* a handle (`fifoq`) is `none` for `NULL` and otherwise the queue record
  together with the node heap (`Mem`);
* nodes live in a heap indexed by address, `malloc` and `free` update it;
* `size_t` arithmetic wraps modulo `2 ^ 64` (LP64);
* caller memory behind a `void *` is a view `Nat → Nat` (byte at an offset),
  and `memcpy` overwrites its first `n` bytes;
* what the C library decides (allocation, `pthread_mutex_lock` return code,
  what a waiter sees when `pthread_cond_wait` returns) is an explicit `Env`;
* a call that waits on the condition and is never woken ends as `Outcome.blocked`.

`Rep s l` is the invariant of the data model: following `next` from `front` visits
exactly the nodes `l` and stops, `rear` is the last of them, `num_nodes` their number.
The operations are first related to `l` (`push_rep`, `pop_rep`, `front_rep`, `rear_rep`),
then the claims about sequences of calls follow by induction.

Two further readings of the same source serve the later claims: `trace_push`, `trace_pop`,
... list, in program order, the accesses a call makes to the fields of the queue record
and its lock events (`locked_accesses`, `held_after` check the lock discipline on them);
`elements` reads a queue as the list of its elements, to be compared with the list model
of the specification (`spec_push`, `spec_pop`, ...).
-/

namespace Fifoq

/-! ## Platform constants (LP64) -/

/-- Modulus of `size_t` arithmetic. -/
def SIZE_MOD : Nat := 2 ^ 64

/-- The value of `sizeof(void *)`, also `sizeof(data)` in the `memcpy` calls of link mode. -/
def sizeof_ptr : Nat := 8

/-- The value of `sizeof(struct _fifoqn)`: two pointers. -/
def sizeof_fifoqn : Nat := 16

/-- The value of `sizeof(struct _fifoq)`: a padded byte, two `size_t`, three pointers. -/
def sizeof_fifoq : Nat := 48

/-- The value of `sizeof(struct _fifoqn_ts_impl)`: a mutex and a condition variable. -/
def sizeof_ts_impl : Nat := 88

/-- Alignment every `malloc` result has at least (that of a pointer). -/
def MALLOC_ALIGN : Nat := 8

/-- Option bit `fifoq_threadsafe = 0x01`. -/
def fifoq_threadsafe : Nat := 1

/-- Option bit `fifoq_linkdata = 0x02`. -/
def fifoq_linkdata : Nat := 2

/-! ## Memory -/

/-- Memory seen through a non-null `void *`: the byte found at each offset. -/
abbrev Buf := Nat → Nat

/-- Storage nothing has been written to yet. -/
def Buf.zero : Buf := fun _ => 0

/-- The C `memcpy(dst, src, n)`: the first `n` bytes of `dst` become those of `src`. -/
def memcpy (dst src : Buf) (n : Nat) : Buf := fun i => if i < n then src i else dst i

/-- The first `n` bytes behind a pointer, as a list. -/
def Buf.bytes (b : Buf) (n : Nat) : List Nat := (List.range n).map b

/-- The record `struct _fifoqn_ts_impl`, abstracted: whether the calling thread holds the
mutex, and how many times the condition has been signalled. -/
structure _fifoqn_ts_impl where
  mtx : Bool
  cnd : Nat
deriving DecidableEq, Repr

/-- The record `struct _fifoqn`.  The field `data` stands for the element storage of the
node: the `dsize` bytes that follow the node in value-copy mode, the bytes of the pointer
field itself in link mode. -/
structure _fifoqn where
  next : Option Nat
  data : Buf

/-- The record `struct _fifoq`. -/
structure _fifoq where
  opts : Nat
  dsize : Nat
  front : Option Nat
  rear : Option Nat
  num_nodes : Nat
  ts_impl : Option _fifoqn_ts_impl

/-- What a non-null handle gives access to: the queue record and the node heap
(`heap a = none` when no node is allocated at address `a`). -/
structure Mem where
  q : _fifoq
  heap : Nat → Option _fifoqn

/-- The handle type `fifoq` (`struct _fifoq *`): `none` is `NULL`. -/
abbrev fifoq := Option Mem

/-- Everything the C library decides during one call. -/
structure Env where
  /-- address `malloc` would hand out (`none`: it returns `NULL`) -/
  malloc : Option Nat
  /-- return code of `pthread_mutex_init` -/
  mutex_init : Nat
  /-- return code of `pthread_cond_init` -/
  cond_init : Nat
  /-- return code of `pthread_mutex_lock` -/
  mutex_lock : Nat
  /-- shared memory as found on return from each successive `pthread_cond_wait`
  (what the other threads made of it while the mutex was released); when the list is
  exhausted the waiter is never woken again -/
  wakes : List Mem

/-- The C `malloc(size)`: `NULL`, or the address the allocator picks when it is a legal
result: non-null, aligned, the block inside the address space, and not the address of a
block that is still allocated. -/
def malloc (used : Nat → Bool) (size : Nat) (pick : Option Nat) : Option Nat :=
  match pick with
  | none => none
  | some a =>
    if a ≠ 0 ∧ a < SIZE_MOD ∧ a % MALLOC_ALIGN = 0 ∧ a + size ≤ SIZE_MOD ∧ used a = false
    then some a
    else none

/-- The call `pthread_mutex_lock(&q->ts_impl->mtx)`: return code and record afterwards. -/
def pthread_mutex_lock (env : Env) (ts : Option _fifoqn_ts_impl) :
    Nat × Option _fifoqn_ts_impl :=
  if env.mutex_lock = 0 then (0, ts.map fun t => { t with mtx := true })
  else (env.mutex_lock, ts)

/-- The call `pthread_mutex_unlock(&q->ts_impl->mtx)`. -/
def pthread_mutex_unlock (ts : Option _fifoqn_ts_impl) : Option _fifoqn_ts_impl :=
  ts.map fun t => { t with mtx := false }

/-- The call `pthread_cond_signal(&q->ts_impl->cnd)`. -/
def pthread_cond_signal (ts : Option _fifoqn_ts_impl) : Option _fifoqn_ts_impl :=
  ts.map fun t => { t with cnd := t.cnd + 1 }

/-- The local `q_threadsafe = q->opts & fifoq_threadsafe`. -/
def q_threadsafe (q : _fifoq) : Bool := decide (q.opts &&& fifoq_threadsafe ≠ 0)

/-- The local `q_linkdata = q->opts & fifoq_linkdata`. -/
def q_linkdata (q : _fifoq) : Bool := decide (q.opts &&& fifoq_linkdata ≠ 0)

/-- Element storage of the node at `a` (zeroes if no node is allocated there, which C
leaves undefined). -/
def node_data (heap : Nat → Option _fifoqn) (a : Nat) : Buf :=
  match heap a with
  | some n => n.data
  | none => Buf.zero

/-- The field `next` of the node at `a` (`NULL` if no node is allocated there). -/
def node_next (heap : Nat → Option _fifoqn) (a : Nat) : Option Nat :=
  match heap a with
  | some n => n.next
  | none => none

/-- The assignment `p->next = node` (nothing if `p` is `NULL` or not allocated). -/
def set_next (heap : Nat → Option _fifoqn) (p : Option Nat) (node : Nat) :
    Nat → Option _fifoqn :=
  match p with
  | none => heap
  | some r =>
    match heap r with
    | none => heap
    | some n => Function.update heap r (some { n with next := some node })

/-- The size asked of `malloc` for a node, `sizeof(* node) + (q_dsize * !q_linkdata)`, in
`size_t` arithmetic. -/
def node_size (q : _fifoq) : Nat :=
  (sizeof_fifoqn + (q.dsize * (if q_linkdata q then 0 else 1)) % SIZE_MOD) % SIZE_MOD

/-- The size asked of `malloc` for the queue,
`sizeof(* q) + (sizeof(struct _fifoqn_ts_impl) * q_threadsafe)`, in `size_t` arithmetic. -/
def queue_size (opts : Nat) : Nat :=
  (sizeof_fifoq + (sizeof_ts_impl * (if opts &&& 1 ≠ 0 then 1 else 0)) % SIZE_MOD) % SIZE_MOD

/-! ## The operations -/

/-- The function `_fifoq_init` (fifoq.c:37).  Without the thread-safe flag the field
`ts_impl` is left unset by the C code and never read; it is `none` here. -/
def _fifoq_init (env : Env) (dsize opts : Nat) : fifoq :=
  if dsize = 0 ∨ opts > 3 then none
  else
    let ts : Bool := decide (opts &&& 1 ≠ 0)
    match malloc (fun _ => false) (queue_size opts) env.malloc with
    | none => none
    | some _ =>
      if ts then
        if env.mutex_init ≠ 0 then none
        else if env.cond_init ≠ 0 then none
        else some
          { q := { opts := opts, dsize := dsize, front := none, rear := none, num_nodes := 0,
                   ts_impl := some { mtx := false, cnd := 0 } },
            heap := fun _ => none }
      else some
        { q := { opts := opts, dsize := dsize, front := none, rear := none, num_nodes := 0,
                 ts_impl := none },
          heap := fun _ => none }

/-- The function `fifoq_push` (fifoq.c:74): result and handle contents afterwards. -/
def fifoq_push (env : Env) (q : fifoq) (data : Option Buf) : Bool × fifoq :=
  match q, data with
  | none, _ => (false, none)
  | some s, none => (false, some s)
  | some s, some data =>
    let linkdata := q_linkdata s.q
    let dsize := s.q.dsize
    let threadsafe := q_threadsafe s.q
    match malloc (fun a => (s.heap a).isSome) (node_size s.q) env.malloc with
    | none => (false, some s)
    | some node =>
      let stored : Buf :=
        if linkdata then memcpy Buf.zero data sizeof_ptr else memcpy Buf.zero data dsize
      -- the block, with `node->next = NULL` (line 106; the field is not read before)
      let heap1 := Function.update s.heap node (some { next := none, data := stored })
      let lock := if threadsafe then pthread_mutex_lock env s.q.ts_impl else (0, s.q.ts_impl)
      if lock.1 ≠ 0 then
        -- free(node)
        (false, some { s with heap := Function.update heap1 node none })
      else
        let heap2 :=
          match s.q.front with
          | none => heap1
          | some _ => set_next heap1 s.q.rear node
        let front := match s.q.front with
          | none => some node
          | some f => some f
        let ts :=
          if threadsafe then pthread_mutex_unlock (pthread_cond_signal lock.2) else lock.2
        (true, some
          { q := { s.q with front := front, rear := some node,
                            num_nodes := (s.q.num_nodes + 1) % SIZE_MOD, ts_impl := ts },
            heap := heap2 })

/-- The function `fifoq_count` (fifoq.c:134). -/
def fifoq_count (env : Env) (q : fifoq) : Nat × fifoq :=
  match q with
  | none => (0, none)
  | some s =>
    let threadsafe := q_threadsafe s.q
    let lock := if threadsafe then pthread_mutex_lock env s.q.ts_impl else (0, s.q.ts_impl)
    if lock.1 ≠ 0 then (0, some s)
    else
      let ts := if threadsafe then pthread_mutex_unlock lock.2 else lock.2
      (s.q.num_nodes, some { s with q := { s.q with ts_impl := ts } })

/-- How a call that may wait ends. -/
inductive Outcome (α : Type) where
  /-- the call returns `val`, leaving the handle contents `q` -/
  | ret (val : α) (q : fifoq)
  /-- the call never returns: it is suspended in `pthread_cond_wait`, the mutex released -/
  | blocked (q : fifoq)

/-- The value returned, if the call returns. -/
def Outcome.val? {α : Type} : Outcome α → Option α
  | .ret v _ => some v
  | .blocked _ => none

/-- The loop `while (q->front == NULL) pthread_cond_wait(...)` (fifoq.c:181), entered with
the mutex held.  `(true, s)`: the loop is left in `s`; `(false, s)`: the thread waits
forever, `s` being what it last saw. -/
def cond_wait_loop (s : Mem) : List Mem → Bool × Mem
  | [] =>
    if s.q.front = none then
      (false, { s with q := { s.q with ts_impl := pthread_mutex_unlock s.q.ts_impl } })
    else (true, s)
  | w :: ws =>
    if s.q.front = none then
      cond_wait_loop
        { w with q := { w.q with ts_impl := w.q.ts_impl.map fun t => { t with mtx := true } } }
        ws
    else (true, s)

/-- Lines 191-225 of `_fifoq_pop`: the head node is taken (`popoff`) or copied out.
`threadsafe` is the local computed on entry. -/
def _fifoq_pop_head (s : Mem) (threadsafe popoff : Bool) (data : Option Buf) :
    Option Nat × Option Buf × Mem :=
  match s.q.front with
  | none => (none, data, s) -- not reached: `_fifoq_pop` gets here with a non-null head only
  | some front =>
    let unlock := fun (t : Option _fifoqn_ts_impl) =>
      if threadsafe then pthread_mutex_unlock t else t
    if popoff then
      let next := node_next s.heap front
      (some front, data,
        { q := { s.q with front := next,
                          num_nodes := (s.q.num_nodes + SIZE_MOD - 1) % SIZE_MOD,
                          rear := if next = none then none else s.q.rear,
                          ts_impl := unlock s.q.ts_impl },
          heap := Function.update s.heap front none })
    else
      let out := data.map fun d =>
        if q_linkdata s.q then memcpy d (node_data s.heap front) sizeof_ptr
        else memcpy d (node_data s.heap front) s.q.dsize
      (some front, out, { s with q := { s.q with ts_impl := unlock s.q.ts_impl } })

/-- The function `_fifoq_pop` (fifoq.c:165).  `data` is the variadic argument (absent
when `popoff`).  The value is the returned node pointer and the output buffer. -/
def _fifoq_pop (env : Env) (q : fifoq) (popoff : Bool) (data : Option Buf) :
    Outcome (Option Nat × Option Buf) :=
  match q with
  | none => .ret (none, data) none
  | some s =>
    let threadsafe := q_threadsafe s.q
    if threadsafe then
      let lock := pthread_mutex_lock env s.q.ts_impl
      if lock.1 ≠ 0 then .ret (none, data) (some s)
      else
        let w := cond_wait_loop { s with q := { s.q with ts_impl := lock.2 } } env.wakes
        if w.1 then
          let r := _fifoq_pop_head w.2 threadsafe popoff data
          .ret (r.1, r.2.1) (some r.2.2)
        else .blocked (some w.2)
    else if s.q.front = none then .ret (none, data) (some s)
    else
      let r := _fifoq_pop_head s threadsafe popoff data
      .ret (r.1, r.2.1) (some r.2.2)

/-- The function `fifoq_pop` (fifoq.c:229). -/
def fifoq_pop (env : Env) (q : fifoq) : Outcome Bool :=
  match _fifoq_pop env q true none with
  | .ret v q1 => .ret v.1.isSome q1
  | .blocked q1 => .blocked q1

/-- The function `fifoq_empty` (fifoq.c:237). -/
def fifoq_empty (env : Env) (q : fifoq) : Bool × fifoq :=
  let c := fifoq_count env q
  (c.1 == 0, c.2)

/-- The function `fifoq_front` (fifoq.c:245): result and output buffer. -/
def fifoq_front (env : Env) (q : fifoq) (data : Option Buf) : Outcome (Bool × Option Buf) :=
  match data with
  | none => .ret (false, none) q
  | some d =>
    match _fifoq_pop env q false (some d) with
    | .ret v q1 => .ret (v.1.isSome, v.2) q1
    | .blocked q1 => .blocked q1

/-- The function `fifoq_rear` (fifoq.c:257): result, output buffer, handle contents. -/
def fifoq_rear (env : Env) (q : fifoq) (data : Option Buf) : Bool × Option Buf × fifoq :=
  match q, data with
  | none, d => (false, d, none)
  | some s, none => (false, none, some s)
  | some s, some d =>
    let threadsafe := q_threadsafe s.q
    let lock := if threadsafe then pthread_mutex_lock env s.q.ts_impl else (0, s.q.ts_impl)
    if lock.1 ≠ 0 then (false, some d, some s)
    else
      let ts := if threadsafe then pthread_mutex_unlock lock.2 else lock.2
      let s1 : Mem := { s with q := { s.q with ts_impl := ts } }
      match s.q.rear with
      | none => (false, some d, some s1)
      | some rear =>
        let out :=
          if q_linkdata s.q then memcpy d (node_data s.heap rear) sizeof_ptr
          else memcpy d (node_data s.heap rear) s.q.dsize
        (true, some out, some s1)

/-! ## Sequences of calls -/

/-- One call of the public interface, with what the C library decides during it. -/
inductive Call where
  | push (env : Env) (data : Option Buf)
  | pop (env : Env)
  | front (env : Env) (data : Option Buf)
  | rear (env : Env) (data : Option Buf)

/-- The library decisions a call is made under. -/
def Call.env : Call → Env
  | .push env _ => env
  | .pop env => env
  | .front env _ => env
  | .rear env _ => env

/-- Whether the call is a `fifoq_push`. -/
def Call.isPush : Call → Bool
  | .push _ _ => true
  | _ => false

/-- Whether the call is a `fifoq_pop`. -/
def Call.isPop : Call → Bool
  | .pop _ => true
  | _ => false

/-- The boolean a call returns and the handle contents it leaves. -/
def Call.exec (c : Call) (q : fifoq) : Outcome Bool :=
  match c with
  | .push env d => .ret (fifoq_push env q d).1 (fifoq_push env q d).2
  | .pop env => fifoq_pop env q
  | .front env d =>
    match fifoq_front env q d with
    | .ret v q1 => .ret v.1 q1
    | .blocked q1 => .blocked q1
  | .rear env d => .ret (fifoq_rear env q d).1 (fifoq_rear env q d).2.2

/-- Handle contents after the calls are made one after the other by a single thread
(a thread that blocks makes no further call). -/
def run : List Call → fifoq → fifoq
  | [], q => q
  | c :: cs, q =>
    match c.exec q with
    | .ret _ q1 => run cs q1
    | .blocked q1 => q1

/-- Number of calls of the sequence that satisfy `p` and return `true`. -/
def successes (p : Call → Bool) : List Call → fifoq → Nat
  | [], _ => 0
  | c :: cs, q =>
    match c.exec q with
    | .ret v q1 => (if p c && v then 1 else 0) + successes p cs q1
    | .blocked _ => 0

/-- The element a call adds to the queue when it returns `v`. -/
def Call.pushed (c : Call) (v : Bool) : Option Buf :=
  match c with
  | .push _ (some d) => if v then some d else none
  | _ => none

/-- The element handed to the latest `fifoq_push` of the sequence that returned `true`
(`acc` when there is none). -/
def last_pushed : Option Buf → List Call → fifoq → Option Buf
  | acc, [], _ => acc
  | acc, c :: cs, q =>
    match c.exec q with
    | .ret v q1 => last_pushed ((c.pushed v).orElse fun _ => acc) cs q1
    | .blocked _ => acc

/-- Pushing the elements in order, each push with its own allocator decision; the result
says whether every push returned `true`. -/
def push_all : List (Env × Buf) → fifoq → Bool × fifoq
  | [], q => (true, q)
  | x :: xs, q =>
    let r := fifoq_push x.1 q (some x.2)
    let rest := push_all xs r.2
    (r.1 && rest.1, rest.2)

/-- Repeating (`fifoq_front`, then `fifoq_pop`) once per buffer: for every round, whether
front returned `true`, the output buffer after it, and whether pop returned `true`
(the list stops at a round that blocks). -/
def drain : List (Env × Buf) → fifoq → List (Bool × Option Buf × Bool)
  | [], _ => []
  | o :: os, q =>
    match fifoq_front o.1 q (some o.2) with
    | .blocked _ => []
    | .ret f q1 =>
      match fifoq_pop o.1 q1 with
      | .blocked _ => []
      | .ret p q2 => (f.1, f.2, p) :: drain os q2

/-! ## The data-model invariant -/

/-- Number of bytes of an element: `dsize`, or the width of a pointer in link mode. -/
def width (q : _fifoq) : Nat := if q_linkdata q then sizeof_ptr else q.dsize

/-- Following `next` from `p` visits exactly the nodes of `l` (address and element
storage), in order, and then reaches `NULL`. -/
def Chain (heap : Nat → Option _fifoqn) : Option Nat → List (Nat × Buf) → Prop
  | p, [] => p = none
  | p, x :: xs => p = some x.1 ∧ ∃ n, heap x.1 = some n ∧ n.data = x.2 ∧ Chain heap n.next xs

/-- The queue is well formed and holds the nodes `l` from head to tail. -/
structure Rep (s : Mem) (l : List (Nat × Buf)) : Prop where
  chain : Chain s.heap s.q.front l
  nodup : (l.map Prod.fst).Nodup
  rear : s.q.rear = (l.map Prod.fst).getLast?
  count : s.q.num_nodes = l.length
  addr : ∀ a ∈ l.map Prod.fst, a ≠ 0 ∧ a % MALLOC_ALIGN = 0 ∧ a < SIZE_MOD
  owned : ∀ a, (s.heap a).isSome = true → a ∈ l.map Prod.fst

/-- The invariants of the data model hold. -/
def Valid (s : Mem) : Prop := ∃ l, Rep s l

/-- The two states have the same options, element size, head, tail, length and nodes
(they can differ in the state of the mutex and condition only). -/
def SameQueue (s1 s : Mem) : Prop :=
  s1.q.opts = s.q.opts ∧ s1.q.dsize = s.q.dsize ∧ s1.q.front = s.q.front ∧
  s1.q.rear = s.q.rear ∧ s1.q.num_nodes = s.q.num_nodes ∧ s1.heap = s.heap

/-- How the list of nodes changes (`l` before, `l1` after) when the call `c` returns `v`
on a queue of element width `w`. -/
def Trans (w : Nat) (c : Call) (v : Bool) (l l1 : List (Nat × Buf)) : Prop :=
  match c, v with
  | .push _ (some d), true => ∃ a, l1 = l ++ [(a, memcpy Buf.zero d w)]
  | .push _ none, true => False
  | .pop _, true => ∃ x, l = x :: l1
  | _, _ => l1 = l

/-- The tail node of the list, if any, holds the first `w` bytes of the element `acc`. -/
def LastIs (w : Nat) (l : List (Nat × Buf)) (acc : Option Buf) : Prop :=
  ∀ x, l.getLast? = some x → ∃ d, acc = some d ∧ x.2 = memcpy Buf.zero d w

/-! ## Concrete inputs -/

/-- Library decisions under which every call succeeds; `malloc` hands out address `a`. -/
def env_ok (a : Nat) : Env :=
  { malloc := some a, mutex_init := 0, cond_init := 0, mutex_lock := 0, wakes := [] }

/-- As `env_ok`, except that `pthread_mutex_lock` returns `EINVAL` (22). -/
def env_lock_fails (a : Nat) : Env :=
  { malloc := some a, mutex_init := 0, cond_init := 0, mutex_lock := 22, wakes := [] }

/-- As `env_ok`, except that `malloc` returns `NULL`. -/
def env_no_memory : Env :=
  { malloc := none, mutex_init := 0, cond_init := 0, mutex_lock := 0, wakes := [] }

/-- A buffer holding the byte `b` at offset 0 and zeroes after it. -/
def byte_buf (b : Nat) : Buf := fun i => if i = 0 then b else 0

/-- The state `_fifoq_init` returns for `dsize` and `opts` when nothing fails. -/
def fresh_mem (dsize opts : Nat) : Mem :=
  { q := { opts := opts, dsize := dsize, front := none, rear := none, num_nodes := 0,
           ts_impl := if opts &&& 1 ≠ 0 then some { mtx := false, cnd := 0 } else none },
    heap := fun _ => none }

/-- Two pushes, of the one-byte elements 100 and 50, that nothing prevents. -/
def two_pushes : List Call :=
  [.push (env_ok 32) (some (byte_buf 100)), .push (env_ok 64) (some (byte_buf 50))]

/-- A queue of one-byte elements with options `opts`, holding the single element 100 in a
node at address 32. -/
def one_node (opts : Nat) : Mem :=
  { q := { opts := opts, dsize := 1, front := some 32, rear := some 32, num_nodes := 1,
           ts_impl := if opts &&& 1 ≠ 0 then some { mtx := false, cnd := 0 } else none },
    heap := Function.update (fun _ => none) 32 (some { next := none, data := byte_buf 100 }) }

/-! ## Caller memory -/

/-- The pointer whose bytes (little-endian, `sizeof(void *)` of them) are found behind
`b`: the handle a link-mode queue stores. -/
def load_ptr (b : Buf) : Nat := (b.bytes sizeof_ptr).foldr (fun x acc => x + 256 * acc) 0

/-! ## What a call does to the queue record and to the lock, in program order -/

/-- The fields of `struct _fifoq`. -/
inductive Field where
  | opts
  | dsize
  | front
  | rear
  | num_nodes
  | ts_impl
deriving DecidableEq, Repr

/-- One step of a call that concerns the queue record or its lock. -/
inductive Ev where
  /-- the call `pthread_mutex_lock` returned 0: the mutex is held from here on -/
  | lock_ok
  /-- the call `pthread_mutex_lock` returned an error: the mutex is not acquired -/
  | lock_failed
  /-- the call `pthread_mutex_unlock` -/
  | unlock
  /-- the call `pthread_cond_signal` -/
  | signal
  /-- a `pthread_cond_wait` that returned: the mutex was released while waiting and is
  held again from here on -/
  | wait
  /-- a `pthread_cond_wait` that never returns: the mutex is released and the call ends
  there -/
  | sleep
  /-- a read of `q->field` -/
  | rd (f : Field)
  /-- a write of `q->field` -/
  | wr (f : Field)
deriving DecidableEq, Repr

/-- The fields that hold the head, the tail and the length. -/
def Field.guarded : Field → Bool
  | .front => true
  | .rear => true
  | .num_nodes => true
  | _ => false

/-- Steps of `pthread_mutex_lock(&q->ts_impl->mtx)`. -/
def trace_lock (env : Env) : List Ev :=
  if env.mutex_lock ≠ 0 then [.rd .ts_impl, .lock_failed] else [.rd .ts_impl, .lock_ok]

/-- Steps of `fifoq_push` (fifoq.c:74-129). -/
def trace_push (env : Env) (q : fifoq) (data : Option Buf) : List Ev :=
  match q, data with
  | none, _ => []
  | some _, none => []
  | some s, some _ =>
    -- lines 80-83: the locals
    [.rd .opts, .rd .dsize, .rd .opts] ++
    match malloc (fun a => (s.heap a).isSome) (node_size s.q) env.malloc with
    | none => []
    | some _ =>
      -- lines 108-116
      let link : List Ev :=
        [.rd .front] ++
        (if s.q.front = none then [.wr .front, .wr .rear] else [.rd .rear, .wr .rear]) ++
        [.rd .num_nodes, .wr .num_nodes]
      if q_threadsafe s.q then
        trace_lock env ++
        (if env.mutex_lock ≠ 0 then []
         else link ++ [.rd .ts_impl, .signal, .rd .ts_impl, .unlock])
      else link

/-- Steps of `fifoq_count` (fifoq.c:134-160). -/
def trace_count (env : Env) (q : fifoq) : List Ev :=
  match q with
  | none => []
  | some s =>
    [.rd .opts] ++
    if q_threadsafe s.q then
      trace_lock env ++
      (if env.mutex_lock ≠ 0 then [] else [.rd .num_nodes, .rd .ts_impl, .unlock])
    else [.rd .num_nodes]

/-- Steps of the loop `while (q->front == NULL) pthread_cond_wait(...)`, as
`cond_wait_loop` runs it. -/
def trace_wait (s : Mem) : List Mem → List Ev
  | [] =>
    if s.q.front = none then [.rd .front, .rd .ts_impl, .sleep] else [.rd .front]
  | w :: ws =>
    if s.q.front = none then
      [.rd .front, .rd .ts_impl, .wait] ++
        trace_wait
          { w with q := { w.q with ts_impl := w.q.ts_impl.map fun t => { t with mtx := true } } }
          ws
    else [.rd .front]

/-- Steps of lines 191-217 of `_fifoq_pop`, as `_fifoq_pop_head` runs them. -/
def trace_head (s : Mem) (popoff : Bool) : List Ev :=
  match s.q.front with
  | none => [.rd .front]
  | some front =>
    [.rd .front] ++
    if popoff then
      [.wr .front, .rd .num_nodes, .wr .num_nodes, .rd .front] ++
      (if node_next s.heap front = none then [.wr .rear] else [])
    else
      [.rd .opts] ++ (if q_linkdata s.q then [] else [.rd .dsize])

/-- Steps of `_fifoq_pop` (fifoq.c:165-227). -/
def trace_pop (env : Env) (q : fifoq) (popoff : Bool) : List Ev :=
  match q with
  | none => []
  | some s =>
    [.rd .opts] ++
    if q_threadsafe s.q then
      trace_lock env ++
      (if env.mutex_lock ≠ 0 then []
       else
        let locked : Mem := { s with q := { s.q with ts_impl := (pthread_mutex_lock env s.q.ts_impl).2 } }
        let w := cond_wait_loop locked env.wakes
        trace_wait locked env.wakes ++
        (if w.1 then trace_head w.2 popoff ++ [.rd .ts_impl, .unlock] else []))
    else
      [.rd .front] ++ (if s.q.front = none then [] else trace_head s popoff)

/-- Steps of `fifoq_front` (fifoq.c:245-252). -/
def trace_front (env : Env) (q : fifoq) (data : Option Buf) : List Ev :=
  match data with
  | none => []
  | some _ => trace_pop env q false

/-- Steps of `fifoq_rear` (fifoq.c:257-292). -/
def trace_rear (env : Env) (q : fifoq) (data : Option Buf) : List Ev :=
  match q, data with
  | none, _ => []
  | some _, none => []
  | some s, some _ =>
    let copy : List Ev :=
      [.rd .rear] ++
      (if s.q.rear = none then []
       else [.rd .opts, .rd .rear] ++ (if q_linkdata s.q then [] else [.rd .dsize]))
    [.rd .opts] ++
    if q_threadsafe s.q then
      trace_lock env ++
      (if env.mutex_lock ≠ 0 then [] else copy ++ [.rd .ts_impl, .unlock])
    else copy

/-- Steps of `fifoq_empty` (fifoq.c:237-240): those of the `fifoq_count` it calls. -/
def trace_empty (env : Env) (q : fifoq) : List Ev := trace_count env q

/-- Steps of `fifoq_destroy` (fifoq.c:297-324).  The loop that frees the nodes reads and
frees nodes only; no lock call occurs anywhere in the function. -/
def trace_destroy (q : fifoq) : List Ev :=
  match q with
  | none => []
  | some s =>
    [.rd .front, .rd .opts] ++
    (if q_threadsafe s.q then [.rd .ts_impl, .rd .ts_impl] else []) ++
    [.wr .ts_impl, .wr .rear, .wr .front, .wr .dsize, .wr .opts, .wr .num_nodes]

/-- Whether the mutex is held after the step, given whether it was held before. -/
def Ev.holds (held : Bool) : Ev → Bool
  | .lock_ok => true
  | .wait => true
  | .unlock => false
  | .sleep => false
  | _ => held

/-- Whether every read or write of the head, the tail or the length in the steps is
made with the mutex held (`held`: whether it is held at the start). -/
def locked_accesses : Bool → List Ev → Bool
  | _, [] => true
  | held, .rd f :: es => (!f.guarded || held) && locked_accesses held es
  | held, .wr f :: es => (!f.guarded || held) && locked_accesses held es
  | held, e :: es => locked_accesses (e.holds held) es

/-- Whether the mutex is held after the steps. -/
def held_after : Bool → List Ev → Bool
  | held, [] => held
  | held, e :: es => held_after (e.holds held) es

/-- What a waiter finds when `pthread_cond_wait` returns in `w`: the memory `w`, with the
mutex held again. -/
def woken (w : Mem) : Mem :=
  { w with q := { w.q with ts_impl := w.q.ts_impl.map fun t => { t with mtx := true } } }

/-! ## One producer, one waiting consumer -/

/-- The handle contents a call leaves, whether it returns or waits forever. -/
def Outcome.state {α : Type} : Outcome α → fifoq
  | .ret _ q => q
  | .blocked q => q

/-- Number of `pthread_cond_signal` calls made on the condition of the queue so far. -/
def cnd_count (q : fifoq) : Nat :=
  match q with
  | none => 0
  | some s =>
    match s.q.ts_impl with
    | none => 0
    | some t => t.cnd

/-- The wake-ups of a thread waiting in `pthread_cond_wait` while another thread makes one
call that takes the queue from `before` to `after`: it is woken, in `after`, if that call
signalled the condition, and not woken otherwise. -/
def handoff_wakes (before after : fifoq) : List Mem :=
  match after with
  | none => []
  | some a => if cnd_count before < cnd_count after then [a] else []

/-! ## The self-test `fifoq_test` -/

/-- The record `struct _fifoqt`: `name` is a `char *` (the address of a string), `age` an
`unsigned`. -/
structure _fifoqt where
  name : Nat
  age : Nat
deriving DecidableEq, Repr

/-- The value of `sizeof(struct _fifoqt)`: a pointer, an `unsigned`, four bytes of
padding. -/
def sizeof_fifoqt : Nat := 16

/-- The bytes of a `struct _fifoqt` in memory (little-endian; the padding reads 0). -/
def store_fifoqt (v : _fifoqt) : Buf := fun i =>
  if i < 8 then v.name / 256 ^ i % 256
  else if i < 12 then v.age / 256 ^ (i - 8) % 256
  else 0

/-- The `struct _fifoqt` found in memory. -/
def load_fifoqt (b : Buf) : _fifoqt :=
  { name := load_ptr b,
    age := ((List.range 4).map fun i => b (8 + i)).foldr (fun x acc => x + 256 * acc) 0 }

/-- Address of the string literal `"max"`. -/
def str_max : Nat := 4096

/-- Address of the string literal `"mustermann"`. -/
def str_mustermann : Nat := 4104

/-- Address of the string literal `"hans"`. -/
def str_hans : Nat := 4120

/-- The characters of the string stored at an address (up to its terminating NUL). -/
def c_string (p : Nat) : List Nat :=
  if p = str_max then [109, 97, 120]
  else if p = str_mustermann then [109, 117, 115, 116, 101, 114, 109, 97, 110, 110]
  else if p = str_hans then [104, 97, 110, 115]
  else []

/-- The C `strcmp(a, b) != 0`, on the addresses of two strings. -/
def strcmp_ne (a b : Nat) : Bool := c_string a != c_string b

/-- Whether a `fifoq_front` call returned `true` (a call that never returns did not). -/
def front_ok (o : Outcome (Bool × Option Buf)) : Bool :=
  match o with
  | .ret v _ => v.1
  | .blocked _ => false

/-- The output buffer after a `fifoq_front` call that was given `buf`. -/
def front_buf (o : Outcome (Bool × Option Buf)) (buf : Buf) : Buf :=
  match o with
  | .ret v _ => v.2.getD buf
  | .blocked _ => buf

/-- The function `fifoq_test` (fifoq.c:334).  `ienv`, `e1`, `e2`, `e3` are what the
library decides for the creation and the three pushes, `e` for the other calls; `junk` is
what the uninitialised locals `front`, `rear` and `pop` hold.  A `goto fail` gives
`false`. -/
def fifoq_test (ienv e1 e2 e3 e : Env) (junk : Buf) : Bool :=
  let q := _fifoq_init ienv sizeof_fifoqt 0
  let val : _fifoqt := { name := str_hans, age := 30 }
  let p1 := fifoq_push e1 q (some (store_fifoqt { name := str_max, age := 100 }))
  if p1.1 = false then false else
  let p2 := fifoq_push e2 p1.2 (some (store_fifoqt { name := str_mustermann, age := 50 }))
  if p2.1 = false then false else
  let p3 := fifoq_push e3 p2.2 (some (store_fifoqt val))
  if p3.1 = false then false else
  let f1 := fifoq_front e p3.2 (some junk)
  if front_ok f1 = false then false else
  let front := load_fifoqt (front_buf f1 junk)
  let r1 := fifoq_rear e f1.state (some junk)
  if r1.1 = false then false else
  let rear := load_fifoqt (r1.2.1.getD junk)
  let o1 := fifoq_pop e r1.2.2
  if o1.val? ≠ some true then false else
  let f2 := fifoq_front e o1.state (some junk)
  if front_ok f2 = false then false else
  let pop := load_fifoqt (front_buf f2 junk)
  let o2 := fifoq_pop e f2.state
  if o2.val? ≠ some true then false else
  if strcmp_ne str_max front.name || front.age != 100 then false else
  if strcmp_ne str_hans rear.name || rear.age != 30 then false else
  if strcmp_ne str_mustermann pop.name || pop.age != 50 then false else
  let f3 := fifoq_front e o2.state (some (front_buf f2 junk))
  let pop2 := load_fifoqt (front_buf f3 (front_buf f2 junk))
  if strcmp_ne str_hans pop2.name || pop2.age != 30 then false else
  let c := fifoq_count e f3.state
  if c.1 != 1 then false else
  let o3 := fifoq_pop e c.2
  if o3.val? ≠ some true then false else
  let o4 := fifoq_pop e o3.state
  if o4.val? = some true then false else
  true

/-! ## Sequences that also count -/

/-- One call of the interface: one of `Call`, or a `fifoq_count`. -/
inductive Op where
  | call (c : Call)
  | count (env : Env)

/-- The library decisions an operation is made under. -/
def Op.env : Op → Env
  | .call c => c.env
  | .count env => env

/-- Handle contents after the operations are made one after the other by a single thread
(a thread that blocks makes no further call). -/
def reach : List Op → fifoq → fifoq
  | [], q => q
  | .call c :: os, q =>
    match c.exec q with
    | .ret _ q1 => reach os q1
    | .blocked q1 => q1
  | .count env :: os, q => reach os (fifoq_count env q).2

/-- A push, a count and a pop that nothing prevents. -/
def push_count_pop : List Op :=
  [.call (.push (env_ok 32) (some (byte_buf 7))), .count (env_ok 0), .call (.pop (env_ok 0))]

/-! ## The list a queue stands for -/

/-- The element storage of the nodes met by following `next` from `p`, at most `fuel` of
them. -/
def walk (heap : Nat → Option _fifoqn) : Nat → Option Nat → List Buf
  | 0, _ => []
  | _ + 1, none => []
  | fuel + 1, some a =>
    match heap a with
    | none => []
    | some n => n.data :: walk heap fuel n.next

/-- The elements of the queue from head to tail: those of the `num_nodes` nodes reached
from `front`. -/
def elements (s : Mem) : List Buf := walk s.heap s.q.num_nodes s.q.front

/-- The list model of the specification: creation yields the empty list. -/
def spec_init : List Buf := []

/-- The list model of the specification: a successful push of `x` maps `l` to
`l ++ [x]`. -/
def spec_push (l : List Buf) (x : Buf) : List Buf := l ++ [x]

/-- The list model of the specification: pop succeeds iff `l` is non-empty and maps `l`
to its tail. -/
def spec_pop (l : List Buf) : Bool × List Buf := (!l.isEmpty, l.tail)

/-- The list model of the specification: front succeeds iff `l` is non-empty and gives
the first element of `l`. -/
def spec_front (l : List Buf) : Option Buf := l.head?

/-- The list model of the specification: rear succeeds iff `l` is non-empty and gives the
last element of `l`. -/
def spec_rear (l : List Buf) : Option Buf := l.getLast?

/-- The list model of the specification: count is the length of `l`. -/
def spec_count (l : List Buf) : Nat := l.length

/-- The output buffer `out` after a peek that found `x` (the first `w` bytes are those of
the element) or found nothing. -/
def peeked (w : Nat) (out : Buf) (x : Option Buf) : Buf :=
  match x with
  | none => out
  | some e => memcpy out e w

/-! ## Lemmas on the heap -/

theorem chain_update_other (h : Nat → Option _fifoqn) (a : Nat) (v : Option _fifoqn) :
    ∀ (l : List (Nat × Buf)) (p : Option Nat), a ∉ l.map Prod.fst → Chain h p l →
      Chain (Function.update h a v) p l := by
  intro l
  induction l with
  | nil => intro p _ hc; exact hc
  | cons x xs ih =>
    intro p hna hc
    obtain ⟨hp, n, hn, hd, hrest⟩ := hc
    have hx : x.1 ≠ a := by
      intro e; apply hna; simp [e.symm]
    refine ⟨hp, n, ?_, hd, ih _ ?_ hrest⟩
    · rw [Function.update_noteq hx]; exact hn
    · intro hm; apply hna; simp only [List.map_cons, List.mem_cons]; exact Or.inr hm

theorem set_next_other (h : Nat → Option _fifoqn) (p : Option Nat) (a b : Nat)
    (hb : p ≠ some b) : set_next h p a b = h b := by
  unfold set_next
  cases p with
  | none => rfl
  | some r =>
    have hbr : b ≠ r := fun e => hb (by rw [e])
    have key : ∀ o : Option _fifoqn, (match o with
        | none => h
        | some n => Function.update h r (some { n with next := some a })) b = h b := by
      intro o
      cases o with
      | none => rfl
      | some n => exact Function.update_noteq hbr _ _
    exact key (h r)

theorem chain_mem_some (h : Nat → Option _fifoqn) :
    ∀ (l : List (Nat × Buf)) (p : Option Nat), Chain h p l →
      ∀ a ∈ l.map Prod.fst, (h a).isSome = true := by
  intro l
  induction l with
  | nil => intro p _ a ha; simp at ha
  | cons x xs ih =>
    intro p hc a ha
    obtain ⟨_, n, hn, _, hrest⟩ := hc
    simp only [List.map_cons, List.mem_cons] at ha
    rcases ha with e | hm
    · rw [e, hn]; rfl
    · exact ih _ hrest a hm

theorem chain_snoc (h : Nat → Option _fifoqn) (a : Nat) (d : Buf) :
    ∀ (l : List (Nat × Buf)) (p : Option Nat), l ≠ [] → Chain h p l →
      (l.map Prod.fst).Nodup → a ∉ l.map Prod.fst →
      Chain (set_next (Function.update h a (some ⟨none, d⟩)) (l.map Prod.fst).getLast? a) p
        (l ++ [(a, d)]) := by
  intro l
  induction l with
  | nil => intro p hne; exact absurd rfl hne
  | cons x xs ih =>
    intro p _ hc hnd hna
    obtain ⟨hp, n, hn, hd, hrest⟩ := hc
    have hxa : x.1 ≠ a := by
      intro e; apply hna; simp [e.symm]
    cases xs with
    | nil =>
      have h1 : Function.update h a (some ⟨none, d⟩) x.1 = some n := by
        rw [Function.update_noteq hxa]; exact hn
      have hset : set_next (Function.update h a (some ⟨none, d⟩)) (some x.1) a
          = Function.update (Function.update h a (some ⟨none, d⟩)) x.1
              (some { n with next := some a }) := by
        simp only [set_next, h1]
      simp only [List.map_cons, List.map_nil, List.getLast?_singleton, List.nil_append,
        List.singleton_append]
      rw [hset]
      refine ⟨hp, { n with next := some a }, ?_, hd, rfl, ⟨none, d⟩, ?_, rfl, rfl⟩
      · simp
      · rw [Function.update_noteq (Ne.symm hxa)]; simp
    | cons y ys =>
      have hnd2 : ((y :: ys).map Prod.fst).Nodup := by
        simp only [List.map_cons, List.nodup_cons] at hnd ⊢
        exact hnd.2
      have hna2 : a ∉ (y :: ys).map Prod.fst := by
        intro hm; apply hna
        simp only [List.map_cons, List.mem_cons] at hm ⊢
        exact Or.inr hm
      have hlast : ((x :: y :: ys).map Prod.fst).getLast?
          = ((y :: ys).map Prod.fst).getLast? := by
        simp only [List.map_cons, List.getLast?_cons_cons]
      have ih2 := ih n.next (by simp) hrest hnd2 hna2
      rw [hlast]
      have hx_last : ((y :: ys).map Prod.fst).getLast? ≠ some x.1 := by
        intro e
        have hm := List.mem_of_getLast?_eq_some e
        simp only [List.map_cons, List.nodup_cons] at hnd
        exact hnd.1 (by simpa using hm)
      refine ⟨hp, n, ?_, hd, ih2⟩
      rw [set_next_other _ _ _ _ hx_last, Function.update_noteq hxa]
      exact hn

theorem length_bound (l : List Nat) (hn : l.Nodup)
    (h : ∀ a ∈ l, a ≠ 0 ∧ a % MALLOC_ALIGN = 0 ∧ a < SIZE_MOD) :
    l.length + 1 < SIZE_MOD := by
  have h1 : (l.map (fun a => a / 8)).Nodup := by
    apply List.Nodup.map_on _ hn
    intro x hx y hy hxy
    have hx2 := (h x hx).2.1
    have hy2 := (h y hy).2.1
    simp only [MALLOC_ALIGN] at hx2 hy2
    simp only at hxy
    omega
  have h2 : (l.map (fun a => a / 8)).toFinset ⊆ Finset.range (2 ^ 61) := by
    intro v hv
    simp only [List.mem_toFinset, List.mem_map] at hv
    obtain ⟨a, ha, rfl⟩ := hv
    have := (h a ha).2.2
    simp only [SIZE_MOD] at this
    simp only [Finset.mem_range]
    omega
  have h3 := Finset.card_le_card h2
  rw [List.toFinset_card_of_nodup h1] at h3
  simp only [List.length_map, Finset.card_range] at h3
  simp only [SIZE_MOD]
  omega

theorem Rep.no_wrap {s : Mem} {l : List (Nat × Buf)} (hr : Rep s l) :
    s.q.num_nodes + 1 < SIZE_MOD := by
  have := length_bound (l.map Prod.fst) hr.nodup hr.addr
  rw [hr.count]
  simpa using this

theorem Rep.front_none_iff {s : Mem} {l : List (Nat × Buf)} (hr : Rep s l) :
    s.q.front = none ↔ l = [] := by
  have hc := hr.chain
  cases l with
  | nil => simp only [Chain] at hc; simp [hc]
  | cons x xs =>
    obtain ⟨hp, _⟩ := hc
    simp [hp]

/-- All states with the same record fields and heap share their representation. -/
theorem Rep.congr {s t : Mem} {l : List (Nat × Buf)} (hr : Rep s l)
    (hf : t.q.front = s.q.front) (hre : t.q.rear = s.q.rear)
    (hn : t.q.num_nodes = s.q.num_nodes) (hh : t.heap = s.heap) : Rep t l :=
  ⟨by rw [hh, hf]; exact hr.chain, hr.nodup, by rw [hre]; exact hr.rear,
   by rw [hn]; exact hr.count, hr.addr, by rw [hh]; exact hr.owned⟩

theorem malloc_some {used : Nat → Bool} {size : Nat} {pick : Option Nat} {a : Nat}
    (h : malloc used size pick = some a) :
    pick = some a ∧ a ≠ 0 ∧ a < SIZE_MOD ∧ a % MALLOC_ALIGN = 0 ∧ used a = false := by
  unfold malloc at h
  cases pick with
  | none => simp at h
  | some b =>
    simp only at h
    split at h
    · rename_i hc
      cases h
      exact ⟨rfl, hc.1, hc.2.1, hc.2.2.1, hc.2.2.2.2⟩
    · cases h

theorem set_next_isSome (h : Nat → Option _fifoqn) (p : Option Nat) (a b : Nat) :
    (set_next h p a b).isSome = (h b).isSome := by
  unfold set_next
  cases p with
  | none => rfl
  | some r =>
    have key : ∀ o : Option _fifoqn, h r = o → ((match o with
        | none => h
        | some n => Function.update h r (some { n with next := some a })) b).isSome
        = (h b).isSome := by
      intro o ho
      cases o with
      | none => rfl
      | some n =>
        by_cases hbr : b = r
        · subst hbr; simp [ho]
        · simp [Function.update_noteq hbr]
    exact key (h r) rfl

theorem update_update_none (h : Nat → Option _fifoqn) (a : Nat) (v : Option _fifoqn)
    (ha : h a = none) : Function.update (Function.update h a v) a none = h := by
  funext x
  by_cases hx : x = a
  · subst hx; simp [ha]
  · simp [Function.update_noteq hx]

theorem chain_node (h : Nat → Option _fifoqn) :
    ∀ (l : List (Nat × Buf)) (p : Option Nat), Chain h p l →
      ∀ x ∈ l, node_data h x.1 = x.2 := by
  intro l
  induction l with
  | nil => intro p _ x hx; simp at hx
  | cons y ys ih =>
    intro p hc x hx
    obtain ⟨_, n, hn, hd, hrest⟩ := hc
    simp only [List.mem_cons] at hx
    rcases hx with e | hm
    · subst e; simp only [node_data, hn]; exact hd
    · exact ih _ hrest x hm

theorem chain_last_next (h : Nat → Option _fifoqn) :
    ∀ (l : List (Nat × Buf)) (p : Option Nat), Chain h p l →
      ∀ x, l.getLast? = some x → node_next h x.1 = none ∧ (h x.1).isSome = true := by
  intro l
  induction l with
  | nil => intro p _ x hx; simp at hx
  | cons y ys ih =>
    intro p hc x hx
    obtain ⟨_, n, hn, _, hrest⟩ := hc
    cases ys with
    | nil =>
      simp only [List.getLast?_singleton, Option.some.injEq] at hx
      subst hx
      simp only [Chain] at hrest
      simp [node_next, hn, hrest]
    | cons z zs =>
      rw [List.getLast?_cons_cons] at hx
      exact ih _ hrest x hx

theorem stored_eq (q : _fifoq) (d : Buf) :
    (if q_linkdata q then memcpy Buf.zero d sizeof_ptr else memcpy Buf.zero d q.dsize)
      = memcpy Buf.zero d (width q) := by
  unfold width
  split <;> rfl

theorem copied_eq (q : _fifoq) (d e : Buf) :
    (if q_linkdata q then memcpy d e sizeof_ptr else memcpy d e q.dsize)
      = memcpy d e (width q) := by
  unfold width
  split <;> rfl

/-- A push either fails and leaves everything as it was, or appends one node. -/
theorem push_rep (env : Env) (s : Mem) (d : Buf) (l : List (Nat × Buf)) (hr : Rep s l) :
    fifoq_push env (some s) (some d) = (false, some s) ∨
    ∃ a s1, fifoq_push env (some s) (some d) = (true, some s1) ∧
      env.malloc = some a ∧ s.heap a = none ∧
      Rep s1 (l ++ [(a, memcpy Buf.zero d (width s.q))]) ∧
      s1.q.opts = s.q.opts ∧ s1.q.dsize = s.q.dsize ∧
      s1.q.num_nodes = s.q.num_nodes + 1 ∧
      s1.q.ts_impl = (if q_threadsafe s.q then
        pthread_mutex_unlock (pthread_cond_signal (pthread_mutex_lock env s.q.ts_impl).2)
        else s.q.ts_impl) := by
  simp only [fifoq_push, stored_eq]
  cases hm : malloc (fun a => (s.heap a).isSome) (node_size s.q) env.malloc with
  | none => left; rfl
  | some a =>
    obtain ⟨hpick, ha0, halt, hal, hfresh⟩ := malloc_some hm
    have hfree : s.heap a = none := by
      cases hq : s.heap a with
      | none => rfl
      | some n => simp [hq] at hfresh
    simp only
    by_cases hlock : (if q_threadsafe s.q = true then pthread_mutex_lock env s.q.ts_impl
        else (0, s.q.ts_impl)).1 ≠ 0
    · left
      rw [if_pos hlock, update_update_none _ _ _ hfree]
    · right
      rw [if_neg hlock]
      have hnotin : a ∉ l.map Prod.fst := by
        intro hmem
        have := chain_mem_some _ _ _ hr.chain a hmem
        rw [hfree] at this
        cases this
      refine ⟨a, _, rfl, hpick, hfree, ?_, rfl, rfl, ?_, ?_⟩
      · cases l with
        | nil =>
          have hf : s.q.front = none := hr.front_none_iff.mpr rfl
          refine ⟨?_, by simp, by simp, ?_, ?_, ?_⟩
          · simp only [hf, List.nil_append]
            exact ⟨rfl, _, Function.update_same _ _ _, rfl, rfl⟩
          · have := hr.count
            simp only [List.length_nil] at this
            simp only [this, SIZE_MOD, List.nil_append, List.length_singleton]
            norm_num
          · intro b hb
            simp only [List.nil_append, List.map_cons, List.map_nil, List.mem_singleton] at hb
            subst hb
            exact ⟨ha0, hal, halt⟩
          · intro b hb
            simp only [hf] at hb
            by_cases hba : b = a
            · simp [hba]
            · rw [Function.update_noteq hba] at hb
              exact absurd (hr.owned b hb) (by simp)
        | cons x xs =>
          obtain ⟨hp, n, hn, hd, hrest⟩ := hr.chain
          refine ⟨?_, ?_, ?_, ?_, ?_, ?_⟩
          rotate_left 2
          · show some a = ((x :: xs ++ [(a, _)]).map Prod.fst).getLast?
            rw [List.map_append, List.getLast?_append]
            rfl
          rotate_right 2
          · simp only [hp, hr.rear]
            exact chain_snoc s.heap a _ (x :: xs) (some x.1) (by simp)
              ⟨rfl, n, hn, hd, hrest⟩ hr.nodup hnotin
          · rw [List.map_append, List.nodup_append]
            refine ⟨hr.nodup, by simp, ?_⟩
            intro b hb1 hb2
            simp only [List.map_cons, List.map_nil, List.mem_singleton] at hb2
            subst hb2
            exact hnotin hb1
          · have h1 := hr.no_wrap
            have h2 := hr.count
            simp only [List.length_append, List.length_singleton]
            rw [Nat.mod_eq_of_lt h1, h2]
          · intro b hb
            rw [List.map_append, List.mem_append] at hb
            rcases hb with hb | hb
            · exact hr.addr b hb
            · simp only [List.map_cons, List.map_nil, List.mem_singleton] at hb
              subst hb
              exact ⟨ha0, hal, halt⟩
          · intro b hb
            simp only [hp] at hb
            rw [set_next_isSome] at hb
            rw [List.map_append, List.mem_append]
            by_cases hba : b = a
            · right; simp [hba]
            · left
              rw [Function.update_noteq hba] at hb
              exact hr.owned b hb
      · exact Nat.mod_eq_of_lt hr.no_wrap
      · show (if q_threadsafe s.q = true then _ else _) = _
        by_cases hts : q_threadsafe s.q = true
        · simp only [hts, if_true]
        · simp only [hts, if_false]; rfl

/-- Taking the head of a non-empty queue leaves the rest of the list. -/
theorem pop_head_rep (s : Mem) (ts : Bool) (data : Option Buf) (x : Nat × Buf)
    (l : List (Nat × Buf)) (hr : Rep s (x :: l)) :
    ∃ s1, _fifoq_pop_head s ts true data = (some x.1, data, s1) ∧ Rep s1 l ∧
      s1.q.opts = s.q.opts ∧ s1.q.dsize = s.q.dsize ∧
      s1.q.num_nodes + 1 = s.q.num_nodes ∧ s1.heap x.1 = none ∧
      s1.q.ts_impl = (if ts then pthread_mutex_unlock s.q.ts_impl else s.q.ts_impl) := by
  obtain ⟨hp, n, hn, hd, hrest⟩ := hr.chain
  have hnext : node_next s.heap x.1 = n.next := by simp [node_next, hn]
  have hnd := hr.nodup
  simp only [List.map_cons, List.nodup_cons] at hnd
  have hcount := hr.count
  simp only [List.length_cons] at hcount
  have hwrap := hr.no_wrap
  simp only [_fifoq_pop_head, hp, if_true, hnext]
  refine ⟨_, rfl, ⟨?_, hnd.2, ?_, ?_, ?_, ?_⟩, rfl, rfl, ?_, ?_, ?_⟩
  · exact chain_update_other _ _ _ _ _ hnd.1 hrest
  · show (if n.next = none then none else s.q.rear) = _
    cases l with
    | nil =>
      simp only [Chain] at hrest
      simp [hrest]
    | cons y ys =>
      obtain ⟨hp2, _⟩ := hrest
      rw [hr.rear]
      simp [hp2]
  · show (s.q.num_nodes + SIZE_MOD - 1) % SIZE_MOD = l.length
    have : s.q.num_nodes + SIZE_MOD - 1 = l.length + SIZE_MOD := by omega
    rw [this, Nat.add_mod_right, Nat.mod_eq_of_lt]
    omega
  · intro b hb
    exact hr.addr b (by simp only [List.map_cons, List.mem_cons]; exact Or.inr hb)
  · intro b hb
    show b ∈ l.map Prod.fst
    have hb2 : (Function.update s.heap x.1 none b).isSome = true := hb
    by_cases hbx : b = x.1
    · subst hbx; simp at hb2
    · rw [Function.update_noteq hbx] at hb2
      have := hr.owned b hb2
      simp only [List.map_cons, List.mem_cons] at this
      rcases this with e | hm
      · exact absurd e hbx
      · exact hm
  · show (s.q.num_nodes + SIZE_MOD - 1) % SIZE_MOD + 1 = s.q.num_nodes
    have : s.q.num_nodes + SIZE_MOD - 1 = l.length + SIZE_MOD := by omega
    rw [this, Nat.add_mod_right, Nat.mod_eq_of_lt] <;> omega
  · exact Function.update_same _ _ _
  · rfl

/-- Copying out the head of a non-empty queue writes its element and keeps the list. -/
theorem front_head_rep (s : Mem) (ts : Bool) (d : Buf) (x : Nat × Buf)
    (l : List (Nat × Buf)) (hr : Rep s (x :: l)) :
    _fifoq_pop_head s ts false (some d) =
      (some x.1, some (memcpy d x.2 (width s.q)),
        { s with q := { s.q with ts_impl :=
          if ts then pthread_mutex_unlock s.q.ts_impl else s.q.ts_impl } }) := by
  obtain ⟨hp, n, hn, hd, _⟩ := hr.chain
  have hdata : node_data s.heap x.1 = x.2 := by simp [node_data, hn, hd]
  simp only [_fifoq_pop_head, hp, copied_eq, hdata, Option.map_some']
  rfl

theorem cond_wait_loop_nonempty (s : Mem) (ws : List Mem) (h : s.q.front ≠ none) :
    cond_wait_loop s ws = (true, s) := by
  cases ws <;> simp [cond_wait_loop, h]

theorem cond_wait_loop_exit (ws : List Mem) :
    ∀ s : Mem, (cond_wait_loop s ws).1 = true → (cond_wait_loop s ws).2.q.front ≠ none := by
  induction ws with
  | nil =>
    intro s h
    by_cases hf : s.q.front = none
    · simp [cond_wait_loop, hf] at h
    · simp [cond_wait_loop, hf]
  | cons w ws ih =>
    intro s h
    by_cases hf : s.q.front = none
    · simp only [cond_wait_loop, hf, if_true] at h ⊢
      exact ih _ h
    · simp [cond_wait_loop, hf]

theorem lock_fst (env : Env) (ts : Option _fifoqn_ts_impl) :
    (pthread_mutex_lock env ts).1 = env.mutex_lock := by
  unfold pthread_mutex_lock
  split
  · rename_i h; exact h.symm
  · rfl

theorem q_threadsafe_congr {q1 q2 : _fifoq} (h : q1.opts = q2.opts) :
    q_threadsafe q1 = q_threadsafe q2 := by
  simp only [q_threadsafe, h]

theorem width_congr {q1 q2 : _fifoq} (ho : q1.opts = q2.opts) (hd : q1.dsize = q2.dsize) :
    width q1 = width q2 := by
  simp only [width, q_linkdata, ho, hd]

/-- What `fifoq_pop` does on a well-formed queue when no other thread interferes. -/
theorem pop_rep (env : Env) (s : Mem) (l : List (Nat × Buf)) (hr : Rep s l)
    (hw : q_threadsafe s.q = false ∨ env.wakes = [] ∨ l ≠ []) :
    (fifoq_pop env (some s) = .ret false (some s) ∧
      ((q_threadsafe s.q = false ∧ l = []) ∨
       (q_threadsafe s.q = true ∧ env.mutex_lock ≠ 0))) ∨
    (∃ s1, fifoq_pop env (some s) = .blocked (some s1) ∧ Rep s1 l ∧
      s1.q.opts = s.q.opts ∧ s1.q.dsize = s.q.dsize ∧
      q_threadsafe s.q = true ∧ env.mutex_lock = 0 ∧ l = []) ∨
    (∃ x xs s1, l = x :: xs ∧ fifoq_pop env (some s) = .ret true (some s1) ∧ Rep s1 xs ∧
      s1.q.opts = s.q.opts ∧ s1.q.dsize = s.q.dsize ∧
      s1.q.num_nodes + 1 = s.q.num_nodes ∧ s1.heap x.1 = none ∧
      (q_threadsafe s.q = false ∨ env.mutex_lock = 0)) := by
  by_cases hts : q_threadsafe s.q = true
  · by_cases hlock : env.mutex_lock = 0
    · cases l with
      | nil =>
        right; left
        have hf : s.q.front = none := hr.front_none_iff.mpr rfl
        have hw2 : env.wakes = [] := by
          rcases hw with h | h | h
          · rw [hts] at h; cases h
          · exact h
          · exact absurd rfl h
        refine ⟨⟨{ s.q with
            ts_impl := pthread_mutex_unlock (pthread_mutex_lock env s.q.ts_impl).2 }, s.heap⟩,
          ?_, ?_, ?_, ?_, hts, hlock, rfl⟩
        · simp only [fifoq_pop, _fifoq_pop, hts, if_true, lock_fst, hlock, hw2,
            cond_wait_loop, hf, ne_eq, not_true_eq_false, if_false]
          rfl
        · exact Rep.congr hr rfl rfl rfl rfl
        · rfl
        · rfl
      | cons x xs =>
        right; right
        have hf : s.q.front ≠ none := by
          rw [Ne, hr.front_none_iff]; simp
        have hr2 : Rep { s with q := { s.q with
            ts_impl := (pthread_mutex_lock env s.q.ts_impl).2 } } (x :: xs) :=
          Rep.congr hr rfl rfl rfl rfl
        obtain ⟨s1, h1, h2, h3, h4, h5, h6, _⟩ := pop_head_rep _ true none x xs hr2
        refine ⟨x, xs, s1, rfl, ?_, h2, h3, h4, h5, h6, Or.inr hlock⟩
        simp only [fifoq_pop, _fifoq_pop, hts, if_true, lock_fst, hlock, ne_eq,
          not_true_eq_false, if_false]
        have hloop := cond_wait_loop_nonempty
          ⟨{ s.q with ts_impl := (pthread_mutex_lock env s.q.ts_impl).2 }, s.heap⟩ env.wakes hf
        rw [hloop]
        simp only [if_true, h1]
        rfl
    · left
      refine ⟨?_, Or.inr ⟨hts, hlock⟩⟩
      simp only [fifoq_pop, _fifoq_pop, hts, if_true, lock_fst, ne_eq, hlock,
        not_false_eq_true]
      rfl
  · have hts2 : q_threadsafe s.q = false := by simpa using hts
    cases l with
    | nil =>
      left
      have hf : s.q.front = none := hr.front_none_iff.mpr rfl
      refine ⟨?_, Or.inl ⟨hts2, rfl⟩⟩
      simp only [fifoq_pop, _fifoq_pop, hts2, hf, if_true]
      rfl
    | cons x xs =>
      right; right
      have hf : s.q.front ≠ none := by
        rw [Ne, hr.front_none_iff]; simp
      obtain ⟨s1, h1, h2, h3, h4, h5, h6, _⟩ := pop_head_rep s false none x xs hr
      refine ⟨x, xs, s1, rfl, ?_, h2, h3, h4, h5, h6, Or.inl hts2⟩
      simp only [fifoq_pop, _fifoq_pop, hts2, hf, if_false, h1]
      rfl

theorem SameQueue.rep {s1 s : Mem} {l : List (Nat × Buf)} (h : SameQueue s1 s)
    (hr : Rep s l) : Rep s1 l :=
  Rep.congr hr h.2.2.1 h.2.2.2.1 h.2.2.2.2.1 h.2.2.2.2.2

theorem SameQueue.refl (s : Mem) : SameQueue s s := ⟨rfl, rfl, rfl, rfl, rfl, rfl⟩

/-- What `fifoq_front` does on a well-formed queue when no other thread interferes. -/
theorem front_rep (env : Env) (s : Mem) (l : List (Nat × Buf)) (d : Buf) (hr : Rep s l)
    (hw : q_threadsafe s.q = false ∨ env.wakes = [] ∨ l ≠ []) :
    (fifoq_front env (some s) (some d) = .ret (false, some d) (some s) ∧
      ((q_threadsafe s.q = false ∧ l = []) ∨
       (q_threadsafe s.q = true ∧ env.mutex_lock ≠ 0))) ∨
    (∃ s1, fifoq_front env (some s) (some d) = .blocked (some s1) ∧ SameQueue s1 s ∧
      q_threadsafe s.q = true ∧ env.mutex_lock = 0 ∧ l = []) ∨
    (∃ x xs s1, l = x :: xs ∧
      fifoq_front env (some s) (some d)
        = .ret (true, some (memcpy d x.2 (width s.q))) (some s1) ∧
      SameQueue s1 s ∧ (q_threadsafe s.q = false → s1 = s) ∧
      (q_threadsafe s.q = false ∨ env.mutex_lock = 0)) := by
  by_cases hts : q_threadsafe s.q = true
  · by_cases hlock : env.mutex_lock = 0
    · cases l with
      | nil =>
        right; left
        have hf : s.q.front = none := hr.front_none_iff.mpr rfl
        have hw2 : env.wakes = [] := by
          rcases hw with h | h | h
          · rw [hts] at h; cases h
          · exact h
          · exact absurd rfl h
        refine ⟨⟨{ s.q with
            ts_impl := pthread_mutex_unlock (pthread_mutex_lock env s.q.ts_impl).2 }, s.heap⟩,
          ?_, ⟨rfl, rfl, rfl, rfl, rfl, rfl⟩, hts, hlock, rfl⟩
        simp only [fifoq_front, _fifoq_pop, hts, if_true, lock_fst, hlock, hw2,
          cond_wait_loop, hf, ne_eq, not_true_eq_false, if_false]
        rfl
      | cons x xs =>
        right; right
        have hf : s.q.front ≠ none := by
          rw [Ne, hr.front_none_iff]; simp
        have hr2 : Rep ⟨{ s.q with ts_impl := (pthread_mutex_lock env s.q.ts_impl).2 },
            s.heap⟩ (x :: xs) :=
          Rep.congr hr rfl rfl rfl rfl
        have h1 := front_head_rep _ true d x xs hr2
        have hloop := cond_wait_loop_nonempty
          ⟨{ s.q with ts_impl := (pthread_mutex_lock env s.q.ts_impl).2 }, s.heap⟩ env.wakes hf
        refine ⟨x, xs, ⟨{ s.q with
            ts_impl := pthread_mutex_unlock (pthread_mutex_lock env s.q.ts_impl).2 }, s.heap⟩,
          rfl, ?_, ?_, ?_, Or.inr hlock⟩
        · simp only [fifoq_front, _fifoq_pop, hts, if_true, lock_fst, hlock, ne_eq,
            not_true_eq_false, if_false]
          rw [hloop]
          simp only [if_true, h1]
          rfl
        · exact ⟨rfl, rfl, rfl, rfl, rfl, rfl⟩
        · intro hn; rw [hts] at hn; cases hn
    · left
      refine ⟨?_, Or.inr ⟨hts, hlock⟩⟩
      simp only [fifoq_front, _fifoq_pop, hts, if_true, lock_fst, ne_eq, hlock,
        not_false_eq_true]
      rfl
  · have hts2 : q_threadsafe s.q = false := by simpa using hts
    cases l with
    | nil =>
      left
      have hf : s.q.front = none := hr.front_none_iff.mpr rfl
      refine ⟨?_, Or.inl ⟨hts2, rfl⟩⟩
      simp only [fifoq_front, _fifoq_pop, hts2, hf, if_true]
      rfl
    | cons x xs =>
      right; right
      have hf : s.q.front ≠ none := by
        rw [Ne, hr.front_none_iff]; simp
      have h1 := front_head_rep s false d x xs hr
      refine ⟨x, xs, s, rfl, ?_, SameQueue.refl s, fun _ => rfl, Or.inl hts2⟩
      simp only [fifoq_front, _fifoq_pop, hts2, hf, if_false, h1]
      rfl

/-- What `fifoq_rear` does on a well-formed queue. -/
theorem rear_rep (env : Env) (s : Mem) (l : List (Nat × Buf)) (d : Buf) (hr : Rep s l) :
    (fifoq_rear env (some s) (some d) = (false, some d, some s) ∧
      q_threadsafe s.q = true ∧ env.mutex_lock ≠ 0) ∨
    (∃ s1, fifoq_rear env (some s) (some d) = (false, some d, some s1) ∧ l = [] ∧
      SameQueue s1 s ∧ (q_threadsafe s.q = false → s1 = s) ∧
      (q_threadsafe s.q = false ∨ env.mutex_lock = 0)) ∨
    (∃ x s1, l.getLast? = some x ∧
      fifoq_rear env (some s) (some d) = (true, some (memcpy d x.2 (width s.q)), some s1) ∧
      SameQueue s1 s ∧ (q_threadsafe s.q = false → s1 = s) ∧
      (q_threadsafe s.q = false ∨ env.mutex_lock = 0)) := by
  by_cases hfail : q_threadsafe s.q = true ∧ env.mutex_lock ≠ 0
  · left
    refine ⟨?_, hfail⟩
    simp only [fifoq_rear, hfail.1, if_true, lock_fst, ne_eq, hfail.2, not_false_eq_true]
  · right
    have hok : q_threadsafe s.q = false ∨ env.mutex_lock = 0 := by
      by_cases hts : q_threadsafe s.q = true
      · right
        by_contra hl
        exact hfail ⟨hts, hl⟩
      · left; simpa using hts
    have hlock : (if q_threadsafe s.q = true then pthread_mutex_lock env s.q.ts_impl
        else (0, s.q.ts_impl)).1 = 0 := by
      rcases hok with h | h
      · simp [h]
      · split
        · rw [lock_fst]; exact h
        · rfl
    have hsame : ∀ ts : Option _fifoqn_ts_impl,
        SameQueue ⟨{ s.q with ts_impl := ts }, s.heap⟩ s := fun _ => ⟨rfl, rfl, rfl, rfl, rfl, rfl⟩
    have hnts : q_threadsafe s.q = false →
        (⟨{ s.q with ts_impl := if q_threadsafe s.q = true then
          pthread_mutex_unlock (if q_threadsafe s.q = true then
            pthread_mutex_lock env s.q.ts_impl else (0, s.q.ts_impl)).2
          else (if q_threadsafe s.q = true then
            pthread_mutex_lock env s.q.ts_impl else (0, s.q.ts_impl)).2 }, s.heap⟩ : Mem)
          = s := by
      intro h
      simp [h]
    cases hl : l.getLast? with
    | none =>
      left
      have hrear : s.q.rear = none := by
        rw [hr.rear, List.getLast?_map, hl]; rfl
      have hnil : l = [] := List.getLast?_eq_none_iff.mp hl
      refine ⟨_, ?_, hnil, hsame _, hnts, hok⟩
      simp only [fifoq_rear, ne_eq, hlock, not_true_eq_false, if_false, hrear]
    | some x =>
      right
      have hrear : s.q.rear = some x.1 := by
        rw [hr.rear, List.getLast?_map, hl]; rfl
      have hdata : node_data s.heap x.1 = x.2 :=
        chain_node _ _ _ hr.chain x (List.mem_of_getLast?_eq_some hl)
      refine ⟨x, _, rfl, ?_, hsame _, hnts, hok⟩
      simp only [fifoq_rear, ne_eq, hlock, not_true_eq_false, if_false, hrear, copied_eq,
        hdata]

/-- One call on a well-formed queue leaves a well-formed queue, changed as `Trans` says. -/
theorem exec_rep (c : Call) (s : Mem) (l : List (Nat × Buf)) (hr : Rep s l)
    (hw : q_threadsafe s.q = false ∨ c.env.wakes = []) :
    ∃ s1 l1, Rep s1 l1 ∧ s1.q.opts = s.q.opts ∧ s1.q.dsize = s.q.dsize ∧
      ((∃ v, c.exec (some s) = .ret v (some s1) ∧ Trans (width s.q) c v l l1) ∨
       (c.exec (some s) = .blocked (some s1) ∧ l1 = l ∧ q_threadsafe s.q = true)) := by
  cases c with
  | push env data =>
    cases data with
    | none =>
      exact ⟨s, l, hr, rfl, rfl, Or.inl ⟨false, rfl, rfl⟩⟩
    | some d =>
      rcases push_rep env s d l hr with h | ⟨a, s1, h1, _, _, h2, h3, h4, _⟩
      · refine ⟨s, l, hr, rfl, rfl, Or.inl ⟨false, ?_, rfl⟩⟩
        simp only [Call.exec, h]
      · refine ⟨s1, _, h2, h3, h4, Or.inl ⟨true, ?_, a, rfl⟩⟩
        simp only [Call.exec, h1]
  | pop env =>
    have hw2 : q_threadsafe s.q = false ∨ env.wakes = [] ∨ l ≠ [] := by
      rcases hw with h | h
      · exact Or.inl h
      · exact Or.inr (Or.inl h)
    rcases pop_rep env s l hr hw2 with ⟨h, _⟩ | ⟨s1, h1, h2, h3, h4, h5, _, _⟩ |
      ⟨x, xs, s1, hl, h1, h2, h3, h4, _⟩
    · exact ⟨s, l, hr, rfl, rfl, Or.inl ⟨false, h, rfl⟩⟩
    · exact ⟨s1, l, h2, h3, h4, Or.inr ⟨h1, rfl, h5⟩⟩
    · exact ⟨s1, xs, h2, h3, h4, Or.inl ⟨true, h1, x, hl⟩⟩
  | front env data =>
    cases data with
    | none => exact ⟨s, l, hr, rfl, rfl, Or.inl ⟨false, rfl, rfl⟩⟩
    | some d =>
      have hw2 : q_threadsafe s.q = false ∨ env.wakes = [] ∨ l ≠ [] := by
        rcases hw with h | h
        · exact Or.inl h
        · exact Or.inr (Or.inl h)
      rcases front_rep env s l d hr hw2 with ⟨h, _⟩ | ⟨s1, h1, h2, h3, _⟩ |
        ⟨x, xs, s1, _, h1, h2, _⟩
      · refine ⟨s, l, hr, rfl, rfl, Or.inl ⟨false, ?_, rfl⟩⟩
        simp only [Call.exec, h]
      · refine ⟨s1, l, h2.rep hr, h2.1, h2.2.1, Or.inr ⟨?_, rfl, h3⟩⟩
        simp only [Call.exec, h1]
      · refine ⟨s1, l, h2.rep hr, h2.1, h2.2.1, Or.inl ⟨true, ?_, rfl⟩⟩
        simp only [Call.exec, h1]
  | rear env data =>
    cases data with
    | none => exact ⟨s, l, hr, rfl, rfl, Or.inl ⟨false, rfl, rfl⟩⟩
    | some d =>
      rcases rear_rep env s l d hr with ⟨h, _⟩ | ⟨s1, h1, _, h2, _⟩ | ⟨x, s1, _, h1, h2, _⟩
      · refine ⟨s, l, hr, rfl, rfl, Or.inl ⟨false, ?_, rfl⟩⟩
        simp only [Call.exec, h]
      · refine ⟨s1, l, h2.rep hr, h2.1, h2.2.1, Or.inl ⟨false, ?_, rfl⟩⟩
        simp only [Call.exec, h1]
      · refine ⟨s1, l, h2.rep hr, h2.1, h2.2.1, Or.inl ⟨true, ?_, rfl⟩⟩
        simp only [Call.exec, h1]

/-- The state `_fifoq_init` returns is a well-formed empty queue with the options asked. -/
theorem init_rep (env : Env) (dsize opts : Nat) (s : Mem)
    (h : _fifoq_init env dsize opts = some s) :
    Rep s [] ∧ s.q.opts = opts ∧ s.q.dsize = dsize ∧ s.q.num_nodes = 0 ∧
      s.q.front = none ∧ s.q.rear = none := by
  unfold _fifoq_init at h
  split at h
  · cases h
  · simp only at h
    split at h
    · cases h
    · split at h
      · split at h
        · cases h
        · split at h
          · cases h
          · cases h
            exact ⟨⟨rfl, by simp, rfl, rfl, by simp, by simp⟩, rfl, rfl, rfl, rfl, rfl⟩
      · cases h
        exact ⟨⟨rfl, by simp, rfl, rfl, by simp, by simp⟩, rfl, rfl, rfl, rfl, rfl⟩

theorem bytes_memcpy (d e : Buf) (n : Nat) : (memcpy d e n).bytes n = e.bytes n := by
  unfold Buf.bytes memcpy
  apply List.map_congr_left
  intro i hi
  simp [List.mem_range.mp hi]

theorem memcpy_memcpy (d e : Buf) (n : Nat) :
    memcpy d (memcpy Buf.zero e n) n = memcpy d e n := by
  funext i
  unfold memcpy
  by_cases h : i < n <;> simp [h]

theorem push_all_rep : ∀ (xs : List (Env × Buf)) (s : Mem) (l : List (Nat × Buf)),
    Rep s l → (push_all xs (some s)).1 = true →
    ∃ s1 l1, (push_all xs (some s)).2 = some s1 ∧ Rep s1 (l ++ l1) ∧
      l1.map Prod.snd = xs.map (fun x => memcpy Buf.zero x.2 (width s.q)) ∧
      s1.q.opts = s.q.opts ∧ s1.q.dsize = s.q.dsize := by
  intro xs
  induction xs with
  | nil =>
    intro s l hr _
    exact ⟨s, [], rfl, by simpa using hr, rfl, rfl, rfl⟩
  | cons x xs ih =>
    intro s l hr hok
    simp only [push_all, Bool.and_eq_true] at hok ⊢
    rcases push_rep x.1 s x.2 l hr with h | ⟨a, s1, h1, _, _, h2, h3, h4, _⟩
    · rw [h] at hok
      exact absurd hok.1 (by simp)
    · rw [h1] at hok ⊢
      obtain ⟨s2, l2, e1, e2, e3, e4, e5⟩ := ih s1 _ h2 hok.2
      refine ⟨s2, (a, memcpy Buf.zero x.2 (width s.q)) :: l2, e1, ?_, ?_, ?_, ?_⟩
      · simpa using e2
      · simp only [List.map_cons, e3, width_congr h3 h4]
      · rw [e4, h3]
      · rw [e5, h4]

theorem drain_rep : ∀ (l : List (Nat × Buf)) (s : Mem) (outs : List (Env × Buf)),
    Rep s l → q_threadsafe s.q = false → outs.length = l.length →
    (drain outs (some s)).map
        (fun r => (r.1, r.2.1.map (fun b => b.bytes (width s.q)), r.2.2))
      = l.map (fun x => (true, some (x.2.bytes (width s.q)), true)) := by
  intro l
  induction l with
  | nil =>
    intro s outs _ _ hlen
    have : outs = [] := List.length_eq_zero.mp hlen
    subst this
    rfl
  | cons x xs ih =>
    intro s outs hr hts hlen
    cases outs with
    | nil => simp at hlen
    | cons o os =>
      have hlen2 : os.length = xs.length := by simpa using hlen
      rcases front_rep o.1 s (x :: xs) o.2 hr (Or.inl hts) with
        ⟨_, h | h⟩ | ⟨_, _, _, h, _⟩ | ⟨y, ys, s1, hl, h1, _, h2, _⟩
      · exact absurd h.2 (by simp)
      · rw [hts] at h; exact absurd h.1 (by simp)
      · rw [hts] at h; cases h
      · have hs1 := h2 hts
        subst hs1
        cases hl
        rcases pop_rep o.1 s1 (x :: xs) hr (Or.inl hts) with
          ⟨_, h | h⟩ | ⟨_, _, _, _, _, h, _⟩ | ⟨z, zs, s2, hl2, p1, p2, p3, p4, _⟩
        · exact absurd h.2 (by simp)
        · rw [hts] at h; exact absurd h.1 (by simp)
        · rw [hts] at h; cases h
        · cases hl2
          have hts2 : q_threadsafe s2.q = false := by
            rw [q_threadsafe_congr p3]; exact hts
          have hwd : width s2.q = width s1.q := width_congr p3 p4
          have := ih s2 os p2 hts2 hlen2
          rw [hwd] at this
          simp only [drain, h1, p1, List.map_cons, this, Option.map_some', bytes_memcpy]

theorem Trans.length {w : Nat} {c : Call} {v : Bool} {l l1 : List (Nat × Buf)}
    (h : Trans w c v l l1) :
    l1.length + (if c.isPop && v then 1 else 0) = l.length + (if c.isPush && v then 1 else 0) := by
  cases c with
  | push env data =>
    cases data with
    | none =>
      cases v with
      | false => simp only [Trans] at h; simp [Call.isPop, Call.isPush, h]
      | true => simp only [Trans] at h
    | some d =>
      cases v with
      | false => simp only [Trans] at h; simp [Call.isPop, Call.isPush, h]
      | true =>
        simp only [Trans] at h
        obtain ⟨a, rfl⟩ := h
        simp [Call.isPop, Call.isPush]
  | pop env =>
    cases v with
    | false => simp only [Trans] at h; simp [Call.isPop, Call.isPush, h]
    | true =>
      simp only [Trans] at h
      obtain ⟨x, rfl⟩ := h
      simp [Call.isPop, Call.isPush]
  | front env data => cases v <;> simp only [Trans] at h <;> simp [Call.isPop, Call.isPush, h]
  | rear env data => cases v <;> simp only [Trans] at h <;> simp [Call.isPop, Call.isPush, h]

/-- The length of a well-formed queue follows the successful pushes and pops. -/
theorem run_count : ∀ (calls : List Call) (s : Mem) (l : List (Nat × Buf)), Rep s l →
    (q_threadsafe s.q = false ∨ ∀ c ∈ calls, c.env.wakes = []) →
    ∃ s1 l1, run calls (some s) = some s1 ∧ Rep s1 l1 ∧
      s1.q.opts = s.q.opts ∧ s1.q.dsize = s.q.dsize ∧
      l1.length + successes Call.isPop calls (some s)
        = l.length + successes Call.isPush calls (some s) := by
  intro calls
  induction calls with
  | nil =>
    intro s l hr _
    exact ⟨s, l, rfl, hr, rfl, rfl, rfl⟩
  | cons c cs ih =>
    intro s l hr hw
    have hw1 : q_threadsafe s.q = false ∨ c.env.wakes = [] := by
      rcases hw with h | h
      · exact Or.inl h
      · exact Or.inr (h c (List.mem_cons_self _ _))
    obtain ⟨s1, l1, hr1, ho, hd, hex⟩ := exec_rep c s l hr hw1
    rcases hex with ⟨v, hv, ht⟩ | ⟨hb, hl, _⟩
    · have hw2 : q_threadsafe s1.q = false ∨ ∀ c ∈ cs, c.env.wakes = [] := by
        rcases hw with h | h
        · left; rw [q_threadsafe_congr ho]; exact h
        · right; intro c1 hc1; exact h c1 (List.mem_cons_of_mem _ hc1)
      obtain ⟨s2, l2, e1, e2, e3, e4, e5⟩ := ih s1 l1 hr1 hw2
      refine ⟨s2, l2, ?_, e2, by rw [e3, ho], by rw [e4, hd], ?_⟩
      · simp only [run, hv, e1]
      · have := ht.length
        simp only [successes, hv]
        omega
    · subst hl
      refine ⟨s1, l1, ?_, hr1, ho, hd, ?_⟩
      · simp only [run, hb]
      · simp only [successes, hb]

theorem count_val (env : Env) (s : Mem) :
    (fifoq_count env (some s)).1
      = if q_threadsafe s.q = true ∧ env.mutex_lock ≠ 0 then 0 else s.q.num_nodes := by
  unfold fifoq_count
  by_cases hts : q_threadsafe s.q = true
  · by_cases hl : env.mutex_lock = 0
    · simp [hts, hl, lock_fst]
    · simp [hts, hl, lock_fst]
  · simp [hts]

theorem count_same (env : Env) {s1 s : Mem} (h : SameQueue s1 s) :
    (fifoq_count env (some s1)).1 = (fifoq_count env (some s)).1 := by
  rw [count_val, count_val, q_threadsafe_congr h.1, h.2.2.2.2.1]

theorem peek_head (s : Mem) (ts : Bool) (d : Buf) (f : Nat) (hf : s.q.front = some f) :
    _fifoq_pop_head s ts false (some d) =
      (some f, some (memcpy d (node_data s.heap f) (width s.q)),
        ⟨{ s.q with ts_impl :=
          if ts then pthread_mutex_unlock s.q.ts_impl else s.q.ts_impl }, s.heap⟩) := by
  simp only [_fifoq_pop_head, hf, copied_eq, Option.map_some']
  rfl

/-- A call of `fifoq_front` on a queue whose head is the node at `f`. -/
theorem front_nonempty (env : Env) (s : Mem) (d : Buf) (f : Nat) (hf : s.q.front = some f) :
    ∃ b s1, fifoq_front env (some s) (some d)
        = .ret (b, some (if b = true then memcpy d (node_data s.heap f) (width s.q) else d))
            (some s1) ∧
      SameQueue s1 s ∧ (q_threadsafe s.q = false → s1 = s) ∧
      (b = true ↔ (q_threadsafe s.q = false ∨ env.mutex_lock = 0)) := by
  have hne : s.q.front ≠ none := by rw [hf]; simp
  by_cases hts : q_threadsafe s.q = true
  · by_cases hlock : env.mutex_lock = 0
    · have hloop := cond_wait_loop_nonempty
        ⟨{ s.q with ts_impl := (pthread_mutex_lock env s.q.ts_impl).2 }, s.heap⟩ env.wakes hne
      refine ⟨true, ⟨{ s.q with
          ts_impl := pthread_mutex_unlock (pthread_mutex_lock env s.q.ts_impl).2 }, s.heap⟩,
        ?_, ⟨rfl, rfl, rfl, rfl, rfl, rfl⟩, ?_, ?_⟩
      · have hpeek := peek_head
          ⟨{ s.q with ts_impl := (pthread_mutex_lock env s.q.ts_impl).2 }, s.heap⟩ true d f hf
        simp only [fifoq_front, _fifoq_pop, hts, if_true, lock_fst, hlock, ne_eq,
          not_true_eq_false, if_false]
        rw [hloop]
        simp only [if_true, hpeek]
        rfl
      · intro h; rw [hts] at h; cases h
      · simp [hlock]
    · refine ⟨false, s, ?_, SameQueue.refl s, fun _ => rfl, ?_⟩
      · simp only [fifoq_front, _fifoq_pop, hts, if_true, lock_fst, ne_eq, hlock,
          not_false_eq_true]
        rfl
      · simp [hts, hlock]
  · have hts2 : q_threadsafe s.q = false := by simpa using hts
    refine ⟨true, s, ?_, SameQueue.refl s, fun _ => rfl, ?_⟩
    · have hpeek := peek_head s false d f hf
      simp only [fifoq_front, _fifoq_pop, hts2, hne, if_false, hpeek]
      rfl
    · simp [hts2]

theorem rear_val (env : Env) (s : Mem) (l : List (Nat × Buf)) (d : Buf) (hr : Rep s l) :
    ((fifoq_rear env (some s) (some d)).1, (fifoq_rear env (some s) (some d)).2.1)
      = if q_threadsafe s.q = true ∧ env.mutex_lock ≠ 0 then (false, some d)
        else match l.getLast? with
          | none => (false, some d)
          | some x => (true, some (memcpy d x.2 (width s.q))) := by
  rcases rear_rep env s l d hr with ⟨h, hc⟩ | ⟨s1, h, hl, _, _, hc⟩ | ⟨x, s1, hl, h, _, _, hc⟩
  · rw [h, if_pos hc]
  · have hn : ¬(q_threadsafe s.q = true ∧ env.mutex_lock ≠ 0) := by
      rintro ⟨h1, h2⟩
      rcases hc with h3 | h3
      · rw [h1] at h3; cases h3
      · exact h2 h3
    rw [h, if_neg hn, hl]
    rfl
  · have hn : ¬(q_threadsafe s.q = true ∧ env.mutex_lock ≠ 0) := by
      rintro ⟨h1, h2⟩
      rcases hc with h3 | h3
      · rw [h1] at h3; cases h3
      · exact h2 h3
    rw [h, if_neg hn, hl]

theorem pushed_none_of_trans {w : Nat} {c : Call} {v : Bool} {l l1 : List (Nat × Buf)}
    (h : Trans w c v l l1) :
    (∃ d a, c.pushed v = some d ∧ l1 = l ++ [(a, memcpy Buf.zero d w)]) ∨
    (c.pushed v = none ∧ ((∃ x, l = x :: l1) ∨ l1 = l)) := by
  cases c with
  | push env data =>
    cases data with
    | none =>
      cases v with
      | false => simp only [Trans] at h; exact Or.inr ⟨rfl, Or.inr h⟩
      | true => simp only [Trans] at h
    | some d =>
      cases v with
      | false => simp only [Trans] at h; exact Or.inr ⟨rfl, Or.inr h⟩
      | true =>
        simp only [Trans] at h
        obtain ⟨a, ha⟩ := h
        exact Or.inl ⟨d, a, rfl, ha⟩
  | pop env =>
    cases v with
    | false => simp only [Trans] at h; exact Or.inr ⟨rfl, Or.inr h⟩
    | true => simp only [Trans] at h; exact Or.inr ⟨rfl, Or.inl h⟩
  | front env data => cases v <;> simp only [Trans] at h <;> exact Or.inr ⟨rfl, Or.inr h⟩
  | rear env data => cases v <;> simp only [Trans] at h <;> exact Or.inr ⟨rfl, Or.inr h⟩

/-- The tail of a well-formed queue holds the element of the latest successful push. -/
theorem run_last : ∀ (calls : List Call) (s : Mem) (l : List (Nat × Buf)) (acc : Option Buf),
    Rep s l → (q_threadsafe s.q = false ∨ ∀ c ∈ calls, c.env.wakes = []) →
    LastIs (width s.q) l acc →
    ∃ s1 l1, run calls (some s) = some s1 ∧ Rep s1 l1 ∧
      s1.q.opts = s.q.opts ∧ s1.q.dsize = s.q.dsize ∧
      LastIs (width s.q) l1 (last_pushed acc calls (some s)) := by
  intro calls
  induction calls with
  | nil =>
    intro s l acc hr _ hl
    exact ⟨s, l, rfl, hr, rfl, rfl, hl⟩
  | cons c cs ih =>
    intro s l acc hr hw hl
    have hw1 : q_threadsafe s.q = false ∨ c.env.wakes = [] := by
      rcases hw with h | h
      · exact Or.inl h
      · exact Or.inr (h c (List.mem_cons_self _ _))
    obtain ⟨s1, l1, hr1, ho, hd, hex⟩ := exec_rep c s l hr hw1
    have hwd : width s1.q = width s.q := width_congr ho hd
    rcases hex with ⟨v, hv, ht⟩ | ⟨hb, hl1, _⟩
    · have hw2 : q_threadsafe s1.q = false ∨ ∀ c ∈ cs, c.env.wakes = [] := by
        rcases hw with h | h
        · left; rw [q_threadsafe_congr ho]; exact h
        · right; intro c1 hc1; exact h c1 (List.mem_cons_of_mem _ hc1)
      have hl2 : LastIs (width s1.q) l1 ((c.pushed v).orElse fun _ => acc) := by
        rw [hwd]
        rcases pushed_none_of_trans ht with ⟨d, a, hp, hl1⟩ | ⟨hp, hx | hl1⟩
        · intro x hx
          rw [hl1, List.getLast?_concat] at hx
          cases hx
          exact ⟨d, by simp [hp], rfl⟩
        · obtain ⟨y, hy⟩ := hx
          intro x hx
          have : l.getLast? = some x := by
            rw [hy]
            cases l1 with
            | nil => simp at hx
            | cons z zs => rw [List.getLast?_cons_cons]; exact hx
          obtain ⟨d, hd1, hd2⟩ := hl x this
          exact ⟨d, by simp [hp, hd1], hd2⟩
        · intro x hx
          rw [hl1] at hx
          obtain ⟨d, hd1, hd2⟩ := hl x hx
          exact ⟨d, by simp [hp, hd1], hd2⟩
      obtain ⟨s2, l2, e1, e2, e3, e4, e5⟩ := ih s1 l1 _ hr1 hw2 hl2
      refine ⟨s2, l2, ?_, e2, by rw [e3, ho], by rw [e4, hd], ?_⟩
      · simp only [run, hv, e1]
      · rw [hwd] at e5
        simp only [last_pushed, hv]
        exact e5
    · subst hl1
      refine ⟨s1, l1, ?_, hr1, ho, hd, ?_⟩
      · simp only [run, hb]
      · simp only [last_pushed, hb]
        exact hl

theorem fresh_rep (dsize opts : Nat) : Rep (fresh_mem dsize opts) [] :=
  ⟨rfl, by simp, rfl, rfl, by simp, by simp [fresh_mem]⟩

theorem one_node_rep (opts : Nat) : Rep (one_node opts) [(32, byte_buf 100)] := by
  refine ⟨⟨rfl, ⟨none, byte_buf 100⟩, ?_, rfl, rfl⟩, by simp, rfl, rfl, ?_, ?_⟩
  · simp [one_node]
  · intro a ha
    simp only [List.map_cons, List.map_nil, List.mem_singleton] at ha
    subst ha
    decide
  · intro a ha
    by_cases h : a = 32
    · simp [h]
    · simp [one_node, Function.update_noteq h] at ha

/-- A thread-safe `fifoq_pop` that acquired the lock does not return `false`. -/
theorem pop_not_false (env : Env) (s : Mem) (hts : q_threadsafe s.q = true)
    (hlock : env.mutex_lock = 0) (q1 : fifoq) :
    fifoq_pop env (some s) ≠ .ret false q1 := by
  intro h
  simp only [fifoq_pop, _fifoq_pop, hts, if_true, lock_fst, hlock, ne_eq, not_true_eq_false,
    if_false] at h
  cases hw : cond_wait_loop
      ⟨{ s.q with ts_impl := (pthread_mutex_lock env s.q.ts_impl).2 }, s.heap⟩ env.wakes with
  | mk b w =>
    have hex := cond_wait_loop_exit env.wakes
      ⟨{ s.q with ts_impl := (pthread_mutex_lock env s.q.ts_impl).2 }, s.heap⟩
    rw [hw] at h hex
    cases b with
    | false => simp at h
    | true =>
      have hf : w.q.front ≠ none := hex rfl
      cases hfw : w.q.front with
      | none => exact hf hfw
      | some f =>
        simp [_fifoq_pop_head, hfw] at h

theorem trans_cases {w : Nat} {c : Call} {v : Bool} {l l1 : List (Nat × Buf)}
    (h : Trans w c v l l1) :
    (∃ d a, l1 = l ++ [(a, memcpy Buf.zero d w)] ∧ (c.isPush && v) = true ∧
      (c.isPop && v) = false) ∨
    (∃ x, l = x :: l1 ∧ (c.isPush && v) = false ∧ (c.isPop && v) = true) ∨
    (l1 = l ∧ (c.isPush && v) = false ∧ (c.isPop && v) = false) := by
  cases c with
  | push env data =>
    cases data with
    | none =>
      cases v with
      | false => simp only [Trans] at h; exact Or.inr (Or.inr ⟨h, rfl, rfl⟩)
      | true => simp only [Trans] at h
    | some d =>
      cases v with
      | false => simp only [Trans] at h; exact Or.inr (Or.inr ⟨h, rfl, rfl⟩)
      | true =>
        simp only [Trans] at h
        obtain ⟨a, ha⟩ := h
        exact Or.inl ⟨d, a, ha, rfl, rfl⟩
  | pop env =>
    cases v with
    | false => simp only [Trans] at h; exact Or.inr (Or.inr ⟨h, rfl, rfl⟩)
    | true => simp only [Trans] at h; exact Or.inr (Or.inl ⟨h.choose, h.choose_spec, rfl, rfl⟩)
  | front env data =>
    cases v <;> simp only [Trans] at h <;> exact Or.inr (Or.inr ⟨h, rfl, rfl⟩)
  | rear env data =>
    cases v <;> simp only [Trans] at h <;> exact Or.inr (Or.inr ⟨h, rfl, rfl⟩)

/-- After a sequence of calls the queue holds what it held, followed by what the
successful pushes added, less one node at the head for each successful pop. -/
theorem run_shape : ∀ (calls : List Call) (s : Mem) (l : List (Nat × Buf)), Rep s l →
    (q_threadsafe s.q = false ∨ ∀ c ∈ calls, c.env.wakes = []) →
    ∃ t lt more, run calls (some s) = some t ∧ Rep t lt ∧
      t.q.opts = s.q.opts ∧ t.q.dsize = s.q.dsize ∧
      lt = (l ++ more).drop (successes Call.isPop calls (some s)) ∧
      successes Call.isPop calls (some s) ≤ (l ++ more).length ∧
      more.length = successes Call.isPush calls (some s) := by
  intro calls
  induction calls with
  | nil =>
    intro s l hr _
    exact ⟨s, l, [], rfl, hr, rfl, rfl, by simp [successes], by simp [successes], rfl⟩
  | cons c cs ih =>
    intro s l hr hw
    have hw1 : q_threadsafe s.q = false ∨ c.env.wakes = [] := by
      rcases hw with h | h
      · exact Or.inl h
      · exact Or.inr (h c (List.mem_cons_self _ _))
    obtain ⟨s1, l1, hr1, ho, hd, hex⟩ := exec_rep c s l hr hw1
    rcases hex with ⟨v, hv, ht⟩ | ⟨hb, hl, _⟩
    · have hw2 : q_threadsafe s1.q = false ∨ ∀ c ∈ cs, c.env.wakes = [] := by
        rcases hw with h | h
        · left; rw [q_threadsafe_congr ho]; exact h
        · right; intro c1 hc1; exact h c1 (List.mem_cons_of_mem _ hc1)
      obtain ⟨t, lt, more, e1, e2, e3, e4, e5, e6, e7⟩ := ih s1 l1 hr1 hw2
      have hrun : run (c :: cs) (some s) = some t := by simp only [run, hv, e1]
      rcases trans_cases ht with ⟨d, a, hl1, hp1, hp2⟩ | ⟨x, hl1, hp1, hp2⟩ | ⟨hl1, hp1, hp2⟩
      · refine ⟨t, lt, (a, memcpy Buf.zero d (width s.q)) :: more, hrun, e2,
          by rw [e3, ho], by rw [e4, hd], ?_, ?_, ?_⟩
        · simp only [successes, hv, hp2, Bool.false_eq_true, if_false, Nat.zero_add]
          rw [e5, hl1]; simp
        · simp only [successes, hv, hp2, Bool.false_eq_true, if_false, Nat.zero_add]
          rw [hl1] at e6; simpa using e6
        · simp only [successes, hv, hp1, if_true, List.length_cons, e7]
          omega
      · refine ⟨t, lt, more, hrun, e2, by rw [e3, ho], by rw [e4, hd], ?_, ?_, ?_⟩
        · simp only [successes, hv, hp2, if_true]
          rw [e5, hl1, Nat.add_comm 1]
          rfl
        · simp only [successes, hv, hp2, if_true]
          rw [hl1]
          simp only [List.cons_append, List.length_cons]
          omega
        · simp only [successes, hv, hp1, Bool.false_eq_true, if_false, Nat.zero_add, e7]
      · subst hl1
        refine ⟨t, lt, more, hrun, e2, by rw [e3, ho], by rw [e4, hd], ?_, ?_, ?_⟩
        · simp only [successes, hv, hp2, Bool.false_eq_true, if_false, Nat.zero_add, e5]
        · simp only [successes, hv, hp2, Bool.false_eq_true, if_false, Nat.zero_add]
          exact e6
        · simp only [successes, hv, hp1, Bool.false_eq_true, if_false, Nat.zero_add, e7]
    · subst hl
      refine ⟨s1, l1, [], ?_, hr1, ho, hd, ?_, ?_, ?_⟩
      · simp only [run, hb]
      · simp [successes, hb]
      · simp [successes, hb]
      · simp [successes, hb]

theorem memcpy_congr (d e : Buf) (n : Nat) (h : e.bytes n = d.bytes n) :
    memcpy Buf.zero e n = memcpy Buf.zero d n := by
  funext i
  unfold memcpy
  by_cases hi : i < n
  · simp only [hi, if_true]
    have := List.map_inj_left.mp h i (List.mem_range.mpr hi)
    exact this
  · simp only [hi, if_false]

theorem load_ptr_memcpy (d e : Buf) : load_ptr (memcpy d e sizeof_ptr) = load_ptr e := by
  unfold load_ptr
  rw [bytes_memcpy]

/-- A push depends on the element bytes only: buffers that agree on the first `width`
bytes are pushed alike. -/
theorem push_congr (env : Env) (s : Mem) (d e : Buf)
    (h : e.bytes (width s.q) = d.bytes (width s.q)) :
    fifoq_push env (some s) (some e) = fifoq_push env (some s) (some d) := by
  simp only [fifoq_push, stored_eq, memcpy_congr d e _ h]

/-- The element a push stored is what `fifoq_front` writes once the nodes ahead of it
have been popped, and what `fifoq_rear` writes as long as nothing is pushed after it. -/
theorem element_roundtrip (env : Env) (s : Mem) (d : Buf) (l : List (Nat × Buf))
    (calls : List Call) (hr : Rep s l)
    (hok : (fifoq_push env (some s) (some d)).1 = true)
    (hw : q_threadsafe s.q = false ∨ ∀ c ∈ calls, c.env.wakes = []) :
    ∃ a s1 t, (fifoq_push env (some s) (some d)).2 = some s1 ∧
      node_data s1.heap a = memcpy Buf.zero d (width s.q) ∧ s1.q.rear = some a ∧
      run calls (some s1) = some t ∧
      (successes Call.isPop calls (some s1) = l.length →
        ∀ e out, (q_threadsafe s.q = false ∨ e.mutex_lock = 0) →
          ∃ t1, fifoq_front e (some t) (some out)
            = .ret (true, some (memcpy out d (width s.q))) (some t1)) ∧
      (successes Call.isPush calls (some s1) = 0 →
        successes Call.isPop calls (some s1) ≤ l.length →
        ∀ e out, (q_threadsafe s.q = false ∨ e.mutex_lock = 0) →
          ∃ t1, fifoq_rear e (some t) (some out)
            = (true, some (memcpy out d (width s.q)), some t1)) := by
  rcases push_rep env s d l hr with h | ⟨a, s1, h1, _, _, h2, h3, h4, _, _⟩
  · rw [h] at hok; cases hok
  · have hlast : (l ++ [(a, memcpy Buf.zero d (width s.q))]).getLast?
        = some (a, memcpy Buf.zero d (width s.q)) := List.getLast?_concat _
    have hd := chain_node _ _ _ h2.chain (a, memcpy Buf.zero d (width s.q)) (by simp)
    have hw1 : q_threadsafe s1.q = false ∨ ∀ c ∈ calls, c.env.wakes = [] := by
      rcases hw with h | h
      · left; rw [q_threadsafe_congr h3]; exact h
      · exact Or.inr h
    obtain ⟨t, lt, more, e1, e2, e3, e4, e5, e6, e7⟩ := run_shape calls s1 _ h2 hw1
    have hts : q_threadsafe t.q = q_threadsafe s.q := q_threadsafe_congr (e3.trans h3)
    have hwd : width t.q = width s.q := width_congr (e3.trans h3) (e4.trans h4)
    refine ⟨a, s1, t, by rw [h1], hd, ?_, e1, ?_, ?_⟩
    · rw [h2.rear, List.getLast?_map, hlast]; rfl
    · intro hk e out hok2
      have hlt : lt = (a, memcpy Buf.zero d (width s.q)) :: more := by
        rw [e5, hk, List.append_assoc, List.drop_left]
        rfl
      subst hlt
      rcases front_rep e t _ out e2 (Or.inr (Or.inr (by simp))) with
        ⟨_, h | h⟩ | ⟨_, _, _, _, _, h⟩ | ⟨x, xs, t1, hx, hf, _⟩
      · exact absurd h.2 (by simp)
      · rcases hok2 with h5 | h5
        · rw [hts, h5] at h; exact absurd h.1 (by simp)
        · exact absurd h5 h.2
      · cases h
      · cases hx
        refine ⟨t1, ?_⟩
        rw [hf, hwd, memcpy_memcpy]
    · intro hp hk e out hok2
      have hmore : more = [] := List.length_eq_zero.mp (by rw [e7, hp])
      subst hmore
      have hlt : lt.getLast? = some (a, memcpy Buf.zero d (width s.q)) := by
        rw [e5, List.append_nil, List.drop_append_of_le_length hk, List.getLast?_concat]
      rcases rear_rep e t lt out e2 with ⟨_, h⟩ | ⟨_, _, h, _⟩ | ⟨x, t1, hx, hf, _⟩
      · rcases hok2 with h5 | h5
        · rw [hts, h5] at h; exact absurd h.1 (by simp)
        · exact absurd h5 h.2
      · rw [h] at hlt; simp at hlt
      · rw [hlt] at hx
        cases hx
        refine ⟨t1, ?_⟩
        rw [hf, hwd, memcpy_memcpy]

theorem locked_accesses_append (a b : List Ev) : ∀ held : Bool,
    locked_accesses held (a ++ b)
      = (locked_accesses held a && locked_accesses (held_after held a) b) := by
  induction a with
  | nil => intro held; simp [locked_accesses, held_after]
  | cons e es ih =>
    intro held
    cases e <;> simp [locked_accesses, held_after, Ev.holds, ih, Bool.and_assoc]

theorem held_after_append (a b : List Ev) : ∀ held : Bool,
    held_after held (a ++ b) = held_after (held_after held a) b := by
  induction a with
  | nil => intro held; rfl
  | cons e es ih => intro held; simp [held_after, ih]

/-- The waiting loop, entered with the mutex held, touches the head with the mutex held
only, and leaves the mutex held exactly when the loop is left. -/
theorem trace_wait_ok (ws : List Mem) : ∀ s : Mem,
    locked_accesses true (trace_wait s ws) = true ∧
    held_after true (trace_wait s ws) = (cond_wait_loop s ws).1 := by
  induction ws with
  | nil =>
    intro s
    by_cases hf : s.q.front = none
    · simp [trace_wait, cond_wait_loop, hf, locked_accesses, held_after, Ev.holds,
        Field.guarded]
    · simp [trace_wait, cond_wait_loop, hf, locked_accesses, held_after, Ev.holds,
        Field.guarded]
  | cons w ws ih =>
    intro s
    by_cases hf : s.q.front = none
    · have h := ih { w with q := { w.q with
          ts_impl := w.q.ts_impl.map fun t => { t with mtx := true } } }
      simp only [trace_wait, cond_wait_loop, hf, if_true, locked_accesses_append,
        held_after_append]
      simp only [locked_accesses, held_after, Ev.holds, Field.guarded, Bool.not_true,
        Bool.or_true, Bool.not_false, Bool.true_or, Bool.and_true, Bool.true_and]
      exact h
    · simp [trace_wait, cond_wait_loop, hf, locked_accesses, held_after, Ev.holds,
        Field.guarded]

theorem trace_head_ok (s : Mem) (popoff : Bool) :
    locked_accesses true (trace_head s popoff) = true ∧
    held_after true (trace_head s popoff) = true := by
  unfold trace_head
  cases s.q.front with
  | none => simp [locked_accesses, held_after, Ev.holds, Field.guarded]
  | some f =>
    cases popoff
    · by_cases hl : q_linkdata s.q = true
      · simp [hl, locked_accesses, held_after, Ev.holds, Field.guarded]
      · simp [hl, locked_accesses, held_after, Ev.holds, Field.guarded]
    · by_cases hn : node_next s.heap f = none
      · simp [hn, locked_accesses, held_after, Ev.holds, Field.guarded]
      · simp [hn, locked_accesses, held_after, Ev.holds, Field.guarded]

theorem trace_pop_ok (env : Env) (s : Mem) (popoff : Bool) (hts : q_threadsafe s.q = true) :
    locked_accesses false (trace_pop env (some s) popoff) = true ∧
    held_after false (trace_pop env (some s) popoff) = false := by
  by_cases hl : env.mutex_lock = 0
  · have hw := trace_wait_ok env.wakes
      { s with q := { s.q with ts_impl := (pthread_mutex_lock env s.q.ts_impl).2 } }
    have hh := trace_head_ok (cond_wait_loop
      { s with q := { s.q with ts_impl := (pthread_mutex_lock env s.q.ts_impl).2 } }
      env.wakes).2 popoff
    simp only [trace_pop, hts, if_true, trace_lock, hl, ne_eq, not_true_eq_false, if_false,
      locked_accesses_append, held_after_append]
    simp only [locked_accesses, held_after, Ev.holds, Field.guarded, Bool.not_false,
      Bool.true_or, Bool.true_and, hw.1, hw.2]
    cases hc : (cond_wait_loop
      { s with q := { s.q with ts_impl := (pthread_mutex_lock env s.q.ts_impl).2 } }
      env.wakes).1
    · simp [locked_accesses, held_after]
    · simp only [if_true, locked_accesses_append, held_after_append, hh.1, hh.2]
      simp [locked_accesses, held_after, Ev.holds, Field.guarded]
  · simp [trace_pop, hts, trace_lock, hl, locked_accesses, held_after, Ev.holds,
      Field.guarded]

theorem trace_push_ok (env : Env) (s : Mem) (data : Option Buf)
    (hts : q_threadsafe s.q = true) :
    locked_accesses false (trace_push env (some s) data) = true ∧
    held_after false (trace_push env (some s) data) = false := by
  cases data with
  | none => simp [trace_push, locked_accesses, held_after]
  | some d =>
    cases hm : malloc (fun a => (s.heap a).isSome) (node_size s.q) env.malloc with
    | none => simp [trace_push, hm, locked_accesses, held_after, Ev.holds, Field.guarded]
    | some a =>
      by_cases hl : env.mutex_lock = 0
      · by_cases hf : s.q.front = none
        · simp [trace_push, hm, hts, trace_lock, hl, hf, locked_accesses, held_after,
            Ev.holds, Field.guarded]
        · simp [trace_push, hm, hts, trace_lock, hl, hf, locked_accesses, held_after,
            Ev.holds, Field.guarded]
      · simp [trace_push, hm, hts, trace_lock, hl, locked_accesses, held_after, Ev.holds,
          Field.guarded]

theorem trace_count_ok (env : Env) (s : Mem) (hts : q_threadsafe s.q = true) :
    locked_accesses false (trace_count env (some s)) = true ∧
    held_after false (trace_count env (some s)) = false := by
  by_cases hl : env.mutex_lock = 0
  · simp [trace_count, hts, trace_lock, hl, locked_accesses, held_after, Ev.holds,
      Field.guarded]
  · simp [trace_count, hts, trace_lock, hl, locked_accesses, held_after, Ev.holds,
      Field.guarded]

theorem trace_rear_ok (env : Env) (s : Mem) (data : Option Buf)
    (hts : q_threadsafe s.q = true) :
    locked_accesses false (trace_rear env (some s) data) = true ∧
    held_after false (trace_rear env (some s) data) = false ∧
    Ev.wait ∉ trace_rear env (some s) data ∧ Ev.sleep ∉ trace_rear env (some s) data := by
  cases data with
  | none => simp [trace_rear, locked_accesses, held_after]
  | some d =>
    by_cases hl : env.mutex_lock = 0
    · by_cases hr : s.q.rear = none
      · simp [trace_rear, hts, trace_lock, hl, hr, locked_accesses, held_after, Ev.holds,
          Field.guarded]
      · by_cases hk : q_linkdata s.q = true
        · simp [trace_rear, hts, trace_lock, hl, hr, hk, locked_accesses, held_after,
            Ev.holds, Field.guarded]
        · simp [trace_rear, hts, trace_lock, hl, hr, hk, locked_accesses, held_after,
            Ev.holds, Field.guarded]
    · simp [trace_rear, hts, trace_lock, hl, locked_accesses, held_after, Ev.holds,
        Field.guarded]

theorem trace_destroy_bad (s : Mem) :
    locked_accesses false (trace_destroy (some s)) = false ∧
    Ev.lock_ok ∉ trace_destroy (some s) := by
  by_cases hts : q_threadsafe s.q = true
  · simp [trace_destroy, hts, locked_accesses, Field.guarded]
  · simp [trace_destroy, hts, locked_accesses, Field.guarded]

theorem cond_wait_loop_all_empty (ws : List Mem) : ∀ s : Mem, s.q.front = none →
    (∀ w ∈ ws, w.q.front = none) → (cond_wait_loop s ws).1 = false := by
  induction ws with
  | nil => intro s hs _; simp [cond_wait_loop, hs]
  | cons w ws ih =>
    intro s hs hall
    simp only [cond_wait_loop, hs, if_true]
    exact ih _ (hall w (List.mem_cons_self _ _))
      (fun v hv => hall v (List.mem_cons_of_mem _ hv))

theorem cond_wait_loop_first (w : Mem) (ws2 : List Mem) (hw : w.q.front ≠ none)
    (ws1 : List Mem) : ∀ s : Mem, s.q.front = none → (∀ v ∈ ws1, v.q.front = none) →
    cond_wait_loop s (ws1 ++ w :: ws2) = (true, woken w) := by
  induction ws1 with
  | nil =>
    intro s hs _
    simp only [List.nil_append, cond_wait_loop, hs, if_true]
    exact cond_wait_loop_nonempty _ _ hw
  | cons v vs ih =>
    intro s hs hall
    simp only [List.cons_append, cond_wait_loop, hs, if_true]
    exact ih _ (hall v (List.mem_cons_self _ _))
      (fun u hu => hall u (List.mem_cons_of_mem _ hu))

theorem trace_wait_cons (s v : Mem) (rest : List Mem) (hs : s.q.front = none) :
    trace_wait s (v :: rest)
      = [Ev.rd Field.front, Ev.rd Field.ts_impl, Ev.wait] ++ trace_wait (woken v) rest := by
  simp only [trace_wait, hs, if_true]
  rfl

theorem trace_wait_count (w : Mem) (ws2 : List Mem) (hw : w.q.front ≠ none)
    (ws1 : List Mem) : ∀ s : Mem, s.q.front = none → (∀ v ∈ ws1, v.q.front = none) →
    (trace_wait s (ws1 ++ w :: ws2)).count Ev.wait = ws1.length + 1 ∧
    Ev.sleep ∉ trace_wait s (ws1 ++ w :: ws2) := by
  have hlast : ∀ ws : List Mem, trace_wait (woken w) ws = [.rd .front] := by
    intro ws
    have hf : (woken w).q.front ≠ none := hw
    cases ws <;> simp [trace_wait, hf]
  induction ws1 with
  | nil =>
    intro s hs _
    rw [List.nil_append, trace_wait_cons s w ws2 hs, hlast]
    simp
  | cons v vs ih =>
    intro s hs hall
    have h := ih (woken v) (hall v (List.mem_cons_self _ _))
      (fun u hu => hall u (List.mem_cons_of_mem _ hu))
    rw [List.cons_append, trace_wait_cons s v _ hs]
    constructor
    · rw [List.count_append, h.1]
      simp only [List.length_cons]
      have : List.count Ev.wait [Ev.rd Field.front, Ev.rd Field.ts_impl, Ev.wait] = 1 := by
        decide
      omega
    · intro hm
      rw [List.mem_append] at hm
      rcases hm with hm | hm
      · simp at hm
      · exact h.2 hm

/-- A thread-safe `_fifoq_pop` that acquired the lock: what the waiting loop decides. -/
theorem pop_ts_eq (env : Env) (s : Mem) (popoff : Bool) (data : Option Buf)
    (hts : q_threadsafe s.q = true) (hlock : env.mutex_lock = 0) :
    _fifoq_pop env (some s) popoff data =
      if (cond_wait_loop
          ⟨{ s.q with ts_impl := (pthread_mutex_lock env s.q.ts_impl).2 }, s.heap⟩
          env.wakes).1 = true then
        .ret ((_fifoq_pop_head (cond_wait_loop
            ⟨{ s.q with ts_impl := (pthread_mutex_lock env s.q.ts_impl).2 }, s.heap⟩
            env.wakes).2 true popoff data).1,
          (_fifoq_pop_head (cond_wait_loop
            ⟨{ s.q with ts_impl := (pthread_mutex_lock env s.q.ts_impl).2 }, s.heap⟩
            env.wakes).2 true popoff data).2.1)
          (some (_fifoq_pop_head (cond_wait_loop
            ⟨{ s.q with ts_impl := (pthread_mutex_lock env s.q.ts_impl).2 }, s.heap⟩
            env.wakes).2 true popoff data).2.2)
      else .blocked (some (cond_wait_loop
          ⟨{ s.q with ts_impl := (pthread_mutex_lock env s.q.ts_impl).2 }, s.heap⟩
          env.wakes).2) := by
  simp only [_fifoq_pop, hts, if_true, lock_fst, hlock, ne_eq, not_true_eq_false, if_false]

theorem pop_head_fst (s : Mem) (ts popoff : Bool) (data : Option Buf)
    (h : s.q.front ≠ none) : (_fifoq_pop_head s ts popoff data).1.isSome = true := by
  cases hf : s.q.front with
  | none => exact absurd hf h
  | some f =>
    cases popoff <;> simp [_fifoq_pop_head, hf]

theorem trace_head_no_wait (s : Mem) (popoff : Bool) :
    (trace_head s popoff).count Ev.wait = 0 := by
  cases hf : s.q.front with
  | none => simp [trace_head, hf]
  | some f =>
    cases popoff
    · by_cases hl : q_linkdata s.q = true
      · simp [trace_head, hf, hl]
      · simp [trace_head, hf, hl]
    · by_cases hn : node_next s.heap f = none
      · simp [trace_head, hf, hn]
      · simp [trace_head, hf, hn]

/-- A thread-safe `_fifoq_pop` that acquired the lock waits forever or returns a node. -/
theorem pop_ts_result (env : Env) (s : Mem) (popoff : Bool) (data : Option Buf)
    (hts : q_threadsafe s.q = true) (hlock : env.mutex_lock = 0) :
    (∃ sB, _fifoq_pop env (some s) popoff data = .blocked (some sB)) ∨
    (∃ n o s1, _fifoq_pop env (some s) popoff data = .ret (some n, o) (some s1)) := by
  have key := pop_ts_eq env s popoff data hts hlock
  have hex := cond_wait_loop_exit env.wakes
    ⟨{ s.q with ts_impl := (pthread_mutex_lock env s.q.ts_impl).2 }, s.heap⟩
  cases hc : (cond_wait_loop
      ⟨{ s.q with ts_impl := (pthread_mutex_lock env s.q.ts_impl).2 }, s.heap⟩ env.wakes).1
  · left
    simp only [hc, Bool.false_eq_true, if_false] at key
    exact ⟨_, key⟩
  · right
    have hsome := pop_head_fst _ true popoff data (hex hc)
    simp only [hc, if_true] at key
    cases hn : (_fifoq_pop_head (cond_wait_loop
        ⟨{ s.q with ts_impl := (pthread_mutex_lock env s.q.ts_impl).2 }, s.heap⟩
        env.wakes).2 true popoff data).1 with
    | none => rw [hn] at hsome; cases hsome
    | some n =>
      simp only [hn] at key
      exact ⟨n, _, _, key⟩

theorem load_store_max (junk : Buf) :
    load_fifoqt (memcpy junk (memcpy Buf.zero (store_fifoqt ⟨str_max, 100⟩) 16) 16)
      = ⟨str_max, 100⟩ := by
  rfl

theorem load_store_mustermann (junk : Buf) :
    load_fifoqt (memcpy junk (memcpy Buf.zero (store_fifoqt ⟨str_mustermann, 50⟩) 16) 16)
      = ⟨str_mustermann, 50⟩ := by
  rfl

theorem load_store_hans (junk : Buf) :
    load_fifoqt (memcpy junk (memcpy Buf.zero (store_fifoqt ⟨str_hans, 30⟩) 16) 16)
      = ⟨str_hans, 30⟩ := by
  rfl

theorem SameQueue.trans {a b c : Mem} (h1 : SameQueue a b) (h2 : SameQueue b c) :
    SameQueue a c :=
  ⟨h1.1.trans h2.1, h1.2.1.trans h2.2.1, h1.2.2.1.trans h2.2.2.1,
   h1.2.2.2.1.trans h2.2.2.2.1, h1.2.2.2.2.1.trans h2.2.2.2.2.1,
   h1.2.2.2.2.2.trans h2.2.2.2.2.2⟩

theorem same_with_ts (s : Mem) (ts : Option _fifoqn_ts_impl) :
    SameQueue ⟨{ s.q with ts_impl := ts }, s.heap⟩ s := ⟨rfl, rfl, rfl, rfl, rfl, rfl⟩

/-- The state the waiting loop ends in is the one it started in or one found at a
wake-up, up to the state of the lock. -/
theorem cond_wait_loop_origin (ws : List Mem) : ∀ s : Mem,
    SameQueue (cond_wait_loop s ws).2 s ∨ ∃ w ∈ ws, SameQueue (cond_wait_loop s ws).2 w := by
  induction ws with
  | nil =>
    intro s
    left
    by_cases hf : s.q.front = none
    · have h : cond_wait_loop s []
          = (false, ⟨{ s.q with ts_impl := pthread_mutex_unlock s.q.ts_impl }, s.heap⟩) :=
        if_pos hf
      rw [h]
      exact same_with_ts s _
    · have h : cond_wait_loop s [] = (true, s) := if_neg hf
      rw [h]
      exact SameQueue.refl s
  | cons w ws ih =>
    intro s
    by_cases hf : s.q.front = none
    · have h : cond_wait_loop s (w :: ws) = cond_wait_loop (woken w) ws := if_pos hf
      rw [h]
      right
      rcases ih (woken w) with h | ⟨v, hv, h⟩
      · exact ⟨w, List.mem_cons_self _ _, h.trans (same_with_ts w _)⟩
      · exact ⟨v, List.mem_cons_of_mem _ hv, h⟩
    · have h : cond_wait_loop s (w :: ws) = (true, s) := if_neg hf
      rw [h]
      exact Or.inl (SameQueue.refl s)

theorem Valid.of_same {t s : Mem} (h : SameQueue t s) (hv : Valid s) : Valid t := by
  obtain ⟨l, hl⟩ := hv
  exact ⟨l, h.rep hl⟩

/-- What `fifoq_pop` does on a well-formed queue, whatever the wake-ups, as long as they
show well-formed queues. -/
theorem pop_any (env : Env) (s : Mem) (hv : Valid s) (hwk : ∀ w ∈ env.wakes, Valid w) :
    (∃ s1, fifoq_pop env (some s) = .blocked (some s1) ∧ Valid s1) ∨
    fifoq_pop env (some s) = .ret false (some s) ∨
    (∃ s1 t, fifoq_pop env (some s) = .ret true (some s1) ∧ Valid s1 ∧
      (SameQueue t s ∨ ∃ w ∈ env.wakes, SameQueue t w) ∧
      t.q.num_nodes ≠ 0 ∧ s1.q.num_nodes + 1 = t.q.num_nodes) := by
  obtain ⟨l, hr⟩ := hv
  by_cases hts : q_threadsafe s.q = true
  · by_cases hlock : env.mutex_lock = 0
    · have key := pop_ts_eq env s true none hts hlock
      have horig := cond_wait_loop_origin env.wakes
        ⟨{ s.q with ts_impl := (pthread_mutex_lock env s.q.ts_impl).2 }, s.heap⟩
      have hex := cond_wait_loop_exit env.wakes
        ⟨{ s.q with ts_impl := (pthread_mutex_lock env s.q.ts_impl).2 }, s.heap⟩
      have horig2 : SameQueue (cond_wait_loop
            ⟨{ s.q with ts_impl := (pthread_mutex_lock env s.q.ts_impl).2 }, s.heap⟩
            env.wakes).2 s ∨
          ∃ w ∈ env.wakes, SameQueue (cond_wait_loop
            ⟨{ s.q with ts_impl := (pthread_mutex_lock env s.q.ts_impl).2 }, s.heap⟩
            env.wakes).2 w := by
        rcases horig with h | h
        · exact Or.inl (h.trans (same_with_ts s _))
        · exact Or.inr h
      have hvt : Valid (cond_wait_loop
          ⟨{ s.q with ts_impl := (pthread_mutex_lock env s.q.ts_impl).2 }, s.heap⟩
          env.wakes).2 := by
        rcases horig2 with h | ⟨w, hw, h⟩
        · exact Valid.of_same h ⟨l, hr⟩
        · exact Valid.of_same h (hwk w hw)
      cases hc : (cond_wait_loop
          ⟨{ s.q with ts_impl := (pthread_mutex_lock env s.q.ts_impl).2 }, s.heap⟩
          env.wakes).1
      · left
        simp only [hc, Bool.false_eq_true, if_false] at key
        exact ⟨_, by simp only [fifoq_pop, key], hvt⟩
      · right; right
        simp only [hc, if_true] at key
        obtain ⟨lt, hlt⟩ := hvt
        cases lt with
        | nil => exact absurd (hlt.front_none_iff.mpr rfl) (hex hc)
        | cons x xs =>
          obtain ⟨s1, h1, h2, _, _, h5, _⟩ := pop_head_rep _ true none x xs hlt
          refine ⟨s1, _, ?_, ⟨xs, h2⟩, horig2, ?_, h5⟩
          · simp only [fifoq_pop, key, h1]
            rfl
          · rw [hlt.count]; simp
    · right; left
      simp only [fifoq_pop, _fifoq_pop, hts, if_true, lock_fst, ne_eq, hlock,
        not_false_eq_true]
      rfl
  · have hts2 : q_threadsafe s.q = false := by simpa using hts
    rcases pop_rep env s l hr (Or.inl hts2) with ⟨h, _⟩ | ⟨_, _, _, _, _, h, _⟩ |
      ⟨x, xs, s1, hl, h1, h2, _, _, h5, _⟩
    · exact Or.inr (Or.inl h)
    · exact absurd h hts
    · right; right
      refine ⟨s1, s, h1, ⟨xs, h2⟩, Or.inl (SameQueue.refl s), ?_, h5⟩
      rw [hr.count, hl]; simp

/-- The state `fifoq_front` leaves on a well-formed queue is well formed. -/
theorem front_any (env : Env) (s : Mem) (d : Buf) (hv : Valid s)
    (hwk : ∀ w ∈ env.wakes, Valid w) :
    ∃ s1, (fifoq_front env (some s) (some d)).state = some s1 ∧ Valid s1 := by
  obtain ⟨l, hr⟩ := hv
  by_cases hts : q_threadsafe s.q = true
  · by_cases hlock : env.mutex_lock = 0
    · have key := pop_ts_eq env s false (some d) hts hlock
      have horig := cond_wait_loop_origin env.wakes
        ⟨{ s.q with ts_impl := (pthread_mutex_lock env s.q.ts_impl).2 }, s.heap⟩
      have hex := cond_wait_loop_exit env.wakes
        ⟨{ s.q with ts_impl := (pthread_mutex_lock env s.q.ts_impl).2 }, s.heap⟩
      have hvt : Valid (cond_wait_loop
          ⟨{ s.q with ts_impl := (pthread_mutex_lock env s.q.ts_impl).2 }, s.heap⟩
          env.wakes).2 := by
        rcases horig with h | ⟨w, hw, h⟩
        · exact Valid.of_same (h.trans (same_with_ts s _)) ⟨l, hr⟩
        · exact Valid.of_same h (hwk w hw)
      cases hc : (cond_wait_loop
          ⟨{ s.q with ts_impl := (pthread_mutex_lock env s.q.ts_impl).2 }, s.heap⟩
          env.wakes).1
      · simp only [hc, Bool.false_eq_true, if_false] at key
        exact ⟨_, by simp only [fifoq_front, key, Outcome.state], hvt⟩
      · simp only [hc, if_true] at key
        obtain ⟨lt, hlt⟩ := hvt
        cases lt with
        | nil => exact absurd (hlt.front_none_iff.mpr rfl) (hex hc)
        | cons x xs =>
          have h1 := front_head_rep _ true d x xs hlt
          refine ⟨(_fifoq_pop_head (cond_wait_loop
            ⟨{ s.q with ts_impl := (pthread_mutex_lock env s.q.ts_impl).2 }, s.heap⟩
            env.wakes).2 true false (some d)).2.2, ?_, ?_⟩
          · simp only [fifoq_front, key, Outcome.state]
          · rw [h1]
            exact Valid.of_same (same_with_ts _ _) ⟨_, hlt⟩
    · refine ⟨s, ?_, ⟨l, hr⟩⟩
      simp only [fifoq_front, _fifoq_pop, hts, if_true, lock_fst, ne_eq, hlock,
        not_false_eq_true, Outcome.state]
  · have hts2 : q_threadsafe s.q = false := by simpa using hts
    rcases front_rep env s l d hr (Or.inl hts2) with ⟨h, _⟩ | ⟨_, _, _, h, _⟩ |
      ⟨x, xs, s1, _, h1, h2, _⟩
    · exact ⟨s, by rw [h]; rfl, ⟨l, hr⟩⟩
    · exact absurd h hts
    · exact ⟨s1, by rw [h1]; rfl, ⟨l, h2.rep hr⟩⟩

/-- Every call leaves a well-formed queue well formed. -/
theorem exec_valid (c : Call) (s : Mem) (hv : Valid s)
    (hwk : ∀ w ∈ c.env.wakes, Valid w) :
    ∃ s1, (c.exec (some s)).state = some s1 ∧ Valid s1 := by
  obtain ⟨l, hr⟩ := hv
  cases c with
  | push env data =>
    cases data with
    | none => exact ⟨s, rfl, ⟨l, hr⟩⟩
    | some d =>
      rcases push_rep env s d l hr with h | ⟨a, s1, h1, _, _, h2, _⟩
      · exact ⟨s, by simp only [Call.exec, h, Outcome.state], ⟨l, hr⟩⟩
      · exact ⟨s1, by simp only [Call.exec, h1, Outcome.state], ⟨_, h2⟩⟩
  | pop env =>
    rcases pop_any env s ⟨l, hr⟩ hwk with ⟨s1, h, hv1⟩ | h | ⟨s1, _, h, hv1, _⟩
    · exact ⟨s1, by simp only [Call.exec, h, Outcome.state], hv1⟩
    · exact ⟨s, by simp only [Call.exec, h, Outcome.state], ⟨l, hr⟩⟩
    · exact ⟨s1, by simp only [Call.exec, h, Outcome.state], hv1⟩
  | front env data =>
    cases data with
    | none => exact ⟨s, rfl, ⟨l, hr⟩⟩
    | some d =>
      obtain ⟨s1, h, hv1⟩ := front_any env s d ⟨l, hr⟩ hwk
      refine ⟨s1, ?_, hv1⟩
      cases hf : fifoq_front env (some s) (some d) with
      | ret v q1 =>
        rw [hf] at h
        simp only [Call.exec, hf, Outcome.state] at h ⊢
        exact h
      | blocked q1 =>
        rw [hf] at h
        simp only [Call.exec, hf, Outcome.state] at h ⊢
        exact h
  | rear env data =>
    cases data with
    | none => exact ⟨s, rfl, ⟨l, hr⟩⟩
    | some d =>
      rcases rear_rep env s l d hr with ⟨h, _⟩ | ⟨s1, h1, _, h2, _⟩ | ⟨x, s1, _, h1, h2, _⟩
      · exact ⟨s, by simp only [Call.exec, h, Outcome.state], ⟨l, hr⟩⟩
      · exact ⟨s1, by simp only [Call.exec, h1, Outcome.state], ⟨l, h2.rep hr⟩⟩
      · exact ⟨s1, by simp only [Call.exec, h1, Outcome.state], ⟨l, h2.rep hr⟩⟩

theorem count_valid (env : Env) (s : Mem) (hv : Valid s) :
    ∃ s1, (fifoq_count env (some s)).2 = some s1 ∧ Valid s1 ∧ SameQueue s1 s := by
  by_cases hfail : (if q_threadsafe s.q = true then pthread_mutex_lock env s.q.ts_impl
      else (0, s.q.ts_impl)).1 ≠ 0
  · refine ⟨s, ?_, hv, SameQueue.refl s⟩
    simp only [fifoq_count]
    rw [if_pos hfail]
  · refine ⟨⟨{ s.q with ts_impl := if q_threadsafe s.q = true then
        pthread_mutex_unlock (if q_threadsafe s.q = true then
          pthread_mutex_lock env s.q.ts_impl else (0, s.q.ts_impl)).2
        else (if q_threadsafe s.q = true then
          pthread_mutex_lock env s.q.ts_impl else (0, s.q.ts_impl)).2 }, s.heap⟩,
      ?_, Valid.of_same (same_with_ts s _) hv, same_with_ts s _⟩
    simp only [fifoq_count]
    rw [if_neg hfail]

/-- Every sequence of operations leaves a well-formed queue well formed. -/
theorem reach_valid : ∀ (ops : List Op) (s : Mem), Valid s →
    (∀ o ∈ ops, ∀ w ∈ o.env.wakes, Valid w) →
    ∃ s1, reach ops (some s) = some s1 ∧ Valid s1 := by
  intro ops
  induction ops with
  | nil => intro s hv _; exact ⟨s, rfl, hv⟩
  | cons o os ih =>
    intro s hv hwk
    have hwk2 : ∀ o ∈ os, ∀ w ∈ o.env.wakes, Valid w :=
      fun o1 ho1 => hwk o1 (List.mem_cons_of_mem _ ho1)
    cases o with
    | call c =>
      obtain ⟨s1, h1, hv1⟩ := exec_valid c s hv (hwk (.call c) (List.mem_cons_self _ _))
      cases hc : c.exec (some s) with
      | ret v q1 =>
        rw [hc] at h1
        simp only [Outcome.state] at h1
        obtain ⟨s2, h2, hv2⟩ := ih s1 hv1 hwk2
        exact ⟨s2, by simp only [reach, hc, h1, h2], hv2⟩
      | blocked q1 =>
        rw [hc] at h1
        simp only [Outcome.state] at h1
        exact ⟨s1, by simp only [reach, hc, h1], hv1⟩
    | count env =>
      obtain ⟨s1, h1, hv1, _⟩ := count_valid env s hv
      obtain ⟨s2, h2, hv2⟩ := ih s1 hv1 hwk2
      exact ⟨s2, by simp only [reach, h1, h2], hv2⟩

theorem walk_chain (heap : Nat → Option _fifoqn) :
    ∀ (l : List (Nat × Buf)) (p : Option Nat), Chain heap p l →
      walk heap l.length p = l.map Prod.snd := by
  intro l
  induction l with
  | nil => intro p _; rfl
  | cons x xs ih =>
    intro p hc
    obtain ⟨hp, n, hn, hd, hrest⟩ := hc
    rw [hp]
    simp only [List.length_cons, walk, hn, List.map_cons, hd, ih _ hrest]

theorem Rep.elements {s : Mem} {l : List (Nat × Buf)} (hr : Rep s l) :
    elements s = l.map Prod.snd := by
  unfold Fifoq.elements
  rw [hr.count]
  exact walk_chain _ _ _ hr.chain

/-- A sequence of operations on a non-threadsafe well-formed queue leaves one, with the
same options and element size. -/
theorem reach_nts : ∀ (ops : List Op) (s : Mem) (l : List (Nat × Buf)), Rep s l →
    q_threadsafe s.q = false →
    ∃ s1 l1, reach ops (some s) = some s1 ∧ Rep s1 l1 ∧
      s1.q.opts = s.q.opts ∧ s1.q.dsize = s.q.dsize := by
  intro ops
  induction ops with
  | nil => intro s l hr _; exact ⟨s, l, rfl, hr, rfl, rfl⟩
  | cons o os ih =>
    intro s l hr hts
    cases o with
    | call c =>
      obtain ⟨s1, l1, hr1, ho, hd, hex⟩ := exec_rep c s l hr (Or.inl hts)
      have hts1 : q_threadsafe s1.q = false := by rw [q_threadsafe_congr ho]; exact hts
      rcases hex with ⟨v, hv, _⟩ | ⟨hb, _, _⟩
      · obtain ⟨s2, l2, e1, e2, e3, e4⟩ := ih s1 l1 hr1 hts1
        exact ⟨s2, l2, by simp only [reach, hv, e1], e2, by rw [e3, ho], by rw [e4, hd]⟩
      · exact ⟨s1, l1, by simp only [reach, hb], hr1, ho, hd⟩
    | count env =>
      obtain ⟨s1, h1, _, hs⟩ := count_valid env s ⟨l, hr⟩
      have hts1 : q_threadsafe s1.q = false := by rw [q_threadsafe_congr hs.1]; exact hts
      obtain ⟨s2, l2, e1, e2, e3, e4⟩ := ih s1 l (hs.rep hr) hts1
      exact ⟨s2, l2, by simp only [reach, h1, e1], e2, by rw [e3, hs.1], by rw [e4, hs.2.1]⟩

/-! ## The claims -/

/-- C1 (FIFO law).  On a non-threadsafe queue freshly created by `_fifoq_init`, after the
elements `xs` have been pushed in order (every push returning `true`), repeating
(`fifoq_front`, then `fifoq_pop`) once per element makes every front and every pop return
`true`, and the bytes the i-th front writes are those of the i-th pushed element. -/
theorem fifo_law (ienv : Env) (dsize opts : Nat) (s : Mem) (xs outs : List (Env × Buf))
    (hinit : _fifoq_init ienv dsize opts = some s)
    (hnts : q_threadsafe s.q = false)
    (hpush : (push_all xs (some s)).1 = true)
    (hlen : outs.length = xs.length) :
    (drain outs (push_all xs (some s)).2).map
        (fun r => (r.1, r.2.1.map (fun b => b.bytes (width s.q)), r.2.2))
      = xs.map (fun x => (true, some (x.2.bytes (width s.q)), true)) := by
  obtain ⟨hr, _⟩ := init_rep ienv dsize opts s hinit
  obtain ⟨s1, l1, e1, e2, e3, e4, e5⟩ := push_all_rep xs s [] hr hpush
  have hts1 : q_threadsafe s1.q = false := by rw [q_threadsafe_congr e4]; exact hnts
  have hw : width s1.q = width s.q := width_congr e4 e5
  have hlen1 : outs.length = l1.length := by
    have := congrArg List.length e3
    simp only [List.length_map] at this
    rw [hlen, this]
  have h := drain_rep l1 s1 outs (by simpa using e2) hts1 hlen1
  rw [hw] at h
  rw [e1, h]
  have : l1.map (fun x => (true, some (x.2.bytes (width s.q)), true))
      = (l1.map Prod.snd).map (fun b => (true, some (b.bytes (width s.q)), true)) := by
    rw [List.map_map]; rfl
  rw [this, e3, List.map_map]
  apply List.map_congr_left
  intro x _
  simp only [Function.comp, Buf.zero, bytes_memcpy]

theorem fifo_law_witness :
    (drain [(env_ok 0, Buf.zero), (env_ok 0, Buf.zero)]
        (push_all [(env_ok 32, byte_buf 100), (env_ok 48, byte_buf 50)]
          (some ⟨⟨0, 1, none, none, 0, none⟩, fun _ => none⟩)).2).map
        (fun r => (r.1, r.2.1.map (fun b => b.bytes 1), r.2.2))
      = [(true, some [100], true), (true, some [50], true)] :=
  fifo_law (env_ok 16) 1 0 ⟨⟨0, 1, none, none, 0, none⟩, fun _ => none⟩
    [(env_ok 32, byte_buf 100), (env_ok 48, byte_buf 50)]
    [(env_ok 0, Buf.zero), (env_ok 0, Buf.zero)] rfl (by decide) (by decide) rfl

/-- C2 (count).  On a non-threadsafe queue freshly created by `_fifoq_init`, `fifoq_count`
is 0 right after creation and, after any finite sequence of `fifoq_push`, `fifoq_pop`,
`fifoq_front` and `fifoq_rear` calls, equals the number of pushes that returned `true`
minus the number of pops that returned `true`. -/
theorem count_pushes_minus_pops (ienv env : Env) (dsize opts : Nat) (s : Mem)
    (calls : List Call)
    (hinit : _fifoq_init ienv dsize opts = some s)
    (hnts : q_threadsafe s.q = false) :
    (fifoq_count env (some s)).1 = 0 ∧
    successes Call.isPop calls (some s) ≤ successes Call.isPush calls (some s) ∧
    (fifoq_count env (run calls (some s))).1
      = successes Call.isPush calls (some s) - successes Call.isPop calls (some s) := by
  obtain ⟨hr, ho, _, hn, _⟩ := init_rep ienv dsize opts s hinit
  obtain ⟨s1, l1, e1, e2, e3, _, e5⟩ := run_count calls s [] hr (Or.inl hnts)
  have hts1 : q_threadsafe s1.q = false := by rw [q_threadsafe_congr e3]; exact hnts
  simp only [List.length_nil] at e5
  refine ⟨?_, by omega, ?_⟩
  · rw [count_val, hnts, hn]; simp
  · rw [e1, count_val, hts1, e2.count]
    simp only [Bool.false_eq_true, false_and, if_false]
    omega

theorem count_pushes_minus_pops_witness :
    (fifoq_count (env_ok 0) (some ⟨⟨2, 4, none, none, 0, none⟩, fun _ => none⟩)).1 = 0 ∧
    successes Call.isPop
        [.pop (env_ok 0), .push (env_ok 32) (some (byte_buf 7)),
         .push env_no_memory (some (byte_buf 8)), .front (env_ok 0) (some Buf.zero)]
        (some ⟨⟨2, 4, none, none, 0, none⟩, fun _ => none⟩)
      ≤ successes Call.isPush
        [.pop (env_ok 0), .push (env_ok 32) (some (byte_buf 7)),
         .push env_no_memory (some (byte_buf 8)), .front (env_ok 0) (some Buf.zero)]
        (some ⟨⟨2, 4, none, none, 0, none⟩, fun _ => none⟩) ∧
    (fifoq_count (env_ok 0) (run
        [.pop (env_ok 0), .push (env_ok 32) (some (byte_buf 7)),
         .push env_no_memory (some (byte_buf 8)), .front (env_ok 0) (some Buf.zero)]
        (some ⟨⟨2, 4, none, none, 0, none⟩, fun _ => none⟩))).1
      = successes Call.isPush
        [.pop (env_ok 0), .push (env_ok 32) (some (byte_buf 7)),
         .push env_no_memory (some (byte_buf 8)), .front (env_ok 0) (some Buf.zero)]
        (some ⟨⟨2, 4, none, none, 0, none⟩, fun _ => none⟩)
      - successes Call.isPop
        [.pop (env_ok 0), .push (env_ok 32) (some (byte_buf 7)),
         .push env_no_memory (some (byte_buf 8)), .front (env_ok 0) (some Buf.zero)]
        (some ⟨⟨2, 4, none, none, 0, none⟩, fun _ => none⟩) :=
  count_pushes_minus_pops (env_ok 16) (env_ok 0) 4 2 ⟨⟨2, 4, none, none, 0, none⟩, fun _ => none⟩
    [.pop (env_ok 0), .push (env_ok 32) (some (byte_buf 7)),
     .push env_no_memory (some (byte_buf 8)), .front (env_ok 0) (some Buf.zero)]
    rfl (by decide)

/-- C3 (front is a peek).  On a non-empty queue and with a non-null output buffer,
`fifoq_front` returns leaving options, element size, head, tail, length and every node as
they were (the whole state, when the queue is not thread-safe); two consecutive calls that
return `true` write the same element bytes, a call returns `true` unless the queue is
thread-safe and its lock is not acquired, and `fifoq_count` is the same before and after. -/
theorem front_nondestructive (e1 e2 ec : Env) (s : Mem) (d1 d2 : Buf)
    (hne : s.q.front ≠ none) :
    ∃ b1 o1 s1 b2 o2 s2,
      fifoq_front e1 (some s) (some d1) = .ret (b1, some o1) (some s1) ∧
      fifoq_front e2 (some s1) (some d2) = .ret (b2, some o2) (some s2) ∧
      SameQueue s1 s ∧ SameQueue s2 s ∧
      (q_threadsafe s.q = false → s1 = s ∧ s2 = s) ∧
      (b1 = true ↔ (q_threadsafe s.q = false ∨ e1.mutex_lock = 0)) ∧
      (b2 = true ↔ (q_threadsafe s.q = false ∨ e2.mutex_lock = 0)) ∧
      (b1 = true → b2 = true → o1.bytes (width s.q) = o2.bytes (width s.q)) ∧
      (fifoq_count ec (some s1)).1 = (fifoq_count ec (some s)).1 ∧
      (fifoq_count ec (some s2)).1 = (fifoq_count ec (some s)).1 := by
  cases hf : s.q.front with
  | none => exact absurd hf hne
  | some f =>
    obtain ⟨b1, s1, h1, hs1, hn1, hb1⟩ := front_nonempty e1 s d1 f hf
    have hf1 : s1.q.front = some f := by rw [hs1.2.2.1, hf]
    obtain ⟨b2, s2, h2, hs2, hn2, hb2⟩ := front_nonempty e2 s1 d2 f hf1
    have hts : q_threadsafe s1.q = q_threadsafe s.q := q_threadsafe_congr hs1.1
    have hwd : width s1.q = width s.q := width_congr hs1.1 hs1.2.1
    have hs2s : SameQueue s2 s :=
      ⟨hs2.1.trans hs1.1, hs2.2.1.trans hs1.2.1, hs2.2.2.1.trans hs1.2.2.1,
       hs2.2.2.2.1.trans hs1.2.2.2.1, hs2.2.2.2.2.1.trans hs1.2.2.2.2.1,
       hs2.2.2.2.2.2.trans hs1.2.2.2.2.2⟩
    refine ⟨b1, _, s1, b2, _, s2, h1, h2, hs1, hs2s, ?_, hb1, ?_, ?_,
      count_same ec hs1, count_same ec hs2s⟩
    · intro hn
      have e1 := hn1 hn
      subst e1
      exact ⟨rfl, hn2 hn⟩
    · rw [hb2, hts]
    · intro t1 t2
      simp only [t1, t2, if_true, hwd, hs1.2.2.2.2.2, bytes_memcpy]

theorem front_nondestructive_witness :
    (one_node 0).q.front ≠ none ∧
    ∃ b1 o1 s1 b2 o2 s2,
      fifoq_front (env_ok 0) (some (one_node 0)) (some Buf.zero)
        = .ret (b1, some o1) (some s1) ∧
      fifoq_front (env_ok 0) (some s1) (some (byte_buf 9)) = .ret (b2, some o2) (some s2) ∧
      SameQueue s1 (one_node 0) ∧ SameQueue s2 (one_node 0) ∧
      (q_threadsafe (one_node 0).q = false → s1 = one_node 0 ∧ s2 = one_node 0) ∧
      (b1 = true ↔ (q_threadsafe (one_node 0).q = false ∨ (env_ok 0).mutex_lock = 0)) ∧
      (b2 = true ↔ (q_threadsafe (one_node 0).q = false ∨ (env_ok 0).mutex_lock = 0)) ∧
      (b1 = true → b2 = true →
        o1.bytes (width (one_node 0).q) = o2.bytes (width (one_node 0).q)) ∧
      (fifoq_count (env_ok 0) (some s1)).1 = (fifoq_count (env_ok 0) (some (one_node 0))).1 ∧
      (fifoq_count (env_ok 0) (some s2)).1 = (fifoq_count (env_ok 0) (some (one_node 0))).1 :=
  ⟨by decide,
    front_nondestructive (env_ok 0) (env_ok 0) (env_ok 0) (one_node 0) Buf.zero (byte_buf 9)
      (by decide)⟩

/-- C4, as stated, fails: on the thread-safe queue reached from a fresh one by one
successful push (so it holds one element), a `fifoq_rear` whose `pthread_mutex_lock`
fails returns `false`. -/
theorem rear_succeeds_counterexample :
    (fifoq_count (env_ok 0)
        (run [.push (env_ok 32) (some (byte_buf 100))] (_fifoq_init (env_ok 16) 1 1))).1 = 1 ∧
    (fifoq_rear (env_lock_fails 0)
        (run [.push (env_ok 32) (some (byte_buf 100))] (_fifoq_init (env_ok 16) 1 1))
        (some Buf.zero)).1 = false := by
  decide

/-- C4, amended.  In every state reached from a fresh queue by a sequence of calls made
while no other thread changes the queue, if the queue is non-empty then every `fifoq_rear`
that is not refused the lock (thread-safe mode) returns `true` and writes the element of
the latest push that returned `true`; and after a `fifoq_pop` (made likewise) that returns
`true` and leaves more than one element, `fifoq_rear` gives the same result and writes the
same buffer as it did before the pop. -/
theorem rear_latest_push (ienv : Env) (dsize opts : Nat) (s0 : Mem) (calls : List Call)
    (hinit : _fifoq_init ienv dsize opts = some s0)
    (hw : q_threadsafe s0.q = false ∨ ∀ c ∈ calls, c.env.wakes = []) :
    ∃ s, run calls (some s0) = some s ∧
      (s.q.num_nodes ≠ 0 →
        ∃ x, last_pushed none calls (some s0) = some x ∧
          ∀ env d, (q_threadsafe s.q = false ∨ env.mutex_lock = 0) →
            ∃ s1, fifoq_rear env (some s) (some d)
                = (true, some (memcpy d x (width s.q)), some s1) ∧ SameQueue s1 s) ∧
      (∀ penv s1, (q_threadsafe s.q = false ∨ penv.wakes = []) →
        fifoq_pop penv (some s) = .ret true (some s1) → 1 < s1.q.num_nodes →
        ∀ env d,
          (fifoq_rear env (some s1) (some d)).1 = (fifoq_rear env (some s) (some d)).1 ∧
          (fifoq_rear env (some s1) (some d)).2.1
            = (fifoq_rear env (some s) (some d)).2.1) := by
  obtain ⟨hr, _⟩ := init_rep ienv dsize opts s0 hinit
  have hl0 : LastIs (width s0.q) [] none := by
    intro x hx; simp at hx
  obtain ⟨s, l, e1, e2, e3, e4, e5⟩ := run_last calls s0 [] none hr hw hl0
  have hwd : width s.q = width s0.q := width_congr e3 e4
  refine ⟨s, e1, ?_, ?_⟩
  · intro hne
    have hlne : l ≠ [] := by
      intro h
      apply hne
      rw [e2.count, h]; rfl
    cases hlast : l.getLast? with
    | none => exact absurd (List.getLast?_eq_none_iff.mp hlast) hlne
    | some y =>
      obtain ⟨x, hx1, hx2⟩ := e5 y hlast
      refine ⟨x, hx1, ?_⟩
      intro env d hok
      rcases rear_rep env s l d e2 with ⟨_, h1, h2⟩ | ⟨_, _, h, _⟩ | ⟨z, s1, hz, h1, h2, _⟩
      · rcases hok with h | h
        · rw [h1] at h; cases h
        · exact absurd h h2
      · exact absurd h hlne
      · rw [hlast] at hz
        cases hz
        refine ⟨s1, ?_, h2⟩
        rw [h1, hx2, hwd, memcpy_memcpy]
  · intro penv s1 hpw hpop hcount env d
    have hw2 : q_threadsafe s.q = false ∨ penv.wakes = [] ∨ l ≠ [] := by
      rcases hpw with h | h
      · exact Or.inl h
      · exact Or.inr (Or.inl h)
    rcases pop_rep penv s l e2 hw2 with ⟨h, _⟩ | ⟨_, h, _⟩ |
      ⟨y, ys, s2, hl, p1, p2, p3, p4, _⟩
    · rw [h] at hpop; cases hpop
    · rw [h] at hpop; cases hpop
    · rw [p1] at hpop
      cases hpop
      have hys : ys ≠ [] := by
        intro h
        rw [p2.count, h] at hcount
        simp at hcount
      have hlast : l.getLast? = ys.getLast? := by
        rw [hl]
        cases ys with
        | nil => exact absurd rfl hys
        | cons z zs => exact List.getLast?_cons_cons
      have h1 := rear_val env s1 ys d p2
      have h2 := rear_val env s l d e2
      rw [q_threadsafe_congr p3, width_congr p3 p4, ← hlast, ← h2] at h1
      exact Prod.mk.inj h1

theorem rear_latest_push_witness :
    ∃ s, run two_pushes (some (fresh_mem 1 1)) = some s ∧
      (s.q.num_nodes ≠ 0 →
        ∃ x, last_pushed none two_pushes (some (fresh_mem 1 1)) = some x ∧
          ∀ env d, (q_threadsafe s.q = false ∨ env.mutex_lock = 0) →
            ∃ s1, fifoq_rear env (some s) (some d)
                = (true, some (memcpy d x (width s.q)), some s1) ∧ SameQueue s1 s) ∧
      (∀ penv s1, (q_threadsafe s.q = false ∨ penv.wakes = []) →
        fifoq_pop penv (some s) = .ret true (some s1) → 1 < s1.q.num_nodes →
        ∀ env d,
          (fifoq_rear env (some s1) (some d)).1 = (fifoq_rear env (some s) (some d)).1 ∧
          (fifoq_rear env (some s1) (some d)).2.1
            = (fifoq_rear env (some s) (some d)).2.1) :=
  rear_latest_push (env_ok 16) 1 1 (fresh_mem 1 1) two_pushes rfl
    (Or.inr (by
      intro c hc
      simp only [two_pushes, List.mem_cons, List.mem_singleton, List.not_mem_nil,
        or_false] at hc
      rcases hc with h | h <;> subst h <;> rfl))

/-- C5 (postcondition of push).  When `fifoq_push` returns `true` on a well-formed queue
holding the nodes `l`, with a non-null data pointer: the length has increased by exactly
one; the new node is the tail, its `next` is `NULL` and it holds the pushed element; the
queue holds the former nodes, unchanged and in the same order, followed by the new one;
the head is the new node if the queue was empty and is unchanged otherwise. -/
theorem push_postcondition (env : Env) (s : Mem) (d : Buf) (l : List (Nat × Buf))
    (hr : Rep s l) (hok : (fifoq_push env (some s) (some d)).1 = true) :
    ∃ a s1, (fifoq_push env (some s) (some d)).2 = some s1 ∧
      s1.q.num_nodes = s.q.num_nodes + 1 ∧
      s1.q.rear = some a ∧ (s1.heap a).isSome = true ∧ node_next s1.heap a = none ∧
      node_data s1.heap a = memcpy Buf.zero d (width s.q) ∧
      Rep s1 (l ++ [(a, memcpy Buf.zero d (width s.q))]) ∧
      (s.q.front = none → s1.q.front = some a) ∧
      (s.q.front ≠ none → s1.q.front = s.q.front) ∧
      s1.q.opts = s.q.opts ∧ s1.q.dsize = s.q.dsize := by
  rcases push_rep env s d l hr with h | ⟨a, s1, h1, _, _, h2, h3, h4, h5, _⟩
  · rw [h] at hok; cases hok
  · have hlast : (l ++ [(a, memcpy Buf.zero d (width s.q))]).getLast?
        = some (a, memcpy Buf.zero d (width s.q)) := List.getLast?_concat _
    have hn := chain_last_next _ _ _ h2.chain _ hlast
    have hd := chain_node _ _ _ h2.chain (a, memcpy Buf.zero d (width s.q)) (by simp)
    refine ⟨a, s1, by rw [h1], h5, ?_, hn.2, hn.1, hd, h2, ?_, ?_, h3, h4⟩
    · rw [h2.rear, List.getLast?_map, hlast]; rfl
    · intro hf
      have hl : l = [] := hr.front_none_iff.mp hf
      subst hl
      exact h2.chain.1
    · intro hf
      cases l with
      | nil => exact absurd (hr.front_none_iff.mpr rfl) hf
      | cons x xs =>
        have e1 : s1.q.front = some x.1 := h2.chain.1
        have e2 : s.q.front = some x.1 := hr.chain.1
        rw [e1, e2]

theorem push_postcondition_witness :
    ∃ a s1, (fifoq_push (env_ok 64) (some (one_node 3)) (some (byte_buf 50))).2 = some s1 ∧
      s1.q.num_nodes = (one_node 3).q.num_nodes + 1 ∧
      s1.q.rear = some a ∧ (s1.heap a).isSome = true ∧ node_next s1.heap a = none ∧
      node_data s1.heap a = memcpy Buf.zero (byte_buf 50) (width (one_node 3).q) ∧
      Rep s1 ([(32, byte_buf 100)]
        ++ [(a, memcpy Buf.zero (byte_buf 50) (width (one_node 3).q))]) ∧
      ((one_node 3).q.front = none → s1.q.front = some a) ∧
      ((one_node 3).q.front ≠ none → s1.q.front = (one_node 3).q.front) ∧
      s1.q.opts = (one_node 3).q.opts ∧ s1.q.dsize = (one_node 3).q.dsize :=
  push_postcondition (env_ok 64) (one_node 3) (byte_buf 50) [(32, byte_buf 100)]
    (one_node_rep 3) (by decide)

/-- C6, as stated, fails: on the thread-safe queue reached from a fresh one by one
successful push (non-null, thread-safe flag set, one node), a `fifoq_pop` whose
`pthread_mutex_lock` fails returns `false`. -/
theorem pop_failure_counterexample :
    (run [.push (env_ok 32) (some (byte_buf 100))] (_fifoq_init (env_ok 16) 1 1)).map
        (fun s => (q_threadsafe s.q, s.q.num_nodes, s.q.front)) = some (true, 1, some 32) ∧
    (fifoq_pop (env_lock_fails 0)
        (run [.push (env_ok 32) (some (byte_buf 100))] (_fifoq_init (env_ok 16) 1 1))).val?
      = some false := by
  decide

/-- C6, amended.  `fifoq_pop` returns `false` on a null handle; on a well-formed queue it
returns `false` only if the queue is non-threadsafe and empty, or thread-safe and refused
the lock; and on a non-empty queue that is non-threadsafe or acquires the lock it returns
`true`, the head node is freed and the remaining nodes are the rest of the list, the length
is one less, and the tail is cleared when the queue becomes empty. -/
theorem pop_failure_causes (env : Env) (s : Mem) (l : List (Nat × Buf)) (hr : Rep s l) :
    fifoq_pop env none = .ret false none ∧
    (∀ q1, fifoq_pop env (some s) = .ret false q1 →
      (q_threadsafe s.q = false ∧ l = [] ∧ s.q.num_nodes = 0 ∧ s.q.front = none) ∨
      (q_threadsafe s.q = true ∧ env.mutex_lock ≠ 0)) ∧
    (∀ x xs, l = x :: xs → (q_threadsafe s.q = false ∨ env.mutex_lock = 0) →
      ∃ s1, fifoq_pop env (some s) = .ret true (some s1) ∧ Rep s1 xs ∧
        s1.heap x.1 = none ∧ s1.q.num_nodes + 1 = s.q.num_nodes ∧
        (xs = [] → s1.q.rear = none ∧ s1.q.front = none)) := by
  refine ⟨rfl, ?_, ?_⟩
  · intro q1 hq
    by_cases hts : q_threadsafe s.q = true
    · by_cases hlock : env.mutex_lock = 0
      · exact absurd hq (pop_not_false env s hts hlock q1)
      · exact Or.inr ⟨hts, hlock⟩
    · have hts2 : q_threadsafe s.q = false := by simpa using hts
      rcases pop_rep env s l hr (Or.inl hts2) with ⟨_, h | h⟩ | ⟨_, _, _, _, _, h, _⟩ |
        ⟨x, xs, s1, _, h, _⟩
      · refine Or.inl ⟨hts2, h.2, ?_, hr.front_none_iff.mpr h.2⟩
        rw [hr.count, h.2]; rfl
      · exact Or.inr h
      · exact absurd h hts
      · rw [h] at hq; cases hq
  · intro x xs hl hok
    rcases pop_rep env s l hr (Or.inr (Or.inr (by rw [hl]; simp))) with ⟨_, h | h⟩ |
      ⟨_, _, _, _, _, _, _, h⟩ | ⟨y, ys, s1, hl2, h1, h2, _, _, h3, h4, _⟩
    · rw [hl] at h; exact absurd h.2 (by simp)
    · rcases hok with h5 | h5
      · rw [h.1] at h5; cases h5
      · exact absurd h5 h.2
    · rw [hl] at h; cases h
    · rw [hl] at hl2
      cases hl2
      refine ⟨s1, h1, h2, h4, h3, ?_⟩
      intro hxs
      subst hxs
      exact ⟨by rw [h2.rear]; rfl, h2.front_none_iff.mpr rfl⟩

theorem pop_failure_causes_witness :
    fifoq_pop (env_ok 0) none = .ret false none ∧
    (∀ q1, fifoq_pop (env_ok 0) (some (one_node 1)) = .ret false q1 →
      (q_threadsafe (one_node 1).q = false ∧ [(32, byte_buf 100)] = [] ∧
        (one_node 1).q.num_nodes = 0 ∧ (one_node 1).q.front = none) ∨
      (q_threadsafe (one_node 1).q = true ∧ (env_ok 0).mutex_lock ≠ 0)) ∧
    (∀ x xs, [(32, byte_buf 100)] = x :: xs →
      (q_threadsafe (one_node 1).q = false ∨ (env_ok 0).mutex_lock = 0) →
      ∃ s1, fifoq_pop (env_ok 0) (some (one_node 1)) = .ret true (some s1) ∧ Rep s1 xs ∧
        s1.heap x.1 = none ∧ s1.q.num_nodes + 1 = (one_node 1).q.num_nodes ∧
        (xs = [] → s1.q.rear = none ∧ s1.q.front = none)) :=
  pop_failure_causes (env_ok 0) (one_node 1) [(32, byte_buf 100)] (one_node_rep 1)

/-- C7 (empty queue, non-threadsafe).  On a well-formed empty queue without the
thread-safe flag, whatever its element size and link flag, `fifoq_pop`, `fifoq_front` and
`fifoq_rear` each return `false` (they return, they do not wait), the output buffer is as
it was and so is the whole queue state. -/
theorem empty_queue_fails (env : Env) (s : Mem) (d : Buf) (hr : Rep s [])
    (hts : q_threadsafe s.q = false) :
    fifoq_pop env (some s) = .ret false (some s) ∧
    fifoq_front env (some s) (some d) = .ret (false, some d) (some s) ∧
    fifoq_rear env (some s) (some d) = (false, some d, some s) := by
  refine ⟨?_, ?_, ?_⟩
  · rcases pop_rep env s [] hr (Or.inl hts) with ⟨h, _⟩ | ⟨_, _, _, _, _, h, _⟩ |
      ⟨_, _, _, h, _⟩
    · exact h
    · rw [hts] at h; cases h
    · cases h
  · rcases front_rep env s [] d hr (Or.inl hts) with ⟨h, _⟩ | ⟨_, _, _, h, _⟩ |
      ⟨_, _, _, h, _⟩
    · exact h
    · rw [hts] at h; cases h
    · cases h
  · rcases rear_rep env s [] d hr with ⟨_, h, _⟩ | ⟨s1, h, _, _, h2, _⟩ | ⟨_, _, h, _⟩
    · rw [hts] at h; cases h
    · rw [h, h2 hts]
    · simp at h

theorem empty_queue_fails_witness :
    fifoq_pop (env_ok 0) (some (fresh_mem 4 2)) = .ret false (some (fresh_mem 4 2)) ∧
    fifoq_front (env_ok 0) (some (fresh_mem 4 2)) (some (byte_buf 9))
      = .ret (false, some (byte_buf 9)) (some (fresh_mem 4 2)) ∧
    fifoq_rear (env_ok 0) (some (fresh_mem 4 2)) (some (byte_buf 9))
      = (false, some (byte_buf 9), some (fresh_mem 4 2)) :=
  empty_queue_fails (env_ok 0) (fresh_mem 4 2) (byte_buf 9) (fresh_rep 4 2) (by decide)

/-- C8 (construction).  `_fifoq_init` returns `NULL` whenever `dsize` is zero (whatever the
options, link mode included) and whenever `opts > 3`; for a nonzero `dsize` and `opts` in
0..3 it returns an empty queue with these options and element size, provided `malloc`
succeeds and, when the thread-safe flag is set, `pthread_mutex_init` and
`pthread_cond_init` return 0. -/
theorem init_result (env : Env) (dsize opts : Nat) :
    (dsize = 0 → _fifoq_init env dsize opts = none) ∧
    (3 < opts → _fifoq_init env dsize opts = none) ∧
    (dsize ≠ 0 → opts ≤ 3 →
      (malloc (fun _ => false) (queue_size opts) env.malloc).isSome = true →
      (opts &&& 1 ≠ 0 → env.mutex_init = 0 ∧ env.cond_init = 0) →
      _fifoq_init env dsize opts = some (fresh_mem dsize opts)) := by
  refine ⟨?_, ?_, ?_⟩
  · intro h
    simp [_fifoq_init, h]
  · intro h
    simp [_fifoq_init, h]
  · intro hd ho hm hts
    have hc : ¬(dsize = 0 ∨ opts > 3) := by omega
    cases hmm : malloc (fun _ => false) (queue_size opts) env.malloc with
    | none => rw [hmm] at hm; cases hm
    | some a =>
      by_cases h1 : opts &&& 1 ≠ 0
      · obtain ⟨hi, hcnd⟩ := hts h1
        simp only [_fifoq_init, hc, if_false, hmm, h1, decide_True, if_true, hi, hcnd,
          ne_eq, not_true_eq_false, fresh_mem, not_false_eq_true]
      · simp only [_fifoq_init, hc, if_false, hmm, h1, decide_False, fresh_mem,
          Bool.false_eq_true]

theorem init_result_witness :
    (1 = 0 → _fifoq_init (env_ok 16) 1 3 = none) ∧
    (3 < 3 → _fifoq_init (env_ok 16) 1 3 = none) ∧
    (1 ≠ 0 → 3 ≤ 3 →
      (malloc (fun _ => false) (queue_size 3) (env_ok 16).malloc).isSome = true →
      (3 &&& 1 ≠ 0 → (env_ok 16).mutex_init = 0 ∧ (env_ok 16).cond_init = 0) →
      _fifoq_init (env_ok 16) 1 3 = some (fresh_mem 1 3)) ∧
    (malloc (fun _ => false) (queue_size 3) (env_ok 16).malloc).isSome = true :=
  ⟨(init_result (env_ok 16) 1 3).1, (init_result (env_ok 16) 1 3).2.1,
   (init_result (env_ok 16) 1 3).2.2, by decide⟩

/-- C9 (invalid arguments).  With a null queue handle `fifoq_push`, `fifoq_pop`,
`fifoq_front` and `fifoq_rear` return `false`; with a null data pointer `fifoq_push`,
`fifoq_front` and `fifoq_rear` return `false`, whatever the queue is (thread-safe or not,
empty or not); in each case the handle contents and the output buffer are as before. -/
theorem null_arguments (env : Env) (q : fifoq) (d : Option Buf) :
    fifoq_push env none d = (false, none) ∧
    fifoq_pop env none = .ret false none ∧
    fifoq_front env none d = .ret (false, d) none ∧
    fifoq_rear env none d = (false, d, none) ∧
    fifoq_push env q none = (false, q) ∧
    fifoq_front env q none = .ret (false, none) q ∧
    fifoq_rear env q none = (false, none, q) := by
  refine ⟨?_, rfl, ?_, rfl, ?_, rfl, ?_⟩
  · cases d <;> rfl
  · cases d <;> rfl
  · cases q <;> rfl
  · cases q <;> rfl

/-- C10 (push fails atomically).  When the node allocation fails, or when the queue is
thread-safe and `pthread_mutex_lock` fails, `fifoq_push` returns `false` and the handle
contents (head, tail, length, every node) are exactly as before the call; more generally
every push that returns `false` leaves them so. -/
theorem push_failure_atomic (env : Env) (s : Mem) (d : Buf) :
    ((malloc (fun a => (s.heap a).isSome) (node_size s.q) env.malloc = none ∨
        (q_threadsafe s.q = true ∧ env.mutex_lock ≠ 0)) →
      fifoq_push env (some s) (some d) = (false, some s)) ∧
    ((fifoq_push env (some s) (some d)).1 = false →
      (fifoq_push env (some s) (some d)).2 = some s) := by
  have key : ∀ a, malloc (fun a => (s.heap a).isSome) (node_size s.q) env.malloc = some a →
      (q_threadsafe s.q = true ∧ env.mutex_lock ≠ 0) →
      fifoq_push env (some s) (some d) = (false, some s) := by
    intro a hm hl
    have hfree : s.heap a = none := by
      have := (malloc_some hm).2.2.2.2
      cases hq : s.heap a with
      | none => rfl
      | some n => simp [hq] at this
    simp only [fifoq_push, hm, hl.1, if_true, lock_fst, ne_eq, hl.2, not_false_eq_true,
      update_update_none _ _ _ hfree]
  constructor
  · intro hfail
    cases hm : malloc (fun a => (s.heap a).isSome) (node_size s.q) env.malloc with
    | none => simp only [fifoq_push, hm]
    | some a =>
      rcases hfail with h | h
      · rw [hm] at h; cases h
      · exact key a hm h
  · intro hf
    cases hm : malloc (fun a => (s.heap a).isSome) (node_size s.q) env.malloc with
    | none => simp only [fifoq_push, hm]
    | some a =>
      by_cases hl : q_threadsafe s.q = true ∧ env.mutex_lock ≠ 0
      · rw [key a hm hl]
      · exfalso
        have hlock : ¬((if q_threadsafe s.q = true then pthread_mutex_lock env s.q.ts_impl
            else (0, s.q.ts_impl)).1 ≠ 0) := by
          by_cases hts : q_threadsafe s.q = true
          · simp only [hts, if_true, lock_fst]
            intro h; exact hl ⟨hts, h⟩
          · simp [hts]
        simp only [fifoq_push, hm, if_neg hlock] at hf
        cases hf

theorem push_failure_atomic_witness :
    ((malloc (fun a => ((one_node 1).heap a).isSome) (node_size (one_node 1).q)
          (env_lock_fails 64).malloc = none ∨
        (q_threadsafe (one_node 1).q = true ∧ (env_lock_fails 64).mutex_lock ≠ 0)) →
      fifoq_push (env_lock_fails 64) (some (one_node 1)) (some (byte_buf 50))
        = (false, some (one_node 1))) ∧
    ((fifoq_push (env_lock_fails 64) (some (one_node 1)) (some (byte_buf 50))).1 = false →
      (fifoq_push (env_lock_fails 64) (some (one_node 1)) (some (byte_buf 50))).2
        = some (one_node 1)) ∧
    (q_threadsafe (one_node 1).q = true ∧ (env_lock_fails 64).mutex_lock ≠ 0) ∧
    (fifoq_push (env_lock_fails 64) (some (one_node 1)) (some (byte_buf 50))).1 = false :=
  ⟨(push_failure_atomic (env_lock_fails 64) (one_node 1) (byte_buf 50)).1,
   (push_failure_atomic (env_lock_fails 64) (one_node 1) (byte_buf 50)).2,
   by decide, by decide⟩

/-- C11 (value-copy mode).  On a well-formed queue without the link flag, a push that
returns `true` stores in the new node exactly the first `dsize` bytes found at the data
pointer (buffers that agree on these bytes are pushed alike); whatever calls are made
afterwards and whatever buffers they are given (the changed source buffer included), once
the nodes ahead have been popped `fifoq_front` overwrites the first `dsize` bytes of the
output buffer with those bytes, and so does `fifoq_rear` as long as no later push
succeeded. -/
theorem value_copy (env : Env) (s : Mem) (d : Buf) (l : List (Nat × Buf))
    (calls : List Call) (hr : Rep s l) (hcopy : q_linkdata s.q = false)
    (hok : (fifoq_push env (some s) (some d)).1 = true)
    (hw : q_threadsafe s.q = false ∨ ∀ c ∈ calls, c.env.wakes = []) :
    (∀ e, e.bytes s.q.dsize = d.bytes s.q.dsize →
      fifoq_push env (some s) (some e) = fifoq_push env (some s) (some d)) ∧
    ∃ a s1 t, (fifoq_push env (some s) (some d)).2 = some s1 ∧
      node_data s1.heap a = memcpy Buf.zero d s.q.dsize ∧ s1.q.rear = some a ∧
      run calls (some s1) = some t ∧
      (successes Call.isPop calls (some s1) = l.length →
        ∀ e out, (q_threadsafe s.q = false ∨ e.mutex_lock = 0) →
          ∃ t1, fifoq_front e (some t) (some out)
            = .ret (true, some (memcpy out d s.q.dsize)) (some t1)) ∧
      (successes Call.isPush calls (some s1) = 0 →
        successes Call.isPop calls (some s1) ≤ l.length →
        ∀ e out, (q_threadsafe s.q = false ∨ e.mutex_lock = 0) →
          ∃ t1, fifoq_rear e (some t) (some out)
            = (true, some (memcpy out d s.q.dsize), some t1)) := by
  have hwd : width s.q = s.q.dsize := by simp [width, hcopy]
  refine ⟨?_, ?_⟩
  · intro e he
    exact push_congr env s d e (by rw [hwd]; exact he)
  · have h := element_roundtrip env s d l calls hr hok hw
    rw [hwd] at h
    exact h

theorem value_copy_witness :
    (∀ e, e.bytes (one_node 0).q.dsize = (byte_buf 50).bytes (one_node 0).q.dsize →
      fifoq_push (env_ok 64) (some (one_node 0)) (some e)
        = fifoq_push (env_ok 64) (some (one_node 0)) (some (byte_buf 50))) ∧
    ∃ a s1 t, (fifoq_push (env_ok 64) (some (one_node 0)) (some (byte_buf 50))).2 = some s1 ∧
      node_data s1.heap a = memcpy Buf.zero (byte_buf 50) (one_node 0).q.dsize ∧
      s1.q.rear = some a ∧
      run [.pop (env_ok 0)] (some s1) = some t ∧
      (successes Call.isPop [.pop (env_ok 0)] (some s1) = [(32, byte_buf 100)].length →
        ∀ e out, (q_threadsafe (one_node 0).q = false ∨ e.mutex_lock = 0) →
          ∃ t1, fifoq_front e (some t) (some out)
            = .ret (true, some (memcpy out (byte_buf 50) (one_node 0).q.dsize)) (some t1)) ∧
      (successes Call.isPush [.pop (env_ok 0)] (some s1) = 0 →
        successes Call.isPop [.pop (env_ok 0)] (some s1) ≤ [(32, byte_buf 100)].length →
        ∀ e out, (q_threadsafe (one_node 0).q = false ∨ e.mutex_lock = 0) →
          ∃ t1, fifoq_rear e (some t) (some out)
            = (true, some (memcpy out (byte_buf 50) (one_node 0).q.dsize), some t1)) :=
  value_copy (env_ok 64) (one_node 0) (byte_buf 50) [(32, byte_buf 100)] [.pop (env_ok 0)]
    (one_node_rep 0) (by decide) (by decide) (Or.inl (by decide))

/-- C12 (link mode).  On a well-formed queue with the link flag, whatever its `dsize`, a
push that returns `true` stores in the new node exactly the `sizeof(void *)` bytes found at
the data pointer, the handle, and nothing of what the handle points to (buffers holding
the same handle are pushed alike); `fifoq_front` and `fifoq_rear`, when they reach the
node, overwrite the first `sizeof(void *)` bytes of the output buffer with that handle, so
the pointer read back is the pointer pushed and reading caller memory through it gives
whatever that memory holds then. -/
theorem link_mode_handle (env : Env) (s : Mem) (d : Buf) (l : List (Nat × Buf))
    (calls : List Call) (hr : Rep s l) (hlink : q_linkdata s.q = true)
    (hok : (fifoq_push env (some s) (some d)).1 = true)
    (hw : q_threadsafe s.q = false ∨ ∀ c ∈ calls, c.env.wakes = []) :
    (∀ e, e.bytes sizeof_ptr = d.bytes sizeof_ptr →
      fifoq_push env (some s) (some e) = fifoq_push env (some s) (some d)) ∧
    ∃ a s1 t, (fifoq_push env (some s) (some d)).2 = some s1 ∧
      node_data s1.heap a = memcpy Buf.zero d sizeof_ptr ∧ s1.q.rear = some a ∧
      run calls (some s1) = some t ∧
      (successes Call.isPop calls (some s1) = l.length →
        ∀ e out, (q_threadsafe s.q = false ∨ e.mutex_lock = 0) →
          ∃ t1, fifoq_front e (some t) (some out)
              = .ret (true, some (memcpy out d sizeof_ptr)) (some t1) ∧
            load_ptr (memcpy out d sizeof_ptr) = load_ptr d ∧
            ∀ cells : Nat → Nat,
              cells (load_ptr (memcpy out d sizeof_ptr)) = cells (load_ptr d)) ∧
      (successes Call.isPush calls (some s1) = 0 →
        successes Call.isPop calls (some s1) ≤ l.length →
        ∀ e out, (q_threadsafe s.q = false ∨ e.mutex_lock = 0) →
          ∃ t1, fifoq_rear e (some t) (some out)
              = (true, some (memcpy out d sizeof_ptr), some t1) ∧
            load_ptr (memcpy out d sizeof_ptr) = load_ptr d) := by
  have hwd : width s.q = sizeof_ptr := by simp [width, hlink]
  refine ⟨?_, ?_⟩
  · intro e he
    exact push_congr env s d e (by rw [hwd]; exact he)
  · have h := element_roundtrip env s d l calls hr hok hw
    rw [hwd] at h
    obtain ⟨a, s1, t, h1, h2, h3, h4, h5, h6⟩ := h
    refine ⟨a, s1, t, h1, h2, h3, h4, ?_, ?_⟩
    · intro hk e out hok2
      obtain ⟨t1, ht1⟩ := h5 hk e out hok2
      exact ⟨t1, ht1, load_ptr_memcpy out d, fun cells => by rw [load_ptr_memcpy]⟩
    · intro hp hk e out hok2
      obtain ⟨t1, ht1⟩ := h6 hp hk e out hok2
      exact ⟨t1, ht1, load_ptr_memcpy out d⟩

theorem link_mode_handle_witness :
    (∀ e, e.bytes sizeof_ptr = (byte_buf 200).bytes sizeof_ptr →
      fifoq_push (env_ok 64) (some (fresh_mem 4 2)) (some e)
        = fifoq_push (env_ok 64) (some (fresh_mem 4 2)) (some (byte_buf 200))) ∧
    ∃ a s1 t,
      (fifoq_push (env_ok 64) (some (fresh_mem 4 2)) (some (byte_buf 200))).2 = some s1 ∧
      node_data s1.heap a = memcpy Buf.zero (byte_buf 200) sizeof_ptr ∧ s1.q.rear = some a ∧
      run [] (some s1) = some t ∧
      (successes Call.isPop [] (some s1) = ([] : List (Nat × Buf)).length →
        ∀ e out, (q_threadsafe (fresh_mem 4 2).q = false ∨ e.mutex_lock = 0) →
          ∃ t1, fifoq_front e (some t) (some out)
              = .ret (true, some (memcpy out (byte_buf 200) sizeof_ptr)) (some t1) ∧
            load_ptr (memcpy out (byte_buf 200) sizeof_ptr) = load_ptr (byte_buf 200) ∧
            ∀ cells : Nat → Nat,
              cells (load_ptr (memcpy out (byte_buf 200) sizeof_ptr))
                = cells (load_ptr (byte_buf 200))) ∧
      (successes Call.isPush [] (some s1) = 0 →
        successes Call.isPop [] (some s1) ≤ ([] : List (Nat × Buf)).length →
        ∀ e out, (q_threadsafe (fresh_mem 4 2).q = false ∨ e.mutex_lock = 0) →
          ∃ t1, fifoq_rear e (some t) (some out)
              = (true, some (memcpy out (byte_buf 200) sizeof_ptr), some t1) ∧
            load_ptr (memcpy out (byte_buf 200) sizeof_ptr) = load_ptr (byte_buf 200)) :=
  link_mode_handle (env_ok 64) (fresh_mem 4 2) (byte_buf 200) [] [] (fresh_rep 4 2)
    (by decide) (by decide) (Or.inl (by decide))

/-- C13 (rear never waits).  On a well-formed empty thread-safe queue, with non-null
arguments and a lock that is acquired, `fifoq_rear` returns `false`; the output buffer is
as it was, head, tail, length and nodes are as they were, the mutex is released on return,
and the call waits on the condition nowhere. -/
theorem rear_never_blocks (env : Env) (s : Mem) (d : Buf) (hr : Rep s [])
    (hts : q_threadsafe s.q = true) (hlock : env.mutex_lock = 0) :
    ∃ s1, fifoq_rear env (some s) (some d) = (false, some d, some s1) ∧ SameQueue s1 s ∧
      (∀ t, s1.q.ts_impl = some t → t.mtx = false) ∧
      held_after false (trace_rear env (some s) (some d)) = false ∧
      Ev.wait ∉ trace_rear env (some s) (some d) ∧
      Ev.sleep ∉ trace_rear env (some s) (some d) := by
  have htr := trace_rear_ok env s (some d) hts
  have hrear : s.q.rear = none := hr.rear
  refine ⟨⟨{ s.q with ts_impl :=
      pthread_mutex_unlock (pthread_mutex_lock env s.q.ts_impl).2 }, s.heap⟩, ?_,
    ⟨rfl, rfl, rfl, rfl, rfl, rfl⟩, ?_, htr.2.1, htr.2.2.1, htr.2.2.2⟩
  · simp only [fifoq_rear, hts, if_true, lock_fst, hlock, ne_eq, not_true_eq_false,
      if_false, hrear]
  · intro t ht
    simp only [pthread_mutex_unlock, pthread_mutex_lock, hlock, if_true] at ht
    cases hq : s.q.ts_impl with
    | none => rw [hq] at ht; cases ht
    | some t0 =>
      rw [hq] at ht
      simp only [Option.map_some', Option.some.injEq] at ht
      rw [← ht]

theorem rear_never_blocks_witness :
    ∃ s1, fifoq_rear (env_ok 0) (some (fresh_mem 1 1)) (some (byte_buf 9))
        = (false, some (byte_buf 9), some s1) ∧ SameQueue s1 (fresh_mem 1 1) ∧
      (∀ t, s1.q.ts_impl = some t → t.mtx = false) ∧
      held_after false (trace_rear (env_ok 0) (some (fresh_mem 1 1)) (some (byte_buf 9)))
        = false ∧
      Ev.wait ∉ trace_rear (env_ok 0) (some (fresh_mem 1 1)) (some (byte_buf 9)) ∧
      Ev.sleep ∉ trace_rear (env_ok 0) (some (fresh_mem 1 1)) (some (byte_buf 9)) :=
  rear_never_blocks (env_ok 0) (fresh_mem 1 1) (byte_buf 9) (fresh_rep 1 1) (by decide) rfl

/-- C14 (pop and front wait).  On a thread-safe queue with no node, once the lock is
acquired, `fifoq_pop` and `fifoq_front` (non-null output buffer) do not return `false`;
they wait on the condition and look at the head again after each wake-up: if every
wake-up finds the head empty they wait forever, and if `w` is the first wake-up that finds
a head they have waited once per wake-up up to `w`, then go on exactly as on `w` with the
mutex held, and return `true`. -/
theorem pop_front_wait (env : Env) (s : Mem) (d : Buf) (hts : q_threadsafe s.q = true)
    (hlock : env.mutex_lock = 0) (hempty : s.q.front = none) :
    (∀ q1, fifoq_pop env (some s) ≠ .ret false q1) ∧
    (∀ o q1, fifoq_front env (some s) (some d) ≠ .ret (false, o) q1) ∧
    ((∀ w ∈ env.wakes, w.q.front = none) →
      (∃ s1, fifoq_pop env (some s) = .blocked (some s1)) ∧
      (∃ s1, fifoq_front env (some s) (some d) = .blocked (some s1))) ∧
    (∀ ws1 w ws2, env.wakes = ws1 ++ w :: ws2 → (∀ v ∈ ws1, v.q.front = none) →
      w.q.front ≠ none →
      fifoq_pop env (some s)
        = .ret true (some (_fifoq_pop_head (woken w) true true none).2.2) ∧
      fifoq_front env (some s) (some d)
        = .ret (true, (_fifoq_pop_head (woken w) true false (some d)).2.1)
            (some (_fifoq_pop_head (woken w) true false (some d)).2.2) ∧
      (trace_pop env (some s) true).count Ev.wait = ws1.length + 1 ∧
      (trace_front env (some s) (some d)).count Ev.wait = ws1.length + 1) := by
  have hL : (⟨{ s.q with ts_impl := (pthread_mutex_lock env s.q.ts_impl).2 }, s.heap⟩
      : Mem).q.front = none := hempty
  refine ⟨pop_not_false env s hts hlock, ?_, ?_, ?_⟩
  · intro o q1 h
    rcases pop_ts_result env s false (some d) hts hlock with ⟨sB, hb⟩ | ⟨n, o1, s1, hr⟩
    · simp only [fifoq_front, hb] at h
      cases h
    · simp only [fifoq_front, hr] at h
      cases h
  · intro hall
    have hc := cond_wait_loop_all_empty env.wakes _ hL hall
    constructor
    · refine ⟨(cond_wait_loop
        ⟨{ s.q with ts_impl := (pthread_mutex_lock env s.q.ts_impl).2 }, s.heap⟩
        env.wakes).2, ?_⟩
      simp only [fifoq_pop, pop_ts_eq env s true none hts hlock, hc, Bool.false_eq_true,
        if_false]
    · refine ⟨(cond_wait_loop
        ⟨{ s.q with ts_impl := (pthread_mutex_lock env s.q.ts_impl).2 }, s.heap⟩
        env.wakes).2, ?_⟩
      simp only [fifoq_front, pop_ts_eq env s false (some d) hts hlock, hc,
        Bool.false_eq_true, if_false]
  · intro ws1 w ws2 hwk hall hw
    have hc := cond_wait_loop_first w ws2 hw ws1 _ hL hall
    have hcount := trace_wait_count w ws2 hw ws1 _ hL hall
    have hwf : (woken w).q.front ≠ none := hw
    rw [← hwk] at hc hcount
    have hp1 := pop_head_fst (woken w) true true none hwf
    have hp2 := pop_head_fst (woken w) true false (some d) hwf
    have htr : ∀ p, (trace_pop env (some s) p).count Ev.wait = ws1.length + 1 := by
      intro p
      simp only [trace_pop, hts, if_true, trace_lock, hlock, ne_eq, not_true_eq_false,
        if_false, hc, List.count_append, hcount.1, trace_head_no_wait]
      have h1 : List.count Ev.wait [Ev.rd Field.opts] = 0 := by decide
      have h2 : List.count Ev.wait [Ev.rd Field.ts_impl, Ev.lock_ok] = 0 := by decide
      have h3 : List.count Ev.wait [Ev.rd Field.ts_impl, Ev.unlock] = 0 := by decide
      omega
    refine ⟨?_, ?_, htr true, htr false⟩
    · simp only [fifoq_pop, pop_ts_eq env s true none hts hlock, hc, if_true, hp1]
    · simp only [fifoq_front, pop_ts_eq env s false (some d) hts hlock, hc, if_true, hp2]

theorem pop_front_wait_witness :
    (∀ q1, fifoq_pop { env_ok 0 with wakes := [fresh_mem 1 1, one_node 1] }
        (some (fresh_mem 1 1)) ≠ .ret false q1) ∧
    (∀ o q1, fifoq_front { env_ok 0 with wakes := [fresh_mem 1 1, one_node 1] }
        (some (fresh_mem 1 1)) (some Buf.zero) ≠ .ret (false, o) q1) ∧
    ((∀ w ∈ ({ env_ok 0 with wakes := [fresh_mem 1 1, one_node 1] } : Env).wakes,
        w.q.front = none) →
      (∃ s1, fifoq_pop { env_ok 0 with wakes := [fresh_mem 1 1, one_node 1] }
        (some (fresh_mem 1 1)) = .blocked (some s1)) ∧
      (∃ s1, fifoq_front { env_ok 0 with wakes := [fresh_mem 1 1, one_node 1] }
        (some (fresh_mem 1 1)) (some Buf.zero) = .blocked (some s1))) ∧
    (∀ ws1 w ws2,
      ({ env_ok 0 with wakes := [fresh_mem 1 1, one_node 1] } : Env).wakes
        = ws1 ++ w :: ws2 →
      (∀ v ∈ ws1, v.q.front = none) → w.q.front ≠ none →
      fifoq_pop { env_ok 0 with wakes := [fresh_mem 1 1, one_node 1] } (some (fresh_mem 1 1))
        = .ret true (some (_fifoq_pop_head (woken w) true true none).2.2) ∧
      fifoq_front { env_ok 0 with wakes := [fresh_mem 1 1, one_node 1] }
          (some (fresh_mem 1 1)) (some Buf.zero)
        = .ret (true, (_fifoq_pop_head (woken w) true false (some Buf.zero)).2.1)
            (some (_fifoq_pop_head (woken w) true false (some Buf.zero)).2.2) ∧
      (trace_pop { env_ok 0 with wakes := [fresh_mem 1 1, one_node 1] }
        (some (fresh_mem 1 1)) true).count Ev.wait = ws1.length + 1 ∧
      (trace_front { env_ok 0 with wakes := [fresh_mem 1 1, one_node 1] }
        (some (fresh_mem 1 1)) (some Buf.zero)).count Ev.wait = ws1.length + 1) :=
  pop_front_wait { env_ok 0 with wakes := [fresh_mem 1 1, one_node 1] } (fresh_mem 1 1)
    Buf.zero (by decide) rfl rfl

/-- C15 (hand-off).  On a well-formed empty thread-safe queue, with locks that are
acquired: a consumer calling `fifoq_pop` when nothing wakes it waits; a producer's
`fifoq_push` that returns `true` then links the element as the only node and signals the
condition exactly once, between taking and releasing the lock; the consumer, woken by that
signal in the state the producer left, returns `true` having removed that node, releases
the mutex, and leaves a queue that holds no node, so that no later call can read the
element. -/
theorem producer_consumer_handoff (cenv penv : Env) (s : Mem) (x : Buf) (hr : Rep s [])
    (hts : q_threadsafe s.q = true) (hti : s.q.ts_impl ≠ none)
    (hcl : cenv.mutex_lock = 0) (hpl : penv.mutex_lock = 0)
    (hpush : (fifoq_push penv (fifoq_pop { cenv with wakes := [] } (some s)).state
      (some x)).1 = true) :
    ∃ sB a sP sF,
      fifoq_pop { cenv with wakes := [] } (some s) = .blocked (some sB) ∧
      fifoq_push penv (some sB) (some x) = (true, some sP) ∧
      Rep sP [(a, memcpy Buf.zero x (width s.q))] ∧
      cnd_count (some sP) = cnd_count (some sB) + 1 ∧
      trace_push penv (some sB) (some x)
        = [.rd .opts, .rd .dsize, .rd .opts, .rd .ts_impl, .lock_ok,
           .rd .front, .wr .front, .wr .rear, .rd .num_nodes, .wr .num_nodes,
           .rd .ts_impl, .signal, .rd .ts_impl, .unlock] ∧
      handoff_wakes (some sB) (some sP) = [sP] ∧
      fifoq_pop { cenv with wakes := handoff_wakes (some sB) (some sP) } (some s)
        = .ret true (some sF) ∧
      Rep sF [] ∧ (∀ b, sF.heap b = none) ∧ (∀ t, sF.q.ts_impl = some t → t.mtx = false) := by
  have hf : s.q.front = none := hr.front_none_iff.mpr rfl
  obtain ⟨t0, ht0⟩ : ∃ t0, s.q.ts_impl = some t0 := by
    cases hq : s.q.ts_impl with
    | none => exact absurd hq hti
    | some t0 => exact ⟨t0, rfl⟩
  -- the consumer waits
  obtain ⟨sB, hsB⟩ : ∃ sB : Mem, sB = ⟨{ s.q with
      ts_impl := pthread_mutex_unlock (pthread_mutex_lock cenv s.q.ts_impl).2 }, s.heap⟩ :=
    ⟨_, rfl⟩
  have hc0 : fifoq_pop { cenv with wakes := [] } (some s) = .blocked (some sB) := by
    have hl : cond_wait_loop
        ⟨{ s.q with ts_impl :=
            (pthread_mutex_lock { cenv with wakes := [] } s.q.ts_impl).2 }, s.heap⟩
        ({ cenv with wakes := [] } : Env).wakes = (false, sB) := by
      rw [hsB]
      exact if_pos hf
    simp only [fifoq_pop, pop_ts_eq { cenv with wakes := [] } s true none hts hcl, hl,
      Bool.false_eq_true, if_false]
  rw [hc0] at hpush
  simp only [Outcome.state] at hpush
  have hrB : Rep sB [] := by rw [hsB]; exact Rep.congr hr rfl rfl rfl rfl
  have htsB : q_threadsafe sB.q = true := by rw [hsB]; exact hts
  have hfB : sB.q.front = none := by rw [hsB]; exact hf
  have hwB : width sB.q = width s.q := by rw [hsB]; rfl
  have htiB : sB.q.ts_impl = some { t0 with mtx := false } := by
    rw [hsB]
    simp [pthread_mutex_unlock, pthread_mutex_lock, hcl, ht0]
  -- the producer pushes
  rcases push_rep penv sB x [] hrB with h | ⟨a, sP, hp1, _, _, hp2, hp3, hp4, _, hp5⟩
  · rw [h] at hpush; cases hpush
  · rw [hwB] at hp2
    have hfP : sP.q.front ≠ none := by
      rw [Ne, hp2.front_none_iff]; simp
    have hcnd : cnd_count (some sP) = cnd_count (some sB) + 1 := by
      simp only [cnd_count, hp5, htiB]
      simp [htsB, pthread_mutex_unlock, pthread_cond_signal, pthread_mutex_lock, hpl]
    have hwakes : handoff_wakes (some sB) (some sP) = [sP] := by
      simp only [handoff_wakes, hcnd]
      simp
    -- the consumer is woken in the state the producer left
    have hloop := cond_wait_loop_first sP [] hfP []
      ⟨{ s.q with ts_impl := (pthread_mutex_lock cenv s.q.ts_impl).2 }, s.heap⟩ hf
      (by intro v hv; cases hv)
    have hrW : Rep (woken sP) [(a, memcpy Buf.zero x (width s.q))] :=
      Rep.congr hp2 rfl rfl rfl rfl
    obtain ⟨sF, hh1, hh2, _, _, _, _, hh3⟩ := pop_head_rep (woken sP) true none _ [] hrW
    have hpopC : fifoq_pop { cenv with wakes := [sP] } (some s) = .ret true (some sF) := by
      simp only [List.nil_append] at hloop
      have hloop2 : cond_wait_loop
          ⟨{ s.q with ts_impl :=
              (pthread_mutex_lock { cenv with wakes := [sP] } s.q.ts_impl).2 }, s.heap⟩
          ({ cenv with wakes := [sP] } : Env).wakes = (true, woken sP) := hloop
      simp only [fifoq_pop, pop_ts_eq { cenv with wakes := [sP] } s true none hts hcl,
        hloop2, if_true, hh1]
      rfl
    refine ⟨sB, a, sP, sF, hc0, ?_, hp2, hcnd, ?_, hwakes, ?_, hh2, ?_, ?_⟩
    · rw [hp1]
    · cases hm : malloc (fun b => (sB.heap b).isSome) (node_size sB.q) penv.malloc with
      | none =>
        simp only [fifoq_push, hm] at hp1
        cases hp1
      | some b =>
        simp only [trace_push, hm, htsB, if_true, trace_lock, hpl, ne_eq, not_true_eq_false,
          if_false, hfB]
        rfl
    · rw [hwakes]; exact hpopC
    · intro b
      cases hb : sF.heap b with
      | none => rfl
      | some n =>
        have := hh2.owned b (by rw [hb]; rfl)
        simp at this
    · intro t ht
      rw [hh3] at ht
      simp only [if_true, pthread_mutex_unlock] at ht
      cases hq : (woken sP).q.ts_impl with
      | none => rw [hq] at ht; cases ht
      | some t1 =>
        rw [hq] at ht
        simp only [Option.map_some', Option.some.injEq] at ht
        rw [← ht]

theorem producer_consumer_handoff_witness :
    ∃ sB a sP sF,
      fifoq_pop { env_ok 0 with wakes := [] } (some (fresh_mem 1 1)) = .blocked (some sB) ∧
      fifoq_push (env_ok 32) (some sB) (some (byte_buf 7)) = (true, some sP) ∧
      Rep sP [(a, memcpy Buf.zero (byte_buf 7) (width (fresh_mem 1 1).q))] ∧
      cnd_count (some sP) = cnd_count (some sB) + 1 ∧
      trace_push (env_ok 32) (some sB) (some (byte_buf 7))
        = [.rd .opts, .rd .dsize, .rd .opts, .rd .ts_impl, .lock_ok,
           .rd .front, .wr .front, .wr .rear, .rd .num_nodes, .wr .num_nodes,
           .rd .ts_impl, .signal, .rd .ts_impl, .unlock] ∧
      handoff_wakes (some sB) (some sP) = [sP] ∧
      fifoq_pop { env_ok 0 with wakes := handoff_wakes (some sB) (some sP) }
          (some (fresh_mem 1 1))
        = .ret true (some sF) ∧
      Rep sF [] ∧ (∀ b, sF.heap b = none) ∧ (∀ t, sF.q.ts_impl = some t → t.mtx = false) :=
  producer_consumer_handoff (env_ok 0) (env_ok 32) (fresh_mem 1 1) (byte_buf 7)
    (fresh_rep 1 1) (by decide) (by decide) rfl rfl (by decide)

/-- C17 (self-test).  When the creation and the three pushes of `fifoq_test` succeed
(a fresh non-threadsafe value-copy queue; elements of ages 100, 50 and 30), the scenario
runs as the test expects: front gives the 100 element, rear the 30 element, pop succeeds,
front gives the 50 element, pop succeeds, front gives the 30 element, count is 1, pop
succeeds, a further pop fails; so `fifoq_test` returns `true`. -/
theorem fifoq_test_passes (ienv e1 e2 e3 e : Env) (junk : Buf) (s0 : Mem)
    (hinit : _fifoq_init ienv sizeof_fifoqt 0 = some s0)
    (hpush : (push_all
      [(e1, store_fifoqt ⟨str_max, 100⟩), (e2, store_fifoqt ⟨str_mustermann, 50⟩),
       (e3, store_fifoqt ⟨str_hans, 30⟩)] (some s0)).1 = true) :
    fifoq_test ienv e1 e2 e3 e junk = true := by
  obtain ⟨hr0, ho0, hd0, _⟩ := init_rep ienv sizeof_fifoqt 0 s0 hinit
  have hts0 : q_threadsafe s0.q = false := by simp [q_threadsafe, ho0]
  have hw0 : width s0.q = 16 := by simp [width, q_linkdata, ho0, hd0, sizeof_fifoqt]
  simp only [push_all, Bool.and_eq_true] at hpush
  obtain ⟨h1, h2, h3, _⟩ := hpush
  -- the three pushes
  rcases push_rep e1 s0 (store_fifoqt ⟨str_max, 100⟩) [] hr0 with h | ⟨a1, s1, hp1, _, _,
    hr1, ho1, hd1, _, _⟩
  · rw [h] at h1; cases h1
  rw [hp1] at h2 h3
  have hw1 : width s1.q = 16 := by rw [width_congr ho1 hd1, hw0]
  rcases push_rep e2 s1 (store_fifoqt ⟨str_mustermann, 50⟩) _ hr1 with h | ⟨a2, s2, hp2, _,
    _, hr2, ho2, hd2, _, _⟩
  · rw [h] at h2; cases h2
  rw [hp2] at h3
  have hw2 : width s2.q = 16 := by rw [width_congr ho2 hd2, hw1]
  rcases push_rep e3 s2 (store_fifoqt ⟨str_hans, 30⟩) _ hr2 with h | ⟨a3, s3, hp3, _, _,
    hr3, ho3, hd3, _, _⟩
  · rw [h] at h3; cases h3
  have hw3 : width s3.q = 16 := by rw [width_congr ho3 hd3, hw2]
  have hts3 : q_threadsafe s3.q = false := by
    rw [q_threadsafe_congr ho3, q_threadsafe_congr ho2, q_threadsafe_congr ho1]; exact hts0
  rw [hw0, hw1, hw2] at hr3
  simp only [List.nil_append, List.singleton_append, List.cons_append] at hr3
  -- front, rear, pop
  have hf1 : fifoq_front e (some s3) (some junk)
      = .ret (true, some (memcpy junk (memcpy Buf.zero (store_fifoqt ⟨str_max, 100⟩) 16) 16))
          (some s3) := by
    rcases front_rep e s3 _ junk hr3 (Or.inl hts3) with ⟨_, h | h⟩ | ⟨_, _, _, h, _⟩ |
      ⟨x, xs, t, hx, hf, _, ht, _⟩
    · exact absurd h.2 (by simp)
    · rw [hts3] at h; exact absurd h.1 (by simp)
    · rw [hts3] at h; cases h
    · cases hx
      rw [hf, ht hts3, hw3]
  have hre1 : fifoq_rear e (some s3) (some junk)
      = (true, some (memcpy junk (memcpy Buf.zero (store_fifoqt ⟨str_hans, 30⟩) 16) 16),
          some s3) := by
    rcases rear_rep e s3 _ junk hr3 with ⟨_, h, _⟩ | ⟨_, _, h, _⟩ | ⟨x, t, hx, hf, _, ht, _⟩
    · rw [hts3] at h; cases h
    · cases h
    · simp only [List.getLast?_cons_cons, List.getLast?_singleton, Option.some.injEq] at hx
      subst hx
      rw [hf, ht hts3, hw3]
  obtain ⟨s4, hpo1, hr4, ho4, hd4⟩ : ∃ s4, fifoq_pop e (some s3) = .ret true (some s4) ∧
      Rep s4 [(a2, memcpy Buf.zero (store_fifoqt ⟨str_mustermann, 50⟩) 16),
        (a3, memcpy Buf.zero (store_fifoqt ⟨str_hans, 30⟩) 16)] ∧
      s4.q.opts = s3.q.opts ∧ s4.q.dsize = s3.q.dsize := by
    rcases pop_rep e s3 _ hr3 (Or.inl hts3) with ⟨_, h | h⟩ | ⟨_, _, _, _, _, h, _⟩ |
      ⟨x, xs, t, hx, hf, hrt, hot, hdt, _⟩
    · exact absurd h.2 (by simp)
    · rw [hts3] at h; exact absurd h.1 (by simp)
    · rw [hts3] at h; cases h
    · cases hx
      exact ⟨t, hf, hrt, hot, hdt⟩
  have hts4 : q_threadsafe s4.q = false := by rw [q_threadsafe_congr ho4]; exact hts3
  have hw4 : width s4.q = 16 := by rw [width_congr ho4 hd4, hw3]
  have hf2 : fifoq_front e (some s4) (some junk)
      = .ret (true, some (memcpy junk
          (memcpy Buf.zero (store_fifoqt ⟨str_mustermann, 50⟩) 16) 16)) (some s4) := by
    rcases front_rep e s4 _ junk hr4 (Or.inl hts4) with ⟨_, h | h⟩ | ⟨_, _, _, h, _⟩ |
      ⟨x, xs, t, hx, hf, _, ht, _⟩
    · exact absurd h.2 (by simp)
    · rw [hts4] at h; exact absurd h.1 (by simp)
    · rw [hts4] at h; cases h
    · cases hx
      rw [hf, ht hts4, hw4]
  obtain ⟨s5, hpo2, hr5, ho5, hd5⟩ : ∃ s5, fifoq_pop e (some s4) = .ret true (some s5) ∧
      Rep s5 [(a3, memcpy Buf.zero (store_fifoqt ⟨str_hans, 30⟩) 16)] ∧
      s5.q.opts = s4.q.opts ∧ s5.q.dsize = s4.q.dsize := by
    rcases pop_rep e s4 _ hr4 (Or.inl hts4) with ⟨_, h | h⟩ | ⟨_, _, _, _, _, h, _⟩ |
      ⟨x, xs, t, hx, hf, hrt, hot, hdt, _⟩
    · exact absurd h.2 (by simp)
    · rw [hts4] at h; exact absurd h.1 (by simp)
    · rw [hts4] at h; cases h
    · cases hx
      exact ⟨t, hf, hrt, hot, hdt⟩
  have hts5 : q_threadsafe s5.q = false := by rw [q_threadsafe_congr ho5]; exact hts4
  have hw5 : width s5.q = 16 := by rw [width_congr ho5 hd5, hw4]
  have hf3 : ∀ buf, fifoq_front e (some s5) (some buf)
      = .ret (true, some (memcpy buf (memcpy Buf.zero (store_fifoqt ⟨str_hans, 30⟩) 16) 16))
          (some s5) := by
    intro buf
    rcases front_rep e s5 _ buf hr5 (Or.inl hts5) with ⟨_, h | h⟩ | ⟨_, _, _, h, _⟩ |
      ⟨x, xs, t, hx, hf, _, ht, _⟩
    · exact absurd h.2 (by simp)
    · rw [hts5] at h; exact absurd h.1 (by simp)
    · rw [hts5] at h; cases h
    · cases hx
      rw [hf, ht hts5, hw5]
  have hc : fifoq_count e (some s5) = (1, some s5) := by
    have hn : s5.q.num_nodes = 1 := hr5.count
    have h : fifoq_count e (some s5) = (s5.q.num_nodes, some s5) := by
      simp only [fifoq_count, hts5, Bool.false_eq_true, if_false, ne_eq, not_true_eq_false]
    rw [h, hn]
  obtain ⟨s6, hpo3, hr6, ho6⟩ : ∃ s6, fifoq_pop e (some s5) = .ret true (some s6) ∧
      Rep s6 [] ∧ s6.q.opts = s5.q.opts := by
    rcases pop_rep e s5 _ hr5 (Or.inl hts5) with ⟨_, h | h⟩ | ⟨_, _, _, _, _, h, _⟩ |
      ⟨x, xs, t, hx, hf, hrt, hot, _⟩
    · exact absurd h.2 (by simp)
    · rw [hts5] at h; exact absurd h.1 (by simp)
    · rw [hts5] at h; cases h
    · cases hx
      exact ⟨t, hf, hrt, hot⟩
  have hts6 : q_threadsafe s6.q = false := by rw [q_threadsafe_congr ho6]; exact hts5
  have hpo4 : fifoq_pop e (some s6) = .ret false (some s6) := by
    rcases pop_rep e s6 _ hr6 (Or.inl hts6) with ⟨h, _⟩ | ⟨_, _, _, _, _, h, _⟩ |
      ⟨_, _, _, h, _⟩
    · exact h
    · rw [hts6] at h; cases h
    · cases h
  simp only [fifoq_test, hinit, hp1, hp2, hp3, Bool.true_eq_false, if_false]
  simp only [hf1, front_ok, front_buf, Outcome.state, Option.getD_some, Bool.true_eq_false,
    if_false]
  simp only [hre1, Option.getD_some, Bool.true_eq_false, if_false]
  simp only [hpo1, Outcome.val?, Outcome.state, ne_eq, not_true_eq_false, if_false]
  simp only [hf2, front_ok, front_buf, Outcome.state, Option.getD_some, Bool.true_eq_false,
    if_false]
  simp only [hpo2, Outcome.val?, Outcome.state, ne_eq, not_true_eq_false, if_false]
  simp only [hf3, front_buf, Outcome.state, Option.getD_some]
  simp only [hc, hpo3, hpo4, Outcome.val?, Outcome.state, ne_eq, not_true_eq_false, if_false]
  rw [load_store_max, load_store_hans, load_store_mustermann, load_store_hans]
  decide

theorem fifoq_test_passes_witness :
    fifoq_test (env_ok 16) (env_ok 32) (env_ok 64) (env_ok 96) (env_ok 0) Buf.zero = true :=
  fifoq_test_passes (env_ok 16) (env_ok 32) (env_ok 64) (env_ok 96) (env_ok 0) Buf.zero
    (fresh_mem 16 0) rfl (by decide)

/-- C16, as stated, fails: on the thread-safe queue reached from a fresh one by one
successful push (length 1), a `fifoq_count` whose `pthread_mutex_lock` fails returns 0, not
the length, and `fifoq_empty` returns `true` although the queue holds a node. -/
theorem count_length_counterexample :
    (run [.push (env_ok 32) (some (byte_buf 100))] (_fifoq_init (env_ok 16) 1 1)).map
        (fun s => s.q.num_nodes) = some 1 ∧
    (fifoq_count (env_lock_fails 0)
        (run [.push (env_ok 32) (some (byte_buf 100))] (_fifoq_init (env_ok 16) 1 1))).1 = 0 ∧
    (fifoq_empty (env_lock_fails 0)
        (run [.push (env_ok 32) (some (byte_buf 100))] (_fifoq_init (env_ok 16) 1 1))).1
      = true := by
  decide

/-- C16, amended.  `fifoq_count` returns 0 for a null handle and `fifoq_empty` returns
`true` for it; `fifoq_empty(q)` is `fifoq_count(q) == 0` for every `q`; on a well-formed
queue that is non-threadsafe or acquires the lock, `fifoq_count` returns the length field,
which is the number of nodes, and `fifoq_empty` is `true` exactly when there is no node; on
a thread-safe queue refused the lock `fifoq_count` returns 0 and `fifoq_empty` `true`. -/
theorem count_empty_result (env : Env) (q : fifoq) (s : Mem) (l : List (Nat × Buf))
    (hr : Rep s l) :
    (fifoq_count env none).1 = 0 ∧ (fifoq_empty env none).1 = true ∧
    (fifoq_empty env q).1 = ((fifoq_count env q).1 == 0) ∧
    ((q_threadsafe s.q = false ∨ env.mutex_lock = 0) →
      (fifoq_count env (some s)).1 = s.q.num_nodes ∧
      (fifoq_count env (some s)).1 = l.length ∧
      ((fifoq_empty env (some s)).1 = true ↔ l = [])) ∧
    ((q_threadsafe s.q = true ∧ env.mutex_lock ≠ 0) →
      (fifoq_count env (some s)).1 = 0 ∧ (fifoq_empty env (some s)).1 = true) := by
  refine ⟨rfl, rfl, rfl, ?_, ?_⟩
  · intro hok
    have hn : ¬(q_threadsafe s.q = true ∧ env.mutex_lock ≠ 0) := by
      rintro ⟨h1, h2⟩
      rcases hok with h | h
      · rw [h1] at h; cases h
      · exact h2 h
    have hc : (fifoq_count env (some s)).1 = s.q.num_nodes := by
      rw [count_val, if_neg hn]
    refine ⟨hc, by rw [hc, hr.count], ?_⟩
    simp only [fifoq_empty, hc, hr.count, beq_iff_eq]
    exact List.length_eq_zero
  · intro hfail
    have hc : (fifoq_count env (some s)).1 = 0 := by
      rw [count_val, if_pos hfail]
    exact ⟨hc, by simp [fifoq_empty, hc]⟩

theorem count_empty_result_witness :
    (fifoq_count (env_ok 0) none).1 = 0 ∧ (fifoq_empty (env_ok 0) none).1 = true ∧
    (fifoq_empty (env_ok 0) (some (one_node 1))).1
      = ((fifoq_count (env_ok 0) (some (one_node 1))).1 == 0) ∧
    ((q_threadsafe (one_node 1).q = false ∨ (env_ok 0).mutex_lock = 0) →
      (fifoq_count (env_ok 0) (some (one_node 1))).1 = (one_node 1).q.num_nodes ∧
      (fifoq_count (env_ok 0) (some (one_node 1))).1 = [(32, byte_buf 100)].length ∧
      ((fifoq_empty (env_ok 0) (some (one_node 1))).1 = true ↔ [(32, byte_buf 100)] = [])) ∧
    ((q_threadsafe (one_node 1).q = true ∧ (env_ok 0).mutex_lock ≠ 0) →
      (fifoq_count (env_ok 0) (some (one_node 1))).1 = 0 ∧
      (fifoq_empty (env_ok 0) (some (one_node 1))).1 = true) :=
  count_empty_result (env_ok 0) (some (one_node 1)) (one_node 1) [(32, byte_buf 100)]
    (one_node_rep 1)

/-- C18 (structural invariant).  In the state `_fifoq_init` returns and in every state
reached from it by a sequence of `fifoq_push`, `fifoq_pop`, `fifoq_front`, `fifoq_rear` and
`fifoq_count` calls, whatever they return (the wake-ups of waiting calls showing
well-formed queues): head is `NULL` iff tail is `NULL` iff the length is 0; following
`next` from head visits exactly `num_nodes` distinct nodes and then reaches `NULL`, the
last node visited is tail and its `next` is `NULL`; and a `fifoq_pop` that removes a node
decrements a length that is not 0. -/
theorem structural_invariant (ienv : Env) (dsize opts : Nat) (s0 : Mem) (ops : List Op)
    (hinit : _fifoq_init ienv dsize opts = some s0)
    (hwk : ∀ o ∈ ops, ∀ w ∈ o.env.wakes, Valid w) :
    ∃ s l, reach ops (some s0) = some s ∧
      (s.q.front = none ↔ s.q.rear = none) ∧ (s.q.rear = none ↔ s.q.num_nodes = 0) ∧
      Chain s.heap s.q.front l ∧ l.length = s.q.num_nodes ∧ (l.map Prod.fst).Nodup ∧
      s.q.rear = (l.map Prod.fst).getLast? ∧
      (∀ r, s.q.rear = some r → node_next s.heap r = none) ∧
      (∀ env s1, (∀ w ∈ env.wakes, Valid w) →
        fifoq_pop env (some s) = .ret true (some s1) →
        ∃ t, (SameQueue t s ∨ ∃ w ∈ env.wakes, SameQueue t w) ∧
          t.q.num_nodes ≠ 0 ∧ s1.q.num_nodes + 1 = t.q.num_nodes) := by
  obtain ⟨hr0, _⟩ := init_rep ienv dsize opts s0 hinit
  obtain ⟨s, hs, l, hr⟩ := reach_valid ops s0 ⟨[], hr0⟩ hwk
  have hrear : s.q.rear = none ↔ l = [] := by
    rw [hr.rear, List.getLast?_eq_none_iff, List.map_eq_nil_iff]
  refine ⟨s, l, hs, ?_, ?_, hr.chain, hr.count.symm, hr.nodup, hr.rear, ?_, ?_⟩
  · rw [hr.front_none_iff, hrear]
  · rw [hrear, hr.count, List.length_eq_zero]
  · intro r hrr
    rw [hr.rear, List.getLast?_map] at hrr
    cases hl : l.getLast? with
    | none => rw [hl] at hrr; cases hrr
    | some x =>
      rw [hl] at hrr
      simp only [Option.map_some', Option.some.injEq] at hrr
      rw [← hrr]
      exact (chain_last_next _ _ _ hr.chain x hl).1
  · intro env s1 hw hpop
    rcases pop_any env s ⟨l, hr⟩ hw with ⟨_, h, _⟩ | h | ⟨s2, t, h, _, h1, h2, h3⟩
    · rw [h] at hpop; cases hpop
    · rw [h] at hpop; cases hpop
    · rw [h] at hpop
      cases hpop
      exact ⟨t, h1, h2, h3⟩

theorem structural_invariant_witness :
    ∃ s l, reach push_count_pop (some (fresh_mem 1 0)) = some s ∧
      (s.q.front = none ↔ s.q.rear = none) ∧ (s.q.rear = none ↔ s.q.num_nodes = 0) ∧
      Chain s.heap s.q.front l ∧ l.length = s.q.num_nodes ∧ (l.map Prod.fst).Nodup ∧
      s.q.rear = (l.map Prod.fst).getLast? ∧
      (∀ r, s.q.rear = some r → node_next s.heap r = none) ∧
      (∀ env s1, (∀ w ∈ env.wakes, Valid w) →
        fifoq_pop env (some s) = .ret true (some s1) →
        ∃ t, (SameQueue t s ∨ ∃ w ∈ env.wakes, SameQueue t w) ∧
          t.q.num_nodes ≠ 0 ∧ s1.q.num_nodes + 1 = t.q.num_nodes) :=
  structural_invariant (env_ok 16) 1 0 (fresh_mem 1 0) push_count_pop rfl (by
    intro o ho w hw
    simp only [push_count_pop, List.mem_cons, List.mem_singleton, List.not_mem_nil,
      or_false] at ho
    rcases ho with h | h | h <;> subst h <;> cases hw)

/-- C19, as stated, fails: on a queue created with the thread-safe flag, `fifoq_destroy`
reads the head and writes head, tail and length without holding the lock (it never takes
it). -/
theorem destroy_unlocked_counterexample :
    (_fifoq_init (env_ok 16) 1 1).map (fun s => q_threadsafe s.q) = some true ∧
    trace_destroy (_fifoq_init (env_ok 16) 1 1)
      = [.rd .front, .rd .opts, .rd .ts_impl, .rd .ts_impl, .wr .ts_impl, .wr .rear,
         .wr .front, .wr .dsize, .wr .opts, .wr .num_nodes] ∧
    locked_accesses false (trace_destroy (_fifoq_init (env_ok 16) 1 1)) = false := by
  decide

/-- C19, amended.  On a queue with the thread-safe flag, `fifoq_push`, `fifoq_pop`,
`fifoq_front`, `fifoq_rear`, `fifoq_count` and `fifoq_empty` read and write the head, the
tail and the length only while they hold the lock, and the lock is not held when they end
(they released it, or never acquired it); `fifoq_destroy` takes the lock nowhere and
accesses the head without it. -/
theorem lock_discipline (env : Env) (s : Mem) (data : Option Buf)
    (hts : q_threadsafe s.q = true) :
    (locked_accesses false (trace_push env (some s) data) = true ∧
      held_after false (trace_push env (some s) data) = false) ∧
    (locked_accesses false (trace_pop env (some s) true) = true ∧
      held_after false (trace_pop env (some s) true) = false) ∧
    (locked_accesses false (trace_front env (some s) data) = true ∧
      held_after false (trace_front env (some s) data) = false) ∧
    (locked_accesses false (trace_rear env (some s) data) = true ∧
      held_after false (trace_rear env (some s) data) = false) ∧
    (locked_accesses false (trace_count env (some s)) = true ∧
      held_after false (trace_count env (some s)) = false) ∧
    (locked_accesses false (trace_empty env (some s)) = true ∧
      held_after false (trace_empty env (some s)) = false) ∧
    locked_accesses false (trace_destroy (some s)) = false ∧
    Ev.lock_ok ∉ trace_destroy (some s) := by
  have hrear := trace_rear_ok env s data hts
  refine ⟨trace_push_ok env s data hts, trace_pop_ok env s true hts, ?_,
    ⟨hrear.1, hrear.2.1⟩, trace_count_ok env s hts, trace_count_ok env s hts,
    (trace_destroy_bad s).1, (trace_destroy_bad s).2⟩
  cases data with
  | none => exact ⟨rfl, rfl⟩
  | some d => exact trace_pop_ok env s false hts

theorem lock_discipline_witness :
    (locked_accesses false (trace_push (env_ok 64) (some (one_node 1)) (some Buf.zero))
        = true ∧
      held_after false (trace_push (env_ok 64) (some (one_node 1)) (some Buf.zero))
        = false) ∧
    (locked_accesses false (trace_pop (env_ok 64) (some (one_node 1)) true) = true ∧
      held_after false (trace_pop (env_ok 64) (some (one_node 1)) true) = false) ∧
    (locked_accesses false (trace_front (env_ok 64) (some (one_node 1)) (some Buf.zero))
        = true ∧
      held_after false (trace_front (env_ok 64) (some (one_node 1)) (some Buf.zero))
        = false) ∧
    (locked_accesses false (trace_rear (env_ok 64) (some (one_node 1)) (some Buf.zero))
        = true ∧
      held_after false (trace_rear (env_ok 64) (some (one_node 1)) (some Buf.zero))
        = false) ∧
    (locked_accesses false (trace_count (env_ok 64) (some (one_node 1))) = true ∧
      held_after false (trace_count (env_ok 64) (some (one_node 1))) = false) ∧
    (locked_accesses false (trace_empty (env_ok 64) (some (one_node 1))) = true ∧
      held_after false (trace_empty (env_ok 64) (some (one_node 1))) = false) ∧
    locked_accesses false (trace_destroy (some (one_node 1))) = false ∧
    Ev.lock_ok ∉ trace_destroy (some (one_node 1)) :=
  lock_discipline (env_ok 64) (one_node 1) (some Buf.zero) (by decide)

/-- C20 (list refinement).  Reading a non-threadsafe queue as the list `elements` of its
elements from head to tail: `_fifoq_init` yields the empty list, and in every state reached
by a finite sequence of push, pop, front, rear and count calls, in any order, a push either
fails leaving everything as it was or succeeds and maps the list `l` to `l ++ [x]`, pop
succeeds iff `l` is non-empty and maps `l` to its tail, front succeeds iff `l` is non-empty
and writes its first element, rear succeeds iff `l` is non-empty and writes its last
element, count returns the length of `l`; front, rear and count leave the state as it
was. -/
theorem list_refinement (ienv : Env) (dsize opts : Nat) (s0 : Mem) (ops : List Op)
    (hinit : _fifoq_init ienv dsize opts = some s0)
    (hnts : q_threadsafe s0.q = false) :
    elements s0 = spec_init ∧
    ∃ s, reach ops (some s0) = some s ∧
      (∀ env x, fifoq_push env (some s) (some x) = (false, some s) ∨
        ∃ s1, fifoq_push env (some s) (some x) = (true, some s1) ∧
          elements s1 = spec_push (elements s) (memcpy Buf.zero x (width s0.q))) ∧
      (∀ env, ∃ s1, fifoq_pop env (some s) = .ret (spec_pop (elements s)).1 (some s1) ∧
        elements s1 = (spec_pop (elements s)).2) ∧
      (∀ env out, fifoq_front env (some s) (some out)
        = .ret ((spec_front (elements s)).isSome,
            some (peeked (width s0.q) out (spec_front (elements s)))) (some s)) ∧
      (∀ env out, fifoq_rear env (some s) (some out)
        = ((spec_rear (elements s)).isSome,
            some (peeked (width s0.q) out (spec_rear (elements s))), some s)) ∧
      (∀ env, fifoq_count env (some s) = (spec_count (elements s), some s)) := by
  obtain ⟨hr0, _⟩ := init_rep ienv dsize opts s0 hinit
  obtain ⟨s, l, hs, hr, ho, hd⟩ := reach_nts ops s0 [] hr0 hnts
  have hts : q_threadsafe s.q = false := by rw [q_threadsafe_congr ho]; exact hnts
  have hwd : width s.q = width s0.q := width_congr ho hd
  have hel := hr.elements
  refine ⟨hr0.elements, s, hs, ?_, ?_, ?_, ?_, ?_⟩
  · intro env x
    rcases push_rep env s x l hr with h | ⟨a, s1, h1, _, _, h2, _⟩
    · exact Or.inl h
    · right
      refine ⟨s1, h1, ?_⟩
      rw [h2.elements, hel, hwd]
      simp [spec_push]
  · intro env
    rcases pop_rep env s l hr (Or.inl hts) with ⟨h, h1 | h1⟩ | ⟨_, _, _, _, _, h, _⟩ |
      ⟨x, xs, s1, hl, h1, h2, _⟩
    · refine ⟨s, ?_, ?_⟩
      · rw [h, hel, h1.2]; rfl
      · rw [hel, h1.2]; rfl
    · rw [hts] at h1; exact absurd h1.1 (by simp)
    · rw [hts] at h; cases h
    · refine ⟨s1, ?_, ?_⟩
      · rw [h1, hel, hl]; rfl
      · rw [h2.elements, hel, hl]; rfl
  · intro env out
    rcases front_rep env s l out hr (Or.inl hts) with ⟨h, h1 | h1⟩ | ⟨_, _, _, h, _⟩ |
      ⟨x, xs, s1, hl, h1, _, h2, _⟩
    · rw [h, hel, h1.2]; rfl
    · rw [hts] at h1; exact absurd h1.1 (by simp)
    · rw [hts] at h; cases h
    · rw [h1, h2 hts, hel, hl, hwd]; rfl
  · intro env out
    rcases rear_rep env s l out hr with ⟨_, h, _⟩ | ⟨s1, h, hl, _, h2, _⟩ |
      ⟨x, s1, hl, h, _, h2, _⟩
    · rw [hts] at h; cases h
    · rw [h, h2 hts, hel, hl]; rfl
    · have hlast : spec_rear (l.map Prod.snd) = some x.2 := by
        simp only [spec_rear, List.getLast?_map, hl, Option.map_some']
      rw [h, h2 hts, hel, hlast, hwd]; rfl
  · intro env
    have h : fifoq_count env (some s) = (s.q.num_nodes, some s) := by
      simp only [fifoq_count, hts, Bool.false_eq_true, if_false, ne_eq, not_true_eq_false]
    rw [h, hel, hr.count]
    simp [spec_count]

theorem list_refinement_witness :
    elements (fresh_mem 1 0) = spec_init ∧
    ∃ s, reach push_count_pop (some (fresh_mem 1 0)) = some s ∧
      (∀ env x, fifoq_push env (some s) (some x) = (false, some s) ∨
        ∃ s1, fifoq_push env (some s) (some x) = (true, some s1) ∧
          elements s1 = spec_push (elements s) (memcpy Buf.zero x (width (fresh_mem 1 0).q))) ∧
      (∀ env, ∃ s1, fifoq_pop env (some s) = .ret (spec_pop (elements s)).1 (some s1) ∧
        elements s1 = (spec_pop (elements s)).2) ∧
      (∀ env out, fifoq_front env (some s) (some out)
        = .ret ((spec_front (elements s)).isSome,
            some (peeked (width (fresh_mem 1 0).q) out (spec_front (elements s)))) (some s)) ∧
      (∀ env out, fifoq_rear env (some s) (some out)
        = ((spec_rear (elements s)).isSome,
            some (peeked (width (fresh_mem 1 0).q) out (spec_rear (elements s))), some s)) ∧
      (∀ env, fifoq_count env (some s) = (spec_count (elements s), some s)) :=
  list_refinement (env_ok 16) 1 0 (fresh_mem 1 0) push_count_pop rfl (by decide)

end Fifoq
